import Mathlib

/-!
Verification of the hexary Merkle-Patricia trie state engine
(trie/trie.go, core/state/database.go, core/state stateless verifier).

The Go source is shallowly embedded: trie nodes become an inductive type,
the mutating operations (insert, delete, tryGet1, unloadOlderThan, the
writers and the commit path) become pure functions that return the updated
structure together with the flags the Go code tracks in its continuation
object (c.n and c.updated).  Machine integers are Nat (all the quantities
involved - nibbles, lengths, generations - are non-negative and never
overflow in the modelled paths).  Code that can fail returns Option or an
explicit result type with a constructor for the Go panic.

Parts of the repository that the claims depend on but that are not in the
provided sources (node.go with the node flags, hasher.go, encoding.go with
the compact key codec, the RLP library, keccak-256) are modelled from the
specification; each such definition carries a doc comment starting with
"Modelled from the spec:".  keccak-256 itself is an external cryptographic
primitive and is kept as an explicit function parameter throughout.
-/

namespace GoEth

/-! ## Hex / compact key encodings

encoding.go is not part of the provided sources.  The functions below are
modelled from the spec: "Compact encoding: packing a nibble sequence
two-per-byte with a one-byte header carrying the length parity and the
leaf/extension flag", "Hex sequence: a sequence of values in 0..16 where 16
is a terminator marking a value-carrying key", and the round-trip law
"compact(hex) -> hex(compact) = identity for all hex sequences". -/

/-- Modelled from the spec: pack a nibble sequence two nibbles per byte
(an odd trailing nibble is handled by the caller via the header byte). -/
def packNibbles : List Nat → List Nat
  | a :: b :: rest => (a * 16 + b) :: packNibbles rest
  | _ => []

/-- Modelled from the spec: unpack bytes into two nibbles each. -/
def unpackNibbles : List Nat → List Nat
  | b :: rest => b / 16 :: b % 16 :: unpackNibbles rest
  | [] => []

/-- Does the hex key end with the terminator nibble 16? -/
def hasTerm (hex : List Nat) : Bool := hex.getLast? = some 16

/-- Modelled from the spec: compact encoding of a hex-nibble sequence.
The header byte carries the terminator flag (bit 5), the parity (bit 4)
and, for odd length, the first nibble. -/
def hexToCompact (hex : List Nat) : List Nat :=
  let t : Nat := if hasTerm hex then 1 else 0
  let hex1 := if hasTerm hex then hex.dropLast else hex
  if hex1.length % 2 = 1 then
    (t * 32 + 16 + hex1.headD 0) :: packNibbles hex1.tail
  else
    (t * 32) :: packNibbles hex1

/-- Modelled from the spec: decoding of a compact key back to hex nibbles,
re-appending the terminator 16 when the header's terminator bit is set. -/
def compactToHex (compact : List Nat) : List Nat :=
  match compact with
  | [] => []
  | flag :: rest =>
    let nibbles := unpackNibbles rest
    let n1 := if (flag / 16) % 2 = 1 then (flag % 16) :: nibbles else nibbles
    if (flag / 32) % 2 = 1 then n1 ++ [16] else n1

/-- Modelled from the spec: hex expansion of a byte key - two nibbles per
byte followed by the terminator 16. -/
def keybytesToHex (key : List Nat) : List Nat :=
  (key.flatMap (fun b => [b / 16, b % 16])) ++ [16]

/-- Length of the longest common prefix of two nibble sequences
(prefixLen in trie.go). -/
def prefixLen : List Nat → List Nat → Nat
  | a :: as, b :: bs => if a = b then prefixLen as bs + 1 else 0
  | _, _ => 0

/-- A hex-nibble sequence is valid when every element is below 16 except
possibly a final terminator 16. -/
def validHex (hk : List Nat) : Bool :=
  hk.dropLast.all (· < 16) && hk.getLast?.getD 0 ≤ 16

/-- A byte-key hex expansion: all nibbles below 16 and a final 16. -/
def validKey (k : List Nat) : Bool :=
  k.dropLast.all (· < 16) && k.getLast? = some 16

theorem unpackNibbles_packNibbles (l : List Nat) (h : ∀ a ∈ l, a < 16)
    (he : l.length % 2 = 0) : unpackNibbles (packNibbles l) = l :=
  match l with
  | [] => rfl
  | [_] => by simp at he
  | a :: b :: r => by
    have ha : a < 16 := h a (by simp)
    have hb : b < 16 := h b (by simp)
    have he' : r.length % 2 = 0 := by
      simp only [List.length_cons] at he
      omega
    have hr : unpackNibbles (packNibbles r) = r :=
      unpackNibbles_packNibbles r (fun x hx => h x (by simp [hx])) he'
    simp only [packNibbles, unpackNibbles, hr]
    rw [show (a * 16 + b) / 16 = a by omega, show (a * 16 + b) % 16 = b by omega]

theorem validKey_validHex {k : List Nat} (h : validKey k = true) :
    validHex k = true := by
  unfold validKey at h
  unfold validHex
  simp only [Bool.and_eq_true, decide_eq_true_eq] at h ⊢
  refine ⟨h.1, ?_⟩
  rw [h.2]
  simp

theorem validKey_keybytesToHex (key : List Nat) (h : ∀ b ∈ key, b < 256) :
    validKey (keybytesToHex key) = true := by
  unfold validKey keybytesToHex
  simp only [Bool.and_eq_true, decide_eq_true_eq]
  constructor
  · have : (key.flatMap (fun b => [b / 16, b % 16])).all (· < 16) = true := by
      simp only [List.all_eq_true, List.mem_flatMap]
      rintro x ⟨b, hb, hx⟩
      have := h b hb
      simp only [List.mem_cons, List.mem_singleton] at hx
      rcases hx with rfl | hx
      · simp only [decide_eq_true_eq]; omega
      · rcases hx with rfl | hx
        · simp only [decide_eq_true_eq]; omega
        · simp at hx
    rw [List.dropLast_concat]
    exact this
  · simp

theorem keybytesToHex_length (key : List Nat) :
    (keybytesToHex key).length = 2 * key.length + 1 := by
  have : ∀ l : List Nat, (l.flatMap (fun b => [b / 16, b % 16])).length = 2 * l.length := by
    intro l
    induction l with
    | nil => simp
    | cons b r ih =>
      simp only [List.flatMap_cons, List.length_append, List.length_cons, ih]
      simp
      omega
  unfold keybytesToHex
  simp [this]

theorem validHex_dropLast_all {hk : List Nat} (h : validHex hk = true) :
    ∀ a ∈ hk.dropLast, a < 16 := by
  unfold validHex at h
  simp only [Bool.and_eq_true, List.all_eq_true, decide_eq_true_eq] at h
  exact h.1

theorem validHex_le16 {hk : List Nat} (h : validHex hk = true) :
    ∀ a ∈ hk, a ≤ 16 := by
  intro a ha
  rcases List.eq_nil_or_concat hk with rfl | ⟨l, b, rfl⟩
  · simp at ha
  · simp only [List.concat_eq_append] at h ha
    unfold validHex at h
    simp only [List.dropLast_concat, List.getLast?_concat, Option.getD_some,
      Bool.and_eq_true, List.all_eq_true, decide_eq_true_eq] at h
    rcases List.mem_append.mp ha with h1 | h1
    · exact Nat.le_of_lt (h.1 a h1)
    · simp only [List.mem_singleton] at h1
      subst h1
      exact h.2

theorem compactToHex_cons (flag : Nat) (rest : List Nat) :
    compactToHex (flag :: rest) =
      (if (flag / 32) % 2 = 1 then
        (if (flag / 16) % 2 = 1 then (flag % 16) :: unpackNibbles rest
         else unpackNibbles rest) ++ [16]
       else
        (if (flag / 16) % 2 = 1 then (flag % 16) :: unpackNibbles rest
         else unpackNibbles rest)) := rfl

theorem compactToHex_header (t : Nat) (body : List Nat)
    (hall : ∀ a ∈ body, a < 16) (ht : t ≤ 1) :
    compactToHex (
      if body.length % 2 = 1 then (t * 32 + 16 + body.headD 0) :: packNibbles body.tail
      else (t * 32) :: packNibbles body)
    = (if t = 1 then body ++ [16] else body) := by
  by_cases hpar : body.length % 2 = 1
  · have hne : body ≠ [] := by
      intro h0
      rw [h0] at hpar
      simp at hpar
    obtain ⟨x, xs, rfl⟩ := List.exists_cons_of_ne_nil hne
    have hx : x < 16 := hall x (by simp)
    have hxs : unpackNibbles (packNibbles xs) = xs := by
      refine unpackNibbles_packNibbles xs (fun a ha => hall a (by simp [ha])) ?_
      simp only [List.length_cons] at hpar
      omega
    simp only [hpar, if_true, List.headD_cons, List.tail_cons]
    rw [compactToHex_cons]
    rw [show ((t * 32 + 16 + x) / 16) % 2 = 1 by omega]
    rw [show (t * 32 + 16 + x) % 16 = x by omega]
    rw [show ((t * 32 + 16 + x) / 32) % 2 = t % 2 by omega]
    simp only [hxs]
    rcases (by omega : t = 0 ∨ t = 1) with rfl | rfl <;> simp
  · have hbody : unpackNibbles (packNibbles body) = body := by
      refine unpackNibbles_packNibbles body hall ?_
      omega
    simp only [hpar, if_false]
    rw [compactToHex_cons]
    rw [show ((t * 32) / 16) % 2 = 0 by omega]
    rw [show ((t * 32) / 32) % 2 = t % 2 by omega]
    simp only [hbody]
    rcases (by omega : t = 0 ∨ t = 1) with rfl | rfl <;> simp

/-- Round trip of the compact key codec on valid hex sequences; this is the
spec's law "compact(hex) -> hex(compact) = identity". -/
theorem compactToHex_hexToCompact (hk : List Nat) (h : validHex hk = true) :
    compactToHex (hexToCompact hk) = hk := by
  unfold hexToCompact
  by_cases hterm : hasTerm hk
  · have h16 : hk.getLast? = some 16 := by
      unfold hasTerm at hterm
      simpa using hterm
    have hcat : hk.dropLast ++ [16] = hk :=
      List.dropLast_append_getLast? 16 (by rw [h16]; rfl)
    have hall : ∀ a ∈ hk.dropLast, a < 16 := validHex_dropLast_all h
    simp only [hterm, if_true]
    rw [compactToHex_header 1 hk.dropLast hall (by omega)]
    simp [hcat]
  · have hall : ∀ a ∈ hk, a < 16 := by
      intro a ha
      rcases List.eq_nil_or_concat hk with rfl | ⟨l, b, rfl⟩
      · simp at ha
      · simp only [List.concat_eq_append] at ha h hterm
        have hb : b ≠ 16 := by
          intro hb
          subst hb
          unfold hasTerm at hterm
          simp at hterm
        have := validHex_le16 h a ha
        rcases List.mem_append.mp ha with h1 | h1
        · exact validHex_dropLast_all h a (by simpa [List.dropLast_concat] using h1)
        · simp only [List.mem_singleton] at h1
          subst h1
          omega
    rw [Bool.not_eq_true] at hterm
    simp only [hterm, Bool.false_eq_true, if_false]
    rw [compactToHex_header 0 hk hall (by omega)]
    simp

theorem hexToCompact_ne_nil (hk : List Nat) : hexToCompact hk ≠ [] := by
  unfold hexToCompact
  by_cases h : (if hasTerm hk then hk.dropLast else hk).length % 2 = 1 <;> simp [h]

theorem validHex_of_all_lt {l : List Nat} (h : ∀ a ∈ l, a < 16) :
    validHex l = true := by
  unfold validHex
  simp only [Bool.and_eq_true, List.all_eq_true, decide_eq_true_eq]
  constructor
  · exact fun a ha => h a (List.dropLast_subset l ha)
  · cases hl : l.getLast? with
    | none => simp
    | some b =>
      have : b ∈ l := List.mem_of_mem_getLast? (by rw [hl]; rfl)
      simpa using Nat.le_of_lt (h b this)

theorem validKey_drop {k : List Nat} (h : validKey k = true) (n : Nat)
    (hn : n < k.length) : validKey (k.drop n) = true := by
  unfold validKey at h ⊢
  simp only [Bool.and_eq_true, List.all_eq_true, decide_eq_true_eq] at h ⊢
  rcases List.eq_nil_or_concat k with rfl | ⟨l, b, rfl⟩
  · simp at hn
  · simp only [List.concat_eq_append] at h hn ⊢
    simp only [List.getLast?_concat, Option.some.injEq] at h
    obtain ⟨h1, rfl⟩ := h
    simp only [List.dropLast_concat] at h1
    have hlen : n ≤ l.length := by
      simp only [List.length_append, List.length_singleton] at hn
      omega
    rw [List.drop_append_of_le_length hlen]
    constructor
    · rw [List.dropLast_concat]
      exact fun a ha => h1 a (List.mem_of_mem_drop ha)
    · simp

/-! ## Node model

node.go is not part of the provided sources.  Modelled from the spec (§3):
five tagged variants Short, Duo, Full, Hash, Value plus the absent node,
with per-node metadata flags = (dirty, cached hash, birth generation t,
oldest-descendant generation tod).  Short stores its key in compact form,
exactly as the Go shortNode does.  Duo stores its two child indices (the
two set bits of the Go mask, low bit first) plus the two children.  Full
stores the 17-entry child list. -/

structure Flags where
  dirty : Bool := false
  t : Nat := 0
  tod : Nat := 0
  hash : List Nat := []
deriving Repr, DecidableEq

inductive node where
  | nilNode : node
  | hashNode (h : List Nat) : node
  | valueNode (v : List Nat) : node
  | shortNode (key : List Nat) (val : node) (fl : Flags) : node
  | duoNode (i1 i2 : Nat) (child1 child2 : node) (fl : Flags) : node
  | fullNode (children : List node) (fl : Flags) : node
deriving Repr

def node.isNull : node → Bool
  | .nilNode => true
  | _ => false

def node.isHash : node → Bool
  | .hashNode _ => true
  | _ => false

/-- Modelled from the spec: a node's oldest-descendant generation as read
by the walker; unflagged nodes report the current block. -/
def node.todv (bn : Nat) : node → Nat
  | .shortNode _ _ fl => fl.tod
  | .duoNode _ _ _ _ fl => fl.tod
  | .fullNode _ fl => fl.tod
  | _ => bn

def minChildTod (ch : List node) (bn : Nat) : Nat :=
  ch.foldl (fun acc c => if c.isNull then acc else min acc (c.todv bn)) bn

/-- Modelled from the spec: adjustTod recomputes tod as the minimum of the
node's own generation and its children's tod values. -/
def adjustTod (n : node) (bn : Nat) : node :=
  match n with
  | .shortNode k v fl => .shortNode k v { fl with tod := min fl.t (v.todv bn) }
  | .duoNode i1 i2 c1 c2 fl =>
    .duoNode i1 i2 c1 c2 { fl with tod := min fl.t (min (c1.todv bn) (c2.todv bn)) }
  | .fullNode ch fl => .fullNode ch { fl with tod := min fl.t (minChildTod ch bn) }
  | x => x

/-- Erase all flag metadata; the hash of a node is a function of this
projection only, so structural results are stated through it. -/
def stripFlags : node → node
  | .shortNode k v _ => .shortNode k (stripFlags v) {}
  | .duoNode i1 i2 c1 c2 _ => .duoNode i1 i2 (stripFlags c1) (stripFlags c2) {}
  | .fullNode ch _ =>
    .fullNode (ch.attach.map (fun c => stripFlags c.1)) {}
  | x => x
decreasing_by
  · simp only [node.shortNode.sizeOf_spec]
    omega
  · simp only [node.duoNode.sizeOf_spec]
    omega
  · simp only [node.duoNode.sizeOf_spec]
    omega
  · have := List.sizeOf_lt_of_mem c.2
    simp only [node.fullNode.sizeOf_spec]
    omega

theorem getD_mem_or_default (l : List node) (i : Nat) (d : node) :
    l.getD i d ∈ l ∨ l.getD i d = d := by
  rcases h : l[i]? with _ | x
  · right
    simp [List.getD, h]
  · left
    have hm : x ∈ l := List.getElem?_mem h
    simpa [List.getD, h] using hm

/-- Suffix-form lookup: the value stored for the given remaining nibble
sequence.  This is the functional core of tryGet1 (trie.go, second
version, line 1675): the generation-timestamp maintenance (updateT and
adjustTod calls) and the resolveReads witness recording of tryGet1 touch
only flag metadata and the proof tables, never the returned value. -/
def find : node → List Nat → Option (List Nat)
  | .nilNode, _ => none
  | .hashNode _, _ => none
  | .valueNode v, s => if s = [] then some v else none
  | .shortNode k val _, s =>
    let hk := compactToHex k
    if hk.isPrefixOf s then find val (s.drop hk.length) else none
  | .duoNode i1 i2 c1 c2 _, s =>
    match s with
    | [] => none
    | a :: s1 => if a = i1 then find c1 s1 else if a = i2 then find c2 s1 else none
  | .fullNode ch _, s =>
    match s with
    | [] => none
    | a :: s1 => find (ch.getD a .nilNode) s1
termination_by n _ => sizeOf n
decreasing_by
  · simp only [node.shortNode.sizeOf_spec]
    omega
  · simp only [node.duoNode.sizeOf_spec]
    omega
  · simp only [node.duoNode.sizeOf_spec]
    omega
  · rcases getD_mem_or_default ch a .nilNode with h | h
    · have := List.sizeOf_lt_of_mem h
      simp only [node.fullNode.sizeOf_spec]
      omega
    · rw [h]
      have hch : 1 ≤ sizeOf ch := by cases ch <;> simp_arith
      simp only [node.fullNode.sizeOf_spec, node.nilNode.sizeOf_spec]
      omega

/-- tryGet1 (trie.go line 1675): value plus gotValue flag.  gotValue is
false exactly when the descent hits an unresolved hashNode with
resolveReads off.  As with find, the updateT/adjustTod generation
bookkeeping of the Go code mutates only flag metadata and is omitted
here; the returned pair is as in the source. -/
def tryGet1 : node → List Nat → Nat → (Option (List Nat) × Bool)
  | .nilNode, _, _ => (none, true)
  | .valueNode v, _, _ => (some v, true)
  | .shortNode k val _, key, pos =>
    let nKey := compactToHex k
    if key.length - pos < nKey.length ∨ ¬((key.drop pos).take nKey.length = nKey) then
      (none, true)
    else
      tryGet1 val key (pos + nKey.length)
  | .duoNode i1 i2 c1 c2 _, key, pos =>
    if key.getD pos 0 = i1 then tryGet1 c1 key (pos + 1)
    else if key.getD pos 0 = i2 then tryGet1 c2 key (pos + 1)
    else (none, true)
  | .fullNode ch _, key, pos =>
    tryGet1 (ch.getD (key.getD pos 0) .nilNode) key (pos + 1)
  | .hashNode _, _, _ => (none, false)
termination_by n _ _ => sizeOf n
decreasing_by
  · simp only [node.shortNode.sizeOf_spec]
    omega
  · simp only [node.duoNode.sizeOf_spec]
    omega
  · simp only [node.duoNode.sizeOf_spec]
    omega
  · rcases getD_mem_or_default ch (key.getD pos 0) .nilNode with h | h
    · have := List.sizeOf_lt_of_mem h
      simp only [node.fullNode.sizeOf_spec]
      omega
    · rw [h]
      have hch : 1 ≤ sizeOf ch := by cases ch <;> simp_arith
      simp only [node.fullNode.sizeOf_spec, node.nilNode.sizeOf_spec]
      omega

/-! ## Mutating operations

The Go operations communicate through a TrieContinuation: they return a
done flag and record the resulting node in c.n and whether anything
changed in c.updated.  Result ok n u models done=true with c.n = n and
c.updated = u; need models done=false (resolution of a hash node is
required before the operation can be retried); crash models the Go
panics on the default switch branches.  The resolveReads witness
recording is omitted (it appends to the owning state's proof tables and
never changes the trie). -/

inductive TRes where
  | ok (n : node) (updated : Bool) : TRes
  | need : TRes
  | crash : TRes
deriving Repr

/-- The 17-slot children array of the full node a duo node is promoted to
(insert, trie.go lines 2211-2213). -/
def expandDuo (i1 i2 : Nat) (c1 c2 : node) : List node :=
  (List.range 17).map (fun j => if j = i1 then c1 else if j = i2 then c2 else .nilNode)

/-- Setting one slot of a full node (the write after newnode.adjustTod in
insert, trie.go line 2218). -/
def fullSet (n : node) (i : Nat) (c : node) : node :=
  match n with
  | .fullNode ch f => .fullNode (ch.set i c) f
  | x => x

/-- The key-exhausted case of insert (trie.go lines 2036-2055): at
len(key) == pos an existing value is replaced only if it differs, and any
other node is overwritten by the value. -/
def insertBase (origNode : node) (vval : List Nat) : TRes :=
  match origNode with
  | .valueNode v =>
    if v = vval then .ok (.valueNode v) false else .ok (.valueNode vval) true
  | _ => .ok (.valueNode vval) true

/-- The shortNode arm of insert (trie.go lines 2057-2140).  ir is the
result of the recursive insert into the child at the match point; it is
only consulted in the whole-key-match branch. -/
def insertShortStep (k : List Nat) (val : node) (fl : Flags) (key : List Nat)
    (pos : Nat) (vval : List Nat) (bn : Nat) (ir : TRes) : TRes :=
  let fl1 := { fl with t := bn }
  let nKey := compactToHex k
  let matchlen := prefixLen (key.drop pos) nKey
  if matchlen = nKey.length then
    match ir with
    | .ok n1 u =>
      let newVal := if u then n1 else val
      .ok (adjustTod (.shortNode k newVal { fl1 with dirty := fl1.dirty || u }) bn) u
    | r => r
  else
    let c1 := if nKey.length = matchlen + 1 then val
      else adjustTod (.shortNode (hexToCompact (nKey.drop (matchlen + 1))) val
        { dirty := true, t := bn }) bn
    let c2 := if key.length = pos + matchlen + 1 then .valueNode vval
      else adjustTod (.shortNode (hexToCompact (key.drop (pos + matchlen + 1)))
        (.valueNode vval) { dirty := true, t := bn }) bn
    let na := nKey.getD matchlen 0
    let nb := key.getD (pos + matchlen) 0
    let branch := if na < nb then
        adjustTod (.duoNode na nb c1 c2 { dirty := true, t := bn }) bn
      else
        adjustTod (.duoNode nb na c2 c1 { dirty := true, t := bn }) bn
    if matchlen = 0 then .ok branch true
    else .ok (adjustTod (.shortNode (hexToCompact ((key.drop pos).take matchlen)) branch
      { fl1 with dirty := true }) bn) true

/-- The new leaf hung below a branch slot (insert, trie.go lines
2154-2163 and analogues): the value itself when the key ends right after
the slot, otherwise a value-carrying short node. -/
def newLeaf (key : List Nat) (pos : Nat) (vval : List Nat) (bn : Nat) : node :=
  if key.length = pos + 1 then .valueNode vval
  else adjustTod (.shortNode (hexToCompact (key.drop (pos + 1))) (.valueNode vval)
    { dirty := true, t := bn }) bn

/-- The duoNode arm of insert (trie.go lines 2142-2226).  ir1/ir2 are the
recursive results for child1/child2; each is consulted only when the key
nibble selects the corresponding non-nil child. -/
def insertDuoStep (i1 i2 : Nat) (c1 c2 : node) (fl : Flags) (key : List Nat)
    (pos : Nat) (vval : List Nat) (bn : Nat) (ir1 ir2 : TRes) : TRes :=
  let fl1 := { fl with t := bn }
  let a := key.getD pos 0
  if a = i1 then
    match c1 with
    | .nilNode =>
      .ok (.duoNode i1 i2 (newLeaf key pos vval bn) c2 { fl1 with dirty := true }) true
    | _ =>
      match ir1 with
      | .ok n1 u =>
        let adjust := decide (fl.tod = c1.todv bn)
        let res := .duoNode i1 i2 (if u then n1 else c1) c2
          { fl1 with dirty := fl1.dirty || u }
        .ok (if adjust then adjustTod res bn else res) u
      | r => r
  else if a = i2 then
    match c2 with
    | .nilNode =>
      .ok (.duoNode i1 i2 c1 (newLeaf key pos vval bn) { fl1 with dirty := true }) true
    | _ =>
      match ir2 with
      | .ok n1 u =>
        let adjust := decide (fl.tod = c2.todv bn)
        let res := .duoNode i1 i2 c1 (if u then n1 else c2)
          { fl1 with dirty := fl1.dirty || u }
        .ok (if adjust then adjustTod res bn else res) u
      | r => r
  else
    let base := adjustTod (.fullNode (expandDuo i1 i2 c1 c2)
      { dirty := true, t := bn }) bn
    .ok (fullSet base a (newLeaf key pos vval bn)) true

/-- The fullNode arm of insert (trie.go lines 2228-2261).  ir is the
recursive result for the child at the key nibble; it is consulted only
when that child is non-nil. -/
def insertFullStep (ch : List node) (fl : Flags) (key : List Nat) (pos : Nat)
    (vval : List Nat) (bn : Nat) (ir : TRes) : TRes :=
  let fl1 := { fl with t := bn }
  let a := key.getD pos 0
  let child := ch.getD a .nilNode
  match child with
  | .nilNode =>
    .ok (.fullNode (ch.set a (newLeaf key pos vval bn)) { fl1 with dirty := true }) true
  | _ =>
    match ir with
    | .ok n1 u =>
      let adjust := decide (fl.tod = child.todv bn)
      let res := .fullNode (if u then ch.set a n1 else ch)
        { fl1 with dirty := fl1.dirty || u }
      .ok (if adjust then adjustTod res bn else res) u
    | r => r

/-- insert (trie.go line 2034).  Each recursive result is computed up
front and passed to the per-variant step function; in the branches where
the Go code does not recurse the argument is simply unused, so the
returned value is exactly that of the source. -/
def insert : node → List Nat → Nat → List Nat → Nat → TRes
  | .shortNode k val fl, key, pos, vval, bn =>
    if key.length = pos then insertBase (.shortNode k val fl) vval
    else insertShortStep k val fl key pos vval bn
      (insert val key (pos + prefixLen (key.drop pos) (compactToHex k)) vval bn)
  | .duoNode i1 i2 c1 c2 fl, key, pos, vval, bn =>
    if key.length = pos then insertBase (.duoNode i1 i2 c1 c2 fl) vval
    else insertDuoStep i1 i2 c1 c2 fl key pos vval bn
      (insert c1 key (pos + 1) vval bn) (insert c2 key (pos + 1) vval bn)
  | .fullNode ch fl, key, pos, vval, bn =>
    if key.length = pos then insertBase (.fullNode ch fl) vval
    else insertFullStep ch fl key pos vval bn
      (insert (ch.getD (key.getD pos 0) .nilNode) key (pos + 1) vval bn)
  | .valueNode v, key, pos, vval, _ =>
    if key.length = pos then insertBase (.valueNode v) vval else .crash
  | .hashNode h, key, pos, vval, _ =>
    if key.length = pos then insertBase (.hashNode h) vval else .need
  | .nilNode, key, pos, vval, _ =>
    if key.length = pos then insertBase .nilNode vval else .crash
termination_by n _ _ _ _ => sizeOf n
decreasing_by
  · simp only [node.shortNode.sizeOf_spec]
    omega
  · simp only [node.duoNode.sizeOf_spec]
    omega
  · simp only [node.duoNode.sizeOf_spec]
    omega
  · rcases getD_mem_or_default ch (key.getD pos 0) .nilNode with h | h
    · have := List.sizeOf_lt_of_mem h
      simp only [node.fullNode.sizeOf_spec]
      omega
    · rw [h]
      have hl : 1 ≤ sizeOf ch := by cases ch <;> simp_arith
      simp only [node.fullNode.sizeOf_spec, node.nilNode.sizeOf_spec]
      omega

/-- convertToShortNode (trie.go line 2324), specialised to done = true and
resolveReads off; the hash-child branch requests resolution. -/
def convertToShortNode (child : node) (pos : Nat) (bn : Nat) : TRes :=
  if pos ≠ 16 then
    match child with
    | .hashNode _ => .need
    | .shortNode ck cval _ =>
      let k := pos :: compactToHex ck
      .ok (adjustTod (.shortNode (hexToCompact k) cval { dirty := true, t := bn }) bn) true
    | c =>
      .ok (adjustTod (.shortNode (hexToCompact [pos]) c { dirty := true, t := bn }) bn) true
  else
    .ok (adjustTod (.shortNode (hexToCompact [pos]) child { dirty := true, t := bn }) bn) true

/-- Indices of the non-nil children of a full node, in slot order; used to
model the counting loop of delete (trie.go lines 2566-2581). -/
def nonNullIndices (ch : List node) : List Nat :=
  (List.range 17).filter (fun i => !(ch.getD i .nilNode).isNull)

/-- The shortNode arm of delete (trie.go lines 2407-2466); dr is the
recursive result below the short key, consulted only on a full key
match that does not exhaust the key. -/
def deleteShortStep (k : List Nat) (val : node) (fl : Flags) (key : List Nat)
    (keyStart : Nat) (bn : Nat) (dr : TRes) : TRes :=
  let fl1 := { fl with t := bn }
  let nKey := compactToHex k
  let matchlen := prefixLen (key.drop keyStart) nKey
  if matchlen < nKey.length then
    .ok (.shortNode k val fl1) false
  else if matchlen = key.length - keyStart then
    .ok .nilNode true
  else
    match dr with
    | .ok child u =>
      if !u then
        .ok (.shortNode k val fl1) false
      else
        match child with
        | .nilNode => .ok .nilNode true
        | .shortNode ck cval _ =>
          .ok (adjustTod (.shortNode (hexToCompact (nKey ++ compactToHex ck)) cval
            { dirty := true, t := bn }) bn) true
        | c =>
          .ok (adjustTod (.shortNode k c { fl1 with dirty := true }) bn) true
    | r => r

/-- The duoNode arm of delete (trie.go lines 2468-2541). -/
def deleteDuoStep (i1 i2 : Nat) (c1 c2 : node) (fl : Flags) (key : List Nat)
    (keyStart : Nat) (bn : Nat) (dr1 dr2 : TRes) : TRes :=
  let fl1 := { fl with t := bn }
  let a := key.getD keyStart 0
  if a = i1 then
    let adjust := !c1.isNull && decide (fl.tod = c1.todv bn)
    match dr1 with
    | .ok nn u =>
      if nn.isNull then
        if c2.isNull then
          .ok .nilNode true
        else
          convertToShortNode c2 i2 bn
      else
        let res := .duoNode i1 i2 nn c2 { fl1 with dirty := fl1.dirty || u }
        .ok (if adjust then adjustTod res bn else res) u
    | r => r
  else if a = i2 then
    let adjust := !c2.isNull && decide (fl.tod = c2.todv bn)
    match dr2 with
    | .ok nn u =>
      if nn.isNull then
        if c1.isNull then
          .ok .nilNode true
        else
          convertToShortNode c1 i1 bn
      else
        let res := .duoNode i1 i2 c1 nn { fl1 with dirty := fl1.dirty || u }
        .ok (if adjust then adjustTod res bn else res) u
    | r => r
  else
    .ok (.duoNode i1 i2 c1 c2 fl1) false

/-- The fullNode arm of delete (trie.go lines 2543-2620). -/
def deleteFullStep (ch : List node) (fl : Flags) (key : List Nat)
    (keyStart : Nat) (bn : Nat) (dr : TRes) : TRes :=
  let fl1 := { fl with t := bn }
  let a := key.getD keyStart 0
  let child := ch.getD a .nilNode
  match dr with
  | .ok nn u =>
    let adjust := !child.isNull && decide (fl.tod = child.todv bn)
    let ch1 := ch.set a nn
    let idxs := nonNullIndices ch1
    if idxs.length = 0 then
      .ok .nilNode true
    else if idxs.length = 1 then
      convertToShortNode (ch1.getD (idxs.getD 0 0) .nilNode) (idxs.getD 0 0) bn
    else if idxs.length = 2 then
      let pos1 := idxs.getD 0 0
      let pos2 := idxs.getD 1 0
      let d1 := if pos1 = a then nn else ch1.getD pos1 .nilNode
      let d2 := if pos2 = a then nn else ch1.getD pos2 .nilNode
      .ok (adjustTod (.duoNode pos1 pos2 d1 d2 { dirty := true, t := bn }) bn) true
    else
      let res := .fullNode ch1 { fl1 with dirty := fl1.dirty || u }
      .ok (if adjust then adjustTod res bn else res) u
  | r => r

/-- delete (trie.go line 2404), with the same eager-recursion style as
insert.  In the duoNode arm the Go code recurses only into the child
selected by the key nibble; the other recursive result is unused. -/
def delete : node → List Nat → Nat → Nat → TRes
  | .shortNode k val fl, key, keyStart, bn =>
    deleteShortStep k val fl key keyStart bn
      (delete val key (keyStart + (compactToHex k).length) bn)
  | .duoNode i1 i2 c1 c2 fl, key, keyStart, bn =>
    deleteDuoStep i1 i2 c1 c2 fl key keyStart bn
      (delete c1 key (keyStart + 1) bn) (delete c2 key (keyStart + 1) bn)
  | .fullNode ch fl, key, keyStart, bn =>
    deleteFullStep ch fl key keyStart bn
      (delete (ch.getD (key.getD keyStart 0) .nilNode) key (keyStart + 1) bn)
  | .valueNode _, _, _, _ => .ok .nilNode true
  | .nilNode, _, _, _ => .ok .nilNode false
  | .hashNode _, _, _, _ => .need
termination_by n _ _ _ => sizeOf n
decreasing_by
  · simp only [node.shortNode.sizeOf_spec]
    omega
  · simp only [node.duoNode.sizeOf_spec]
    omega
  · simp only [node.duoNode.sizeOf_spec]
    omega
  · rcases getD_mem_or_default ch (key.getD keyStart 0) .nilNode with h | h
    · have := List.sizeOf_lt_of_mem h
      simp only [node.fullNode.sizeOf_spec]
      omega
    · rw [h]
      have hl : 1 ≤ sizeOf ch := by cases ch <;> simp_arith
      simp only [node.fullNode.sizeOf_spec, node.nilNode.sizeOf_spec]
      omega

/-- A buffered trie mutation: UpdateAction with non-empty value is an
insert, UpdateAction with empty value and DeleteAction are deletes
(trie.go lines 1785-1796 and 2316-2322); the stored key is the hex
expansion of the byte key. -/
inductive TrieOp where
  | ins (key : List Nat) (v : List Nat) : TrieOp
  | del (key : List Nat) : TrieOp

def TrieOp.key : TrieOp → List Nat
  | .ins k _ => k
  | .del k => k

/-- RunWithDb (trie.go line 1965) for one continuation: returns the
resulting root and the updated flag; none when resolution is needed or
the Go code panics. -/
def runWithDb (root : node) (op : TrieOp) (bn : Nat) : Option (node × Bool) :=
  match op with
  | .ins key v =>
    match root with
    | .nilNode =>
      some (adjustTod (.shortNode (hexToCompact key) (.valueNode v)
        { dirty := true, t := bn }) bn, true)
    | _ =>
      match insert root key 0 v bn with
      | .ok n u => some (n, u)
      | _ => none
  | .del key =>
    match delete root key 0 bn with
    | .ok n u => some (n, u)
    | _ => none

/-- The driver step: the root is replaced by c.n when c.updated is set
(RunWithDb, trie.go lines 1985-1991). -/
def applyOp (root : node) (op : TrieOp) (bn : Nat) : node :=
  match runWithDb root op bn with
  | some (n, u) => if u then n else root
  | none => root

def applyOps (ops : List TrieOp) (root : node) (bn : Nat) : node :=
  ops.foldl (fun r op => applyOp r op bn) root

/-! ## Well-formedness

The structural invariants of a resolved (hash-free) trie node holding
keys with a fixed number r of remaining nibbles, from the spec (§3):
no Short child of a Short, Duo and Full never contain an empty child, a
Full has at least 3 set slots, Duo masks have two distinct set bits, and
keys descend consistently.  Short keys are stored compact; wf additionally
records that the stored key round-trips (it was produced by hexToCompact
of a valid hex sequence). -/

def isBranch : node → Bool
  | .duoNode .. => true
  | .fullNode .. => true
  | _ => false

def isShort : node → Bool
  | .shortNode .. => true
  | _ => false

def isValue : node → Bool
  | .valueNode _ => true
  | _ => false

def wf : node → Nat → Bool
  | .valueNode _, r => r = 0
  | .shortNode k val _, r =>
    let hk := compactToHex k
    !hk.isEmpty && validHex hk && (hexToCompact hk = k) && hk.length ≤ r &&
    wf val (r - hk.length) &&
    (!(isBranch val) || hk.all (· < 16)) &&
    (!(isShort val) && !val.isNull && !val.isHash)
  | .duoNode i1 i2 c1 c2 _, r =>
    1 ≤ r && i1 < i2 && i2 ≤ 16 && wf c1 (r - 1) && wf c2 (r - 1) &&
    (!(decide (i2 = 16)) || isValue c2)
  | .fullNode ch _, r =>
    1 ≤ r && ch.length = 17 && 3 ≤ (nonNullIndices ch).length &&
    (List.range 17).all
      (fun i => (ch.getD i .nilNode).isNull || wf (ch.getD i .nilNode) (r - 1)) &&
    ((ch.getD 16 .nilNode).isNull || isValue (ch.getD 16 .nilNode))
  | .nilNode, _ => false
  | .hashNode _, _ => false
termination_by n _ => sizeOf n
decreasing_by
  · simp only [node.shortNode.sizeOf_spec]
    omega
  · simp only [node.duoNode.sizeOf_spec]
    omega
  · simp only [node.duoNode.sizeOf_spec]
    omega
  · rcases getD_mem_or_default ch i .nilNode with h | h
    · have := List.sizeOf_lt_of_mem h
      simp only [node.fullNode.sizeOf_spec]
      omega
    · rw [h]
      have hch : 1 ≤ sizeOf ch := by cases ch <;> simp_arith
      simp only [node.fullNode.sizeOf_spec, node.nilNode.sizeOf_spec]
      omega

/-- A well-formed root: either the empty trie or a well-formed node for
full-length keys. -/
def wfRoot (n : node) (len : Nat) : Bool :=
  n.isNull || wf n len

/-! ## Equation and unfolding lemmas -/

@[simp] theorem find_nilNode (s : List Nat) : find .nilNode s = none := by
  simp [find]

@[simp] theorem find_hashNode (h : List Nat) (s : List Nat) :
    find (.hashNode h) s = none := by
  simp [find]

@[simp] theorem find_valueNode (v : List Nat) (s : List Nat) :
    find (.valueNode v) s = if s = [] then some v else none := by
  simp [find]

@[simp] theorem find_shortNode (k : List Nat) (val : node) (fl : Flags) (s : List Nat) :
    find (.shortNode k val fl) s =
      if (compactToHex k).isPrefixOf s then find val (s.drop (compactToHex k).length)
      else none := by
  simp [find]

@[simp] theorem find_duoNode_nil (i1 i2 : Nat) (c1 c2 : node) (fl : Flags) :
    find (.duoNode i1 i2 c1 c2 fl) [] = none := by
  simp [find]

@[simp] theorem find_duoNode_cons (i1 i2 : Nat) (c1 c2 : node) (fl : Flags)
    (a : Nat) (s1 : List Nat) :
    find (.duoNode i1 i2 c1 c2 fl) (a :: s1) =
      if a = i1 then find c1 s1 else if a = i2 then find c2 s1 else none := by
  simp [find]

@[simp] theorem find_fullNode_nil (ch : List node) (fl : Flags) :
    find (.fullNode ch fl) [] = none := by
  simp [find]

@[simp] theorem find_fullNode_cons (ch : List node) (fl : Flags) (a : Nat) (s1 : List Nat) :
    find (.fullNode ch fl) (a :: s1) = find (ch.getD a .nilNode) s1 := by
  simp [find]

@[simp] theorem wf_nilNode (r : Nat) : wf .nilNode r = false := by
  simp [wf]

@[simp] theorem wf_hashNode (h : List Nat) (r : Nat) : wf (.hashNode h) r = false := by
  simp [wf]

@[simp] theorem wf_valueNode (v : List Nat) (r : Nat) :
    wf (.valueNode v) r = decide (r = 0) := by
  simp [wf]

theorem wf_shortNode_iff (k : List Nat) (val : node) (fl : Flags) (r : Nat) :
    wf (.shortNode k val fl) r = true ↔
      (compactToHex k ≠ [] ∧ validHex (compactToHex k) = true ∧
       hexToCompact (compactToHex k) = k ∧ (compactToHex k).length ≤ r ∧
       wf val (r - (compactToHex k).length) = true ∧
       (isBranch val = true → (compactToHex k).all (· < 16) = true) ∧
       isShort val = false ∧ val.isNull = false ∧ val.isHash = false) := by
  rw [wf]
  simp only [Bool.and_eq_true, Bool.not_eq_true', decide_eq_true_eq,
    Bool.or_eq_true, Bool.not_eq_true, List.isEmpty_eq_false]
  constructor
  · intro h
    refine ⟨h.1.1.1.1.1.1, h.1.1.1.1.1.2, h.1.1.1.1.2, h.1.1.1.2, h.1.1.2, ?_,
      h.2.1.1, h.2.1.2, h.2.2⟩
    intro hb
    rcases h.1.2 with h6 | h6
    · rw [hb] at h6
      simp at h6
    · exact h6
  · intro h
    refine ⟨⟨⟨⟨⟨⟨h.1, h.2.1⟩, h.2.2.1⟩, h.2.2.2.1⟩, h.2.2.2.2.1⟩, ?_⟩,
      ⟨h.2.2.2.2.2.2.1, h.2.2.2.2.2.2.2.1⟩, h.2.2.2.2.2.2.2.2⟩
    by_cases hb : isBranch val
    · exact Or.inr (h.2.2.2.2.2.1 hb)
    · exact Or.inl (by simp [hb])

theorem wf_duoNode_iff (i1 i2 : Nat) (c1 c2 : node) (fl : Flags) (r : Nat) :
    wf (.duoNode i1 i2 c1 c2 fl) r = true ↔
      (1 ≤ r ∧ i1 < i2 ∧ i2 ≤ 16 ∧ wf c1 (r - 1) = true ∧ wf c2 (r - 1) = true ∧
       (i2 = 16 → isValue c2 = true)) := by
  rw [wf]
  simp only [Bool.and_eq_true, Bool.or_eq_true, Bool.not_eq_true',
    decide_eq_true_eq, decide_eq_false_iff_not]
  constructor
  · rintro ⟨⟨⟨⟨⟨h1, h2⟩, h3⟩, h4⟩, h5⟩, h6⟩
    exact ⟨h1, h2, h3, h4, h5, fun h => (h6.resolve_left (fun hc => hc h))⟩
  · rintro ⟨h1, h2, h3, h4, h5, h6⟩
    refine ⟨⟨⟨⟨⟨h1, h2⟩, h3⟩, h4⟩, h5⟩, ?_⟩
    by_cases h : i2 = 16
    · exact Or.inr (h6 h)
    · exact Or.inl h

theorem wf_fullNode_iff (ch : List node) (fl : Flags) (r : Nat) :
    wf (.fullNode ch fl) r = true ↔
      (1 ≤ r ∧ ch.length = 17 ∧ 3 ≤ (nonNullIndices ch).length ∧
       (∀ i < 17, (ch.getD i .nilNode).isNull = true ∨
         wf (ch.getD i .nilNode) (r - 1) = true) ∧
       ((ch.getD 16 .nilNode).isNull = true ∨
         isValue (ch.getD 16 .nilNode) = true)) := by
  rw [wf]
  simp only [Bool.and_eq_true, decide_eq_true_eq, List.all_eq_true, List.mem_range,
    Bool.or_eq_true]
  tauto

theorem wf_ne_nil {n : node} {r : Nat} (h : wf n r = true) : n.isNull = false := by
  cases n <;> try rfl
  simp at h

theorem wf_ne_hash {n : node} {r : Nat} (h : wf n r = true) : n.isHash = false := by
  cases n <;> try rfl
  simp at h

theorem wf_value_of_zero {n : node} (h : wf n 0 = true) : ∃ v, n = .valueNode v := by
  cases n with
  | valueNode v => exact ⟨v, rfl⟩
  | shortNode k val fl =>
    rw [wf_shortNode_iff] at h
    obtain ⟨h1, _, _, h4, _⟩ := h
    exact absurd (Nat.le_zero.mp h4) (by simpa [List.length_eq_zero] using h1)
  | duoNode i1 i2 c1 c2 fl =>
    rw [wf_duoNode_iff] at h
    omega
  | fullNode ch fl =>
    rw [wf_fullNode_iff] at h
    omega
  | nilNode => simp at h
  | hashNode h' => simp at h

/-! ## List helpers -/

theorem getD_set_self {l : List node} {i : Nat} (h : i < l.length) (x d : node) :
    (l.set i x).getD i d = x := by
  simp [List.getD, List.getElem?_set_self h]

theorem getD_set_ne {l : List node} {i j : Nat} (h : i ≠ j) (x d : node) :
    (l.set i x).getD j d = l.getD j d := by
  simp [List.getD, List.getElem?_set_ne h]

theorem getD_expandDuo (i1 i2 : Nat) (c1 c2 : node) (j : Nat) (hj : j < 17) :
    (expandDuo i1 i2 c1 c2).getD j .nilNode =
      (if j = i1 then c1 else if j = i2 then c2 else .nilNode) := by
  unfold expandDuo
  simp [List.getD, List.getElem?_map, List.getElem?_range, hj]

theorem length_expandDuo (i1 i2 : Nat) (c1 c2 : node) :
    (expandDuo i1 i2 c1 c2).length = 17 := by
  simp [expandDuo]

theorem drop_eq_getD_cons {l : List Nat} {pos : Nat} (h : pos < l.length) :
    l.drop pos = l.getD pos 0 :: l.drop (pos + 1) := by
  rw [List.drop_eq_getElem_cons h]
  simp [List.getD, List.getElem?_eq_getElem h]

/-! ## prefixLen facts -/

theorem prefixLen_le_left (a b : List Nat) : prefixLen a b ≤ a.length := by
  induction a generalizing b with
  | nil => simp [prefixLen]
  | cons x xs ih =>
    cases b with
    | nil => simp [prefixLen]
    | cons y ys =>
      have := ih ys
      by_cases h : x = y <;> simp [prefixLen, h] <;> omega

theorem prefixLen_le_right (a b : List Nat) : prefixLen a b ≤ b.length := by
  induction a generalizing b with
  | nil => simp [prefixLen]
  | cons x xs ih =>
    cases b with
    | nil => simp [prefixLen]
    | cons y ys =>
      have := ih ys
      by_cases h : x = y <;> simp [prefixLen, h] <;> omega

theorem prefix_of_prefixLen_eq {a b : List Nat} (h : prefixLen a b = b.length) :
    b <+: a := by
  induction a generalizing b with
  | nil =>
    cases b with
    | nil => exact List.prefix_refl _
    | cons y ys => simp [prefixLen] at h
  | cons x xs ih =>
    cases b with
    | nil => exact List.nil_prefix
    | cons y ys =>
      by_cases hxy : x = y
      · subst hxy
        simp only [prefixLen, if_true, List.length_cons, Nat.succ.injEq] at h
        exact List.cons_prefix_cons.mpr ⟨rfl, ih h⟩
      · simp only [prefixLen, if_neg hxy, List.length_cons] at h
        omega

theorem prefixLen_eq_length_left {a b : List Nat} (h : b <+: a) :
    prefixLen a b = b.length := by
  induction b generalizing a with
  | nil => cases a <;> simp [prefixLen]
  | cons y ys ih =>
    obtain ⟨t, rfl⟩ := h
    have := ih (a := ys ++ t) ⟨t, rfl⟩
    simp only [List.cons_append, prefixLen, eq_self_iff_true, if_true, List.length_cons]
    simp only [List.append_eq] at this ⊢
    omega

theorem prefixLen_getD_ne {a b : List Nat} (h1 : prefixLen a b < a.length)
    (h2 : prefixLen a b < b.length) :
    a.getD (prefixLen a b) 0 ≠ b.getD (prefixLen a b) 0 := by
  induction a generalizing b with
  | nil => simp at h1
  | cons x xs ih =>
    cases b with
    | nil => simp at h2
    | cons y ys =>
      by_cases hxy : x = y
      · subst hxy
        simp only [prefixLen, if_true, List.length_cons] at h1 h2
        simpa [prefixLen, List.getD] using ih (by omega) (by omega)
      · simpa [prefixLen, hxy, List.getD] using hxy

theorem take_prefixLen_eq (a b : List Nat) :
    a.take (prefixLen a b) = b.take (prefixLen a b) := by
  induction a generalizing b with
  | nil => simp [prefixLen]
  | cons x xs ih =>
    cases b with
    | nil => simp [prefixLen]
    | cons y ys =>
      by_cases hxy : x = y
      · subst hxy
        simp [prefixLen, ih ys]
      · simp [prefixLen, hxy]

theorem take_prefix_of_prefixLen {a b : List Nat} :
    a.take (prefixLen a b) <+: b := by
  rw [take_prefixLen_eq]
  exact List.take_prefix _ _

theorem prefix_append_iff {p q s : List Nat} :
    p ++ q <+: s ↔ p <+: s ∧ q <+: s.drop p.length := by
  constructor
  · rintro ⟨t, rfl⟩
    refine ⟨⟨q ++ t, by simp⟩, ?_⟩
    rw [List.append_assoc, List.drop_left]
    exact ⟨t, rfl⟩
  · rintro ⟨⟨t1, rfl⟩, hq⟩
    rw [List.drop_left] at hq
    obtain ⟨t2, rfl⟩ := hq
    exact ⟨t2, by simp⟩

theorem mem_getD {l : List Nat} {j : Nat} (h : j < l.length) (d : Nat) :
    l.getD j d ∈ l := by
  simp only [List.getD, List.get?_eq_getElem?, List.getElem?_eq_getElem h,
    Option.getD_some]
  exact List.getElem_mem h

theorem validKey_getD_le16 {k : List Nat} (h : validKey k = true) {pos : Nat}
    (hpos : pos < k.length) : k.getD pos 0 ≤ 16 :=
  validHex_le16 (validKey_validHex h) _ (mem_getD hpos 0)

theorem validKey_take_all_lt {k : List Nat} (h : validKey k = true) {j : Nat}
    (hj : j < k.length) : ∀ a ∈ k.take j, a < 16 := by
  intro a ha
  have hsub : k.take j <+: k.dropLast := by
    rw [List.dropLast_eq_take]
    exact List.take_prefix_take_left k (by omega)
  have hmem : a ∈ k.dropLast := hsub.subset ha
  unfold validKey at h
  simp only [Bool.and_eq_true, List.all_eq_true, decide_eq_true_eq] at h
  exact h.1 a hmem

theorem validHex_drop {hk : List Nat} (h : validHex hk = true) (j : Nat) :
    validHex (hk.drop j) = true := by
  rcases List.eq_nil_or_concat hk with rfl | ⟨l, b, rfl⟩
  · simp [validHex]
  · simp only [List.concat_eq_append] at h ⊢
    by_cases hj : j ≤ l.length
    · rw [List.drop_append_of_le_length hj]
      unfold validHex at h ⊢
      simp only [List.dropLast_concat, List.getLast?_concat, Option.getD_some,
        Bool.and_eq_true, List.all_eq_true, decide_eq_true_eq] at h ⊢
      exact ⟨fun a ha => h.1 a (List.mem_of_mem_drop ha), h.2⟩
    · have hdrop : List.drop j (l ++ [b]) = List.drop (j - l.length) [b] := by
        rw [show j = l.length + (j - l.length) by omega]
        rw [List.drop_append]
        congr 1
        omega
      rw [hdrop]
      rcases Nat.lt_or_ge (j - l.length) 1 with hj2 | hj2
      · omega
      · have h1 : List.drop (j - l.length) [b] = [] := by
          apply List.drop_eq_nil_of_le
          simpa using hj2
        rw [h1]
        simp [validHex]

theorem validHex_validKey_drop {k : List Nat} (h : validKey k = true) (j : Nat) :
    validHex (k.drop j) = true :=
  validHex_drop (validKey_validHex h) j

/-! ## nonNullIndices facts -/

theorem mem_nonNullIndices {ch : List node} {j : Nat} :
    j ∈ nonNullIndices ch ↔ j < 17 ∧ (ch.getD j .nilNode).isNull = false := by
  unfold nonNullIndices
  simp [List.mem_filter, List.mem_range]

theorem nodup_nonNullIndices (ch : List node) : (nonNullIndices ch).Nodup :=
  (List.nodup_range 17).filter _

theorem length_filter_mono {l : List Nat} {p q : Nat → Bool}
    (h : ∀ a ∈ l, p a = true → q a = true) :
    (l.filter p).length ≤ (l.filter q).length := by
  induction l with
  | nil => simp
  | cons x xs ih =>
    have ih' := ih (fun a ha => h a (by simp [ha]))
    by_cases hp : p x = true
    · rw [List.filter_cons_of_pos hp, List.filter_cons_of_pos (h x (by simp) hp)]
      simpa using ih'
    · rw [List.filter_cons_of_neg (by simpa using hp)]
      by_cases hq : q x = true
      · rw [List.filter_cons_of_pos hq]
        simp only [List.length_cons]
        omega
      · rw [List.filter_cons_of_neg (by simpa using hq)]
        exact ih'

theorem nonNullIndices_length_mono {ch ch' : List node}
    (h : ∀ j < 17, (ch.getD j .nilNode).isNull = false →
      (ch'.getD j .nilNode).isNull = false) :
    (nonNullIndices ch).length ≤ (nonNullIndices ch').length := by
  unfold nonNullIndices
  apply length_filter_mono
  intro a ha hp
  simp only [List.mem_range] at ha
  simp only [Bool.not_eq_true'] at hp ⊢
  exact h a ha hp

theorem three_le_length_of_mem {l : List Nat} (hn : l.Nodup) {a b c : Nat}
    (ha : a ∈ l) (hb : b ∈ l) (hc : c ∈ l) (hab : a ≠ b) (hac : a ≠ c)
    (hbc : b ≠ c) : 3 ≤ l.length := by
  have hsub : ({a, b, c} : Finset Nat) ⊆ l.toFinset := by
    intro x hx
    simp only [Finset.mem_insert, Finset.mem_singleton] at hx
    rcases hx with rfl | rfl | rfl <;> simpa [List.mem_toFinset]
  have hcard : ({a, b, c} : Finset Nat).card = 3 := by
    rw [Finset.card_insert_of_not_mem (by simp [hab, hac]),
      Finset.card_insert_of_not_mem (by simp [hbc])]
    rfl
  have := Finset.card_le_card hsub
  rw [hcard, List.toFinset_card_of_nodup hn] at this
  exact this

/-! ## Flag-insensitivity -/

theorem wf_shortNode_flags (k : List Nat) (v : node) (fl fl' : Flags) (r : Nat) :
    wf (.shortNode k v fl) r = wf (.shortNode k v fl') r := by
  simp only [wf]

theorem wf_duoNode_flags (i1 i2 : Nat) (c1 c2 : node) (fl fl' : Flags) (r : Nat) :
    wf (.duoNode i1 i2 c1 c2 fl) r = wf (.duoNode i1 i2 c1 c2 fl') r := by
  simp only [wf]

theorem wf_fullNode_flags (ch : List node) (fl fl' : Flags) (r : Nat) :
    wf (.fullNode ch fl) r = wf (.fullNode ch fl') r := by
  simp only [wf]

theorem wf_adjustTod (n : node) (bn : Nat) (r : Nat) :
    wf (adjustTod n bn) r = wf n r := by
  cases n with
  | shortNode k v fl => rw [adjustTod]; exact wf_shortNode_flags ..
  | duoNode i1 i2 c1 c2 fl => rw [adjustTod]; exact wf_duoNode_flags ..
  | fullNode ch fl => rw [adjustTod]; exact wf_fullNode_flags ..
  | _ => rfl

theorem find_adjustTod (n : node) (bn : Nat) (s : List Nat) :
    find (adjustTod n bn) s = find n s := by
  cases n with
  | shortNode k v fl => rw [adjustTod]; simp
  | duoNode i1 i2 c1 c2 fl => rw [adjustTod]; cases s <;> simp
  | fullNode ch fl => rw [adjustTod]; cases s <;> simp
  | _ => rfl

theorem isBranch_adjustTod (n : node) (bn : Nat) :
    isBranch (adjustTod n bn) = isBranch n := by
  cases n <;> rfl

theorem isShort_adjustTod (n : node) (bn : Nat) :
    isShort (adjustTod n bn) = isShort n := by
  cases n <;> rfl

theorem isNull_adjustTod (n : node) (bn : Nat) :
    (adjustTod n bn).isNull = n.isNull := by
  cases n <;> rfl

theorem isHash_adjustTod (n : node) (bn : Nat) :
    (adjustTod n bn).isHash = n.isHash := by
  cases n <;> rfl

@[simp] theorem stripFlags_nilNode : stripFlags .nilNode = .nilNode := by
  simp [stripFlags]

@[simp] theorem stripFlags_hashNode (h : List Nat) :
    stripFlags (.hashNode h) = .hashNode h := by
  simp [stripFlags]

@[simp] theorem stripFlags_valueNode (v : List Nat) :
    stripFlags (.valueNode v) = .valueNode v := by
  simp [stripFlags]

@[simp] theorem stripFlags_shortNode (k : List Nat) (v : node) (fl : Flags) :
    stripFlags (.shortNode k v fl) = .shortNode k (stripFlags v) {} := by
  rw [stripFlags]

@[simp] theorem stripFlags_duoNode (i1 i2 : Nat) (c1 c2 : node) (fl : Flags) :
    stripFlags (.duoNode i1 i2 c1 c2 fl) =
      .duoNode i1 i2 (stripFlags c1) (stripFlags c2) {} := by
  rw [stripFlags]

@[simp] theorem stripFlags_fullNode (ch : List node) (fl : Flags) :
    stripFlags (.fullNode ch fl) = .fullNode (ch.map stripFlags) {} := by
  rw [stripFlags]
  congr 1
  exact List.attach_map_val ch stripFlags

theorem stripFlags_adjustTod (n : node) (bn : Nat) :
    stripFlags (adjustTod n bn) = stripFlags n := by
  cases n <;> simp [adjustTod]

/-! ## Master lemmas for insert -/

theorem isPrefixOf_length_eq {p s : List Nat} (hlen : p.length = s.length) :
    p.isPrefixOf s = true ↔ p = s := by
  rw [List.isPrefixOf_iff_prefix]
  constructor
  · intro h
    exact List.IsPrefix.eq_of_length h hlen
  · rintro rfl
    exact List.prefix_refl p

theorem prefix_drop_eq_iff {p s t : List Nat} (hp : p <+: t) (hs : p <+: s) :
    s = t ↔ s.drop p.length = t.drop p.length := by
  obtain ⟨x, rfl⟩ := hp
  obtain ⟨y, rfl⟩ := hs
  rw [List.drop_left, List.drop_left]
  constructor
  · intro h
    exact (List.append_cancel_left h)
  · rintro rfl
    rfl

theorem wf_newLeaf {key : List Nat} {pos r : Nat} (hkey : validKey key = true)
    (hlen : key.length = pos + r) (hr : 1 ≤ r) (vval : List Nat) (bn : Nat) :
    wf (newLeaf key pos vval bn) (r - 1) = true := by
  unfold newLeaf
  by_cases h1 : key.length = pos + 1
  · have : r = 1 := by omega
    subst this
    simp [h1]
  · rw [if_neg h1, wf_adjustTod, wf_shortNode_iff]
    have hvk : validKey (key.drop (pos + 1)) = true := validKey_drop hkey _ (by omega)
    have hvh : validHex (key.drop (pos + 1)) = true := validKey_validHex hvk
    have hrt : compactToHex (hexToCompact (key.drop (pos + 1))) = key.drop (pos + 1) :=
      compactToHex_hexToCompact _ hvh
    rw [hrt]
    have hlen2 : (key.drop (pos + 1)).length = r - 1 := by
      simp [List.length_drop]
      omega
    refine ⟨?_, hvh, rfl, by omega, ?_, ?_, rfl, rfl, rfl⟩
    · intro h0
      rw [h0] at hlen2
      simp at hlen2
      omega
    · rw [hlen2]
      simp
    · intro hb
      simp [isBranch] at hb
  
theorem find_newLeaf {key : List Nat} {pos r : Nat} (hkey : validKey key = true)
    (hlen : key.length = pos + r) (hr : 1 ≤ r) (vval : List Nat) (bn : Nat) :
    ∀ s1 : List Nat, s1.length = r - 1 →
      find (newLeaf key pos vval bn) s1 =
        if s1 = key.drop (pos + 1) then some vval else none := by
  intro s1 hs1
  unfold newLeaf
  by_cases h1 : key.length = pos + 1
  · have hr1 : r = 1 := by omega
    subst hr1
    have : s1 = [] := by
      rw [List.length_eq_zero] at hs1
      exact hs1
    subst this
    have h2 : key.drop (pos + 1) = [] := by
      apply List.drop_eq_nil_of_le
      omega
    rw [if_pos h1]
    simp [h2]
  · rw [if_neg h1, find_adjustTod, find_shortNode]
    have hvk : validKey (key.drop (pos + 1)) = true := validKey_drop hkey _ (by omega)
    have hrt : compactToHex (hexToCompact (key.drop (pos + 1))) = key.drop (pos + 1) :=
      compactToHex_hexToCompact _ (validKey_validHex hvk)
    rw [hrt]
    have hlen2 : (key.drop (pos + 1)).length = r - 1 := by
      simp [List.length_drop]
      omega
    by_cases heq : s1 = key.drop (pos + 1)
    · subst heq
      rw [if_pos (by rw [List.isPrefixOf_iff_prefix])]
      rw [List.drop_length]
      simp
    · rw [if_neg heq]
      rw [if_neg]
      intro hpre
      exact heq ((isPrefixOf_length_eq (by omega)).mp hpre).symm

theorem getD_drop (l : List Nat) (p i : Nat) (d : Nat) :
    (l.drop p).getD i d = l.getD (p + i) d := by
  simp [List.getD, List.getElem?_drop]

theorem isValue_not_isShort {x : node} (h : isValue x = true) : isShort x = false := by
  cases x <;> simp_all [isValue, isShort]

theorem isBranch_not_isShort {x : node} (h : isBranch x = true) : isShort x = false := by
  cases x <;> simp_all [isBranch, isShort]

theorem isValue_not_isBranch {x : node} (h : isValue x = true) : isBranch x = false := by
  cases x <;> simp_all [isValue, isBranch]

theorem not_short_cases {x : node} (hs : isShort x = false) (hn : x.isNull = false)
    (hh : x.isHash = false) : isValue x = true ∨ isBranch x = true := by
  cases x <;> simp_all [isShort, isValue, isBranch, node.isNull, node.isHash]

theorem validHex_getD_16 {hk : List Nat} (h : validHex hk = true) {j : Nat}
    (hj : j < hk.length) (h16 : hk.getD j 0 = 16) : j = hk.length - 1 := by
  rcases List.eq_nil_or_concat hk with rfl | ⟨l, b, rfl⟩
  · simp at hj
  · simp only [List.concat_eq_append, List.length_append, List.length_cons,
      List.length_nil] at hj h16 ⊢
    by_contra hne
    have hjl : j < l.length := by
      omega
    have hget : (l ++ [b]).getD j 0 = l.getD j 0 := by
      simp [List.getD, List.getElem?_append_left hjl]
    have hmem : l.getD j 0 ∈ l := mem_getD hjl 0
    have hlt := validHex_dropLast_all h (l.getD j 0) (by simpa using hmem)
    rw [hget] at h16
    omega

theorem validKey_getD_16 {k : List Nat} (h : validKey k = true) {j : Nat}
    (hj : j < k.length) (h16 : k.getD j 0 = 16) : j = k.length - 1 :=
  validHex_getD_16 (validKey_validHex h) hj h16

/-- A leaf hung at the terminator slot is a bare value: the nibble 16 only
occurs at the end of a hex key. -/
theorem isValue_newLeaf_of_last {key : List Nat} {pos : Nat}
    (hkey : validKey key = true) (hpos : pos < key.length)
    (h16 : key.getD pos 0 = 16) (vval : List Nat) (bn : Nat) :
    isValue (newLeaf key pos vval bn) = true := by
  have hlast := validKey_getD_16 hkey hpos h16
  have hB : key.length = pos + 1 := by omega
  simp only [newLeaf]
  rw [if_pos hB]
  rfl

/-- The two-entry branch built at an insert split point (trie.go lines
2100-2141): the new duoNode keeps its indices sorted, is well formed one
level up, and dispatches lookups by the first nibble. -/
theorem duo_branch_spec (na nb : Nat) (c1 c2 : node) (bn r : Nat)
    (hne : na ≠ nb) (hna : na ≤ 16) (hnb : nb ≤ 16)
    (h16a : na = 16 → isValue c1 = true) (h16b : nb = 16 → isValue c2 = true)
    (h1 : wf c1 r = true) (h2 : wf c2 r = true) :
    ∃ b : node,
      (if na < nb then adjustTod (.duoNode na nb c1 c2 { dirty := true, t := bn }) bn
        else adjustTod (.duoNode nb na c2 c1 { dirty := true, t := bn }) bn) = b ∧
      wf b (r + 1) = true ∧ isShort b = false ∧
      ∀ (a : Nat) (t : List Nat), find b (a :: t) =
        if a = na then find c1 t else if a = nb then find c2 t else none := by
  by_cases hlt : na < nb
  · refine ⟨adjustTod (.duoNode na nb c1 c2 { dirty := true, t := bn }) bn,
      if_pos hlt, ?_, ?_, ?_⟩
    · rw [wf_adjustTod, wf_duoNode_iff]
      exact ⟨by omega, hlt, hnb, by simpa using h1, by simpa using h2, h16b⟩
    · rw [isShort_adjustTod]
      rfl
    · intro a t
      rw [find_adjustTod, find_duoNode_cons]
  · have hlt2 : nb < na := by omega
    refine ⟨adjustTod (.duoNode nb na c2 c1 { dirty := true, t := bn }) bn,
      if_neg hlt, ?_, ?_, ?_⟩
    · rw [wf_adjustTod, wf_duoNode_iff]
      exact ⟨by omega, hlt2, hna, by simpa using h2, by simpa using h1, h16a⟩
    · rw [isShort_adjustTod]
      rfl
    · intro a t
      rw [find_adjustTod, find_duoNode_cons]
      by_cases ha1 : a = na
      · subst ha1
        simp [hne]
      · by_cases ha2 : a = nb
        · subst ha2
          simp [ha1]
        · simp [ha1, ha2]

/-- The splitting arm of the shortNode insert case (trie.go lines
2085-2141): when the new key departs from the stored compact key before
the key ends, a two-entry branch replaces the divergence point, prefixed
by a short node when a nonempty common prefix remains.  The recursive
result is never consulted, the node always reports an update, and
lookups see exactly the old map plus the new binding. -/
theorem short_split_spec (k : List Nat) (val : node) (fl : Flags)
    (key : List Nat) (pos r m : Nat) (vval : List Nat) (bn : Nat) (ir : TRes)
    (hk_vh : validHex (compactToHex k) = true)
    (hk_le : (compactToHex k).length ≤ r)
    (hwf_val : wf val (r - (compactToHex k).length) = true)
    (hk_br : isBranch val = true → (compactToHex k).all (· < 16) = true)
    (hval_ns : isShort val = false) (hval_nn : val.isNull = false)
    (hval_nh : val.isHash = false)
    (hlen : key.length = pos + r) (hkey : validKey key = true)
    (hm_def : prefixLen (key.drop pos) (compactToHex k) = m)
    (hm_ne : m ≠ (compactToHex k).length) :
    ∃ n1, insertShortStep k val fl key pos vval bn ir = .ok n1 true ∧
      wf n1 r = true ∧
      ∀ s : List Nat, s.length = r →
        find n1 s = if s = key.drop pos then some vval
          else find (.shortNode k val fl) s := by
  have hm_lt : m < (compactToHex k).length :=
    lt_of_le_of_ne (hm_def ▸ prefixLen_le_right (key.drop pos) (compactToHex k)) hm_ne
  have hm_lt_r : m < r := lt_of_lt_of_le hm_lt hk_le
  -- the child that keeps the stored value below the split point
  have hc1wf : wf (if (compactToHex k).length = m + 1 then val
      else adjustTod (.shortNode (hexToCompact ((compactToHex k).drop (m + 1))) val
        { dirty := true, t := bn }) bn) (r - m - 1) = true := by
    by_cases hA : (compactToHex k).length = m + 1
    · rw [if_pos hA]
      have he : r - m - 1 = r - (compactToHex k).length := by omega
      rw [he]
      exact hwf_val
    · rw [if_neg hA, wf_adjustTod, wf_shortNode_iff]
      have hvdrop : validHex ((compactToHex k).drop (m + 1)) = true :=
        validHex_drop hk_vh (m + 1)
      have hrt : compactToHex (hexToCompact ((compactToHex k).drop (m + 1))) =
          (compactToHex k).drop (m + 1) := compactToHex_hexToCompact _ hvdrop
      rw [hrt]
      refine ⟨?_, hvdrop, rfl, ?_, ?_, ?_, hval_ns, hval_nn, hval_nh⟩
      · intro hnil
        have := congrArg List.length hnil
        simp only [List.length_drop, List.length_nil] at this
        omega
      · simp only [List.length_drop]
        omega
      · have he : r - m - 1 - ((compactToHex k).drop (m + 1)).length =
            r - (compactToHex k).length := by
          simp only [List.length_drop]
          omega
        rw [he]
        exact hwf_val
      · intro hb
        have hall := hk_br hb
        simp only [List.all_eq_true, decide_eq_true_eq] at hall ⊢
        exact fun a ha => hall a (List.mem_of_mem_drop ha)
  have hc1find : ∀ t : List Nat,
      find (if (compactToHex k).length = m + 1 then val
        else adjustTod (.shortNode (hexToCompact ((compactToHex k).drop (m + 1))) val
          { dirty := true, t := bn }) bn) t =
      if ((compactToHex k).drop (m + 1)).isPrefixOf t then
        find val (t.drop ((compactToHex k).length - (m + 1))) else none := by
    intro t
    by_cases hA : (compactToHex k).length = m + 1
    · rw [if_pos hA]
      have h0 : (compactToHex k).drop (m + 1) = [] := by
        rw [List.drop_eq_nil_iff]
        omega
      rw [h0, hA]
      simp [List.isPrefixOf]
    · rw [if_neg hA, find_adjustTod, find_shortNode,
        compactToHex_hexToCompact _ (validHex_drop hk_vh (m + 1))]
      simp only [List.length_drop]
  -- the child that carries the new value
  have hc2wf : wf (if key.length = pos + m + 1 then node.valueNode vval
      else adjustTod (.shortNode (hexToCompact (key.drop (pos + m + 1)))
        (.valueNode vval) { dirty := true, t := bn }) bn) (r - m - 1) = true := by
    have h := wf_newLeaf hkey (show key.length = pos + m + (r - m) by omega)
      (by omega) vval bn
    simpa only [newLeaf] using h
  have hc2find : ∀ t : List Nat, t.length = r - m - 1 →
      find (if key.length = pos + m + 1 then node.valueNode vval
        else adjustTod (.shortNode (hexToCompact (key.drop (pos + m + 1)))
          (.valueNode vval) { dirty := true, t := bn }) bn) t =
      if t = key.drop (pos + m + 1) then some vval else none := by
    have h := find_newLeaf hkey (show key.length = pos + m + (r - m) by omega)
      (by omega) vval bn
    simpa only [newLeaf] using h
  -- the two diverging nibbles
  have hna16 : (compactToHex k).getD m 0 ≤ 16 :=
    validHex_le16 hk_vh _ (mem_getD hm_lt 0)
  have hnb16 : key.getD (pos + m) 0 ≤ 16 :=
    validKey_getD_le16 hkey (by omega)
  have hne_ab : key.getD (pos + m) 0 ≠ (compactToHex k).getD m 0 := by
    have h := prefixLen_getD_ne
      (show prefixLen (key.drop pos) (compactToHex k) < (key.drop pos).length by
        rw [hm_def]
        simp only [List.length_drop]
        omega)
      (show prefixLen (key.drop pos) (compactToHex k) < (compactToHex k).length by
        rw [hm_def]
        exact hm_lt)
    rw [hm_def, getD_drop] at h
    exact h
  have hne_ba : (compactToHex k).getD m 0 ≠ key.getD (pos + m) 0 :=
    fun h => hne_ab h.symm
  have h16a : (compactToHex k).getD m 0 = 16 →
      isValue (if (compactToHex k).length = m + 1 then val
        else adjustTod (.shortNode (hexToCompact ((compactToHex k).drop (m + 1))) val
          { dirty := true, t := bn }) bn) = true := by
    intro h16
    have hml := validHex_getD_16 hk_vh hm_lt h16
    have hA : (compactToHex k).length = m + 1 := by omega
    rw [if_pos hA]
    rcases not_short_cases hval_ns hval_nn hval_nh with hv | hb
    · exact hv
    · exfalso
      have hall := hk_br hb
      simp only [List.all_eq_true, decide_eq_true_eq] at hall
      have := hall _ (mem_getD hm_lt 0)
      omega
  have h16b : key.getD (pos + m) 0 = 16 →
      isValue (if key.length = pos + m + 1 then node.valueNode vval
        else adjustTod (.shortNode (hexToCompact (key.drop (pos + m + 1)))
          (.valueNode vval) { dirty := true, t := bn }) bn) = true := by
    intro h16
    have hml := validKey_getD_16 hkey (show pos + m < key.length by omega) h16
    have hB : key.length = pos + m + 1 := by omega
    rw [if_pos hB]
    rfl
  obtain ⟨b, hbeq, hbwf0, hbshort, hbfind⟩ :=
    duo_branch_spec _ _ _ _ bn (r - m - 1) hne_ba hna16 hnb16 h16a h16b hc1wf hc2wf
  have hsum : r - m - 1 + 1 = r - m := by omega
  rw [hsum] at hbwf0
  -- lookup through the branch
  have hbfind2 : ∀ t : List Nat, t.length = r - m →
      find b t = if t = key.drop (pos + m) then some vval
        else if ((compactToHex k).drop m).isPrefixOf t then
          find val (t.drop ((compactToHex k).length - m)) else none := by
    intro t ht
    cases t with
    | nil =>
      exfalso
      simp only [List.length_nil] at ht
      omega
    | cons a t1 =>
      have ht1 : t1.length = r - m - 1 := by
        simp only [List.length_cons] at ht
        omega
      rw [hbfind a t1, hc1find t1]
      have hkdm : (compactToHex k).drop m =
          (compactToHex k).getD m 0 :: (compactToHex k).drop (m + 1) :=
        drop_eq_getD_cons hm_lt
      have hkeydm : key.drop (pos + m) =
          key.getD (pos + m) 0 :: key.drop (pos + m + 1) :=
        drop_eq_getD_cons (by omega)
      by_cases ha1 : a = (compactToHex k).getD m 0
      · rw [if_pos ha1]
        have hne1 : ¬(a :: t1 = key.drop (pos + m)) := by
          rw [hkeydm]
          intro hc
          have h1 : a = key.getD (pos + m) 0 := by
            injection hc with h1 h2
          exact hne_ba (ha1.symm.trans h1)
        rw [if_neg hne1, hkdm]
        have hpref : ((compactToHex k).getD m 0 :: (compactToHex k).drop (m + 1)).isPrefixOf
            (a :: t1) = ((compactToHex k).drop (m + 1)).isPrefixOf t1 := by
          subst ha1
          simp [List.isPrefixOf]
        rw [hpref]
        have hdarith : (compactToHex k).length - m =
            (compactToHex k).length - (m + 1) + 1 := by
          omega
        rw [hdarith, List.drop_succ_cons]
      · rw [if_neg ha1]
        have hnp : ¬(((compactToHex k).drop m).isPrefixOf (a :: t1) = true) := by
          rw [hkdm]
          simp only [List.isPrefixOf, Bool.and_eq_true, beq_iff_eq]
          intro hcc
          exact ha1 hcc.1.symm
        by_cases ha2 : a = key.getD (pos + m) 0
        · rw [if_pos ha2, hc2find t1 ht1]
          have hiff : (a :: t1 = key.drop (pos + m)) ↔ (t1 = key.drop (pos + m + 1)) := by
            rw [hkeydm]
            constructor
            · intro hc
              injection hc with h1 h2
            · intro hc
              rw [ha2, hc]
          by_cases hc : t1 = key.drop (pos + m + 1)
          · rw [if_pos hc, if_pos (hiff.mpr hc)]
          · rw [if_neg hc, if_neg (fun hx => hc (hiff.mp hx)), if_neg hnp]
        · rw [if_neg ha2]
          have hne1 : ¬(a :: t1 = key.drop (pos + m)) := by
            rw [hkeydm]
            intro hcc
            have h1 : a = key.getD (pos + m) 0 := by
              injection hcc with h1 h2
            exact ha2 h1
          rw [if_neg hne1, if_neg hnp]
  -- the retained common prefix
  have hPlt : ∀ a ∈ (key.drop pos).take m, a < 16 := by
    intro a ha
    rw [List.take_drop] at ha
    exact validKey_take_all_lt hkey (by omega) a (List.mem_of_mem_drop ha)
  have hPvh : validHex ((key.drop pos).take m) = true := validHex_of_all_lt hPlt
  have hPrt : compactToHex (hexToCompact ((key.drop pos).take m)) =
      (key.drop pos).take m := compactToHex_hexToCompact _ hPvh
  have hPlen : ((key.drop pos).take m).length = m := by
    simp only [List.length_take, List.length_drop]
    omega
  have hPpre_key : (key.drop pos).take m <+: key.drop pos := List.take_prefix _ _
  have hktake : (key.drop pos).take m = (compactToHex k).take m := by
    have h := take_prefixLen_eq (key.drop pos) (compactToHex k)
    rwa [hm_def] at h
  have hksplit : compactToHex k = (key.drop pos).take m ++ (compactToHex k).drop m := by
    rw [hktake, List.take_append_drop]
  by_cases hm0 : m = 0
  · -- no common prefix: the branch replaces the short node directly
    refine ⟨b, ?_, ?_, ?_⟩
    · simp only [insertShortStep]
      rw [hm_def]
      rw [if_neg hm_ne, if_pos hm0, hbeq]
    · have he : r - m = r := by omega
      rw [← he]
      exact hbwf0
    · intro s hs
      rw [hbfind2 s (by omega), find_shortNode, hm0]
      simp only [Nat.add_zero, List.drop_zero, Nat.sub_zero]
  · -- nonempty common prefix: rebuild a short node above the branch
    refine ⟨adjustTod (.shortNode (hexToCompact ((key.drop pos).take m)) b
        { dirty := true, t := bn, tod := fl.tod, hash := fl.hash }) bn, ?_, ?_, ?_⟩
    · simp only [insertShortStep]
      rw [hm_def]
      rw [if_neg hm_ne, if_neg hm0, hbeq]
    · rw [wf_adjustTod, wf_shortNode_iff, hPrt]
      refine ⟨?_, hPvh, rfl, ?_, ?_, fun _ => ?_, hbshort,
        wf_ne_nil hbwf0, wf_ne_hash hbwf0⟩
      · intro hnil
        have := congrArg List.length hnil
        rw [hPlen] at this
        simp at this
        omega
      · rw [hPlen]
        omega
      · rw [hPlen]
        exact hbwf0
      · simp only [List.all_eq_true, decide_eq_true_eq]
        exact hPlt
    · intro s hs
      rw [find_adjustTod]
      simp only [find_shortNode]
      rw [hPrt, hPlen]
      by_cases hps : ((key.drop pos).take m).isPrefixOf s
      · rw [if_pos hps]
        have hps' : (key.drop pos).take m <+: s := List.isPrefixOf_iff_prefix.mp hps
        rw [hbfind2 (s.drop m) (by simp only [List.length_drop]; omega)]
        have hiff1 : s = key.drop pos ↔ s.drop m = key.drop (pos + m) := by
          have h := prefix_drop_eq_iff hPpre_key hps'
          rwa [hPlen, List.drop_drop] at h
        have hiff2 : compactToHex k <+: s ↔ (compactToHex k).drop m <+: s.drop m := by
          constructor
          · intro h
            rw [hksplit] at h
            have h2 := (prefix_append_iff.mp h).2
            rwa [hPlen] at h2
          · intro h
            rw [hksplit]
            refine prefix_append_iff.mpr ⟨hps', ?_⟩
            rwa [hPlen]
        have hdd2 : (s.drop m).drop ((compactToHex k).length - m) =
            s.drop (compactToHex k).length := by
          rw [List.drop_drop]
          congr 1
          omega
        by_cases h1 : s.drop m = key.drop (pos + m)
        · rw [if_pos h1, if_pos (hiff1.mpr h1)]
        · rw [if_neg h1, if_neg (fun hx => h1 (hiff1.mp hx))]
          by_cases h2 : ((compactToHex k).drop m).isPrefixOf (s.drop m)
          · rw [if_pos h2, hdd2,
              if_pos (List.isPrefixOf_iff_prefix.mpr
                (hiff2.mpr (List.isPrefixOf_iff_prefix.mp h2)))]
          · rw [if_neg h2,
              if_neg (fun hx => h2 (List.isPrefixOf_iff_prefix.mpr
                (hiff2.mp (List.isPrefixOf_iff_prefix.mp hx))))]
      · rw [if_neg hps]
        have hps' : ¬((key.drop pos).take m <+: s) :=
          fun hc => hps (List.isPrefixOf_iff_prefix.mpr hc)
        have hne1 : ¬(s = key.drop pos) := by
          intro hc
          subst hc
          exact hps' hPpre_key
        have hne2 : ¬((compactToHex k).isPrefixOf s = true) := by
          intro hc
          apply hps'
          have h := List.isPrefixOf_iff_prefix.mp hc
          have hPk : (key.drop pos).take m <+: compactToHex k := by
            rw [hktake]
            exact List.take_prefix _ _
          exact hPk.trans h
        rw [if_neg hne1, if_neg hne2]

theorem isNull_eq_nil {n : node} (h : n.isNull = true) : n = .nilNode := by
  cases n <;> simp_all [node.isNull]

theorem wf_condAdjust (c : Prop) [Decidable c] (x : node) (bn r : Nat) :
    wf (if c then adjustTod x bn else x) r = wf x r := by
  by_cases h : c
  · rw [if_pos h, wf_adjustTod]
  · rw [if_neg h]

theorem find_condAdjust (c : Prop) [Decidable c] (x : node) (bn : Nat) (s : List Nat) :
    find (if c then adjustTod x bn else x) s = find x s := by
  by_cases h : c
  · rw [if_pos h, find_adjustTod]
  · rw [if_neg h]

theorem isBranch_condAdjust (c : Prop) [Decidable c] (x : node) (bn : Nat) :
    isBranch (if c then adjustTod x bn else x) = isBranch x := by
  by_cases h : c
  · rw [if_pos h, isBranch_adjustTod]
  · rw [if_neg h]

/-- insertDuoStep reduction when the key nibble selects the first child
and that child is present (trie.go lines 2165-2190). -/
theorem insertDuoStep_sel1 (i1 i2 : Nat) (c1 c2 : node) (fl : Flags)
    (key : List Nat) (pos : Nat) (vval : List Nat) (bn : Nat)
    (n1 : node) (u : Bool) (ir2 : TRes)
    (ha : key.getD pos 0 = i1) (h1 : c1.isNull = false) :
    insertDuoStep i1 i2 c1 c2 fl key pos vval bn (.ok n1 u) ir2 =
      .ok (if decide (fl.tod = c1.todv bn) = true then
          adjustTod (.duoNode i1 i2 (if u then n1 else c1) c2
            { dirty := fl.dirty || u, t := bn, tod := fl.tod, hash := fl.hash }) bn
        else .duoNode i1 i2 (if u then n1 else c1) c2
          { dirty := fl.dirty || u, t := bn, tod := fl.tod, hash := fl.hash }) u := by
  cases c1 with
  | nilNode => simp [node.isNull] at h1
  | hashNode h =>
    simp only [insertDuoStep]
    rw [if_pos ha]
  | valueNode v =>
    simp only [insertDuoStep]
    rw [if_pos ha]
  | shortNode k v f =>
    simp only [insertDuoStep]
    rw [if_pos ha]
  | duoNode j1 j2 d1 d2 f =>
    simp only [insertDuoStep]
    rw [if_pos ha]
  | fullNode ch f =>
    simp only [insertDuoStep]
    rw [if_pos ha]

/-- insertDuoStep reduction when the key nibble selects the second child
and that child is present (trie.go lines 2191-2216). -/
theorem insertDuoStep_sel2 (i1 i2 : Nat) (c1 c2 : node) (fl : Flags)
    (key : List Nat) (pos : Nat) (vval : List Nat) (bn : Nat)
    (n1 : node) (u : Bool) (ir1 : TRes)
    (ha1 : ¬(key.getD pos 0 = i1)) (ha : key.getD pos 0 = i2)
    (h2 : c2.isNull = false) :
    insertDuoStep i1 i2 c1 c2 fl key pos vval bn ir1 (.ok n1 u) =
      .ok (if decide (fl.tod = c2.todv bn) = true then
          adjustTod (.duoNode i1 i2 c1 (if u then n1 else c2)
            { dirty := fl.dirty || u, t := bn, tod := fl.tod, hash := fl.hash }) bn
        else .duoNode i1 i2 c1 (if u then n1 else c2)
          { dirty := fl.dirty || u, t := bn, tod := fl.tod, hash := fl.hash }) u := by
  cases c2 with
  | nilNode => simp [node.isNull] at h2
  | hashNode h =>
    simp only [insertDuoStep]
    rw [if_neg ha1, if_pos ha]
  | valueNode v =>
    simp only [insertDuoStep]
    rw [if_neg ha1, if_pos ha]
  | shortNode k v f =>
    simp only [insertDuoStep]
    rw [if_neg ha1, if_pos ha]
  | duoNode j1 j2 d1 d2 f =>
    simp only [insertDuoStep]
    rw [if_neg ha1, if_pos ha]
  | fullNode ch f =>
    simp only [insertDuoStep]
    rw [if_neg ha1, if_pos ha]

/-- insertDuoStep reduction when the key nibble misses both children
(trie.go lines 2217-2225): the duo expands to a full node and the new
leaf lands in the selected slot. -/
theorem insertDuoStep_other (i1 i2 : Nat) (c1 c2 : node) (fl : Flags)
    (key : List Nat) (pos : Nat) (vval : List Nat) (bn : Nat)
    (ir1 ir2 : TRes)
    (ha1 : ¬(key.getD pos 0 = i1)) (ha2 : ¬(key.getD pos 0 = i2)) :
    insertDuoStep i1 i2 c1 c2 fl key pos vval bn ir1 ir2 =
      .ok (fullSet (adjustTod (.fullNode (expandDuo i1 i2 c1 c2)
        { dirty := true, t := bn }) bn) (key.getD pos 0)
        (newLeaf key pos vval bn)) true := by
  simp only [insertDuoStep]
  rw [if_neg ha1, if_neg ha2]

/-- insertFullStep reduction at an empty slot (trie.go lines 2233-2240). -/
theorem insertFullStep_nil (ch : List node) (fl : Flags) (key : List Nat)
    (pos : Nat) (vval : List Nat) (bn : Nat) (ir : TRes)
    (hc : ch.getD (key.getD pos 0) .nilNode = .nilNode) :
    insertFullStep ch fl key pos vval bn ir =
      .ok (.fullNode (ch.set (key.getD pos 0) (newLeaf key pos vval bn))
        { dirty := true, t := bn, tod := fl.tod, hash := fl.hash }) true := by
  simp only [insertFullStep]
  rw [hc]

/-- insertFullStep reduction at a populated slot (trie.go lines
2241-2260). -/
theorem insertFullStep_sel (ch : List node) (fl : Flags) (key : List Nat)
    (pos : Nat) (vval : List Nat) (bn : Nat) (n1 : node) (u : Bool)
    (hnn : (ch.getD (key.getD pos 0) .nilNode).isNull = false) :
    insertFullStep ch fl key pos vval bn (.ok n1 u) =
      .ok (if decide (fl.tod = (ch.getD (key.getD pos 0) .nilNode).todv bn) = true then
          adjustTod (.fullNode (if u then ch.set (key.getD pos 0) n1 else ch)
            { dirty := fl.dirty || u, t := bn, tod := fl.tod, hash := fl.hash }) bn
        else .fullNode (if u then ch.set (key.getD pos 0) n1 else ch)
          { dirty := fl.dirty || u, t := bn, tod := fl.tod, hash := fl.hash }) u := by
  cases hc : ch.getD (key.getD pos 0) .nilNode with
  | nilNode =>
    rw [hc] at hnn
    simp [node.isNull] at hnn
  | hashNode h =>
    simp only [insertFullStep]
    rw [hc]
  | valueNode v =>
    simp only [insertFullStep]
    rw [hc]
  | shortNode k v f =>
    simp only [insertFullStep]
    rw [hc]
  | duoNode j1 j2 d1 d2 f =>
    simp only [insertFullStep]
    rw [hc]
  | fullNode ch2 f =>
    simp only [insertFullStep]
    rw [hc]

/-- Master lemma for insert on well-formed resolved tries: the operation
completes (done, no resolution, no panic), preserves well-formedness, and
updates the key-value map at exactly the inserted key.  The updated flag
is false only when the key was already bound to the same value. -/
theorem insert_spec (bn : Nat) (vval : List Nat) :
    ∀ r : Nat, ∀ n : node, ∀ key : List Nat, ∀ pos : Nat,
    wf n r = true → key.length = pos + r → validKey key = true →
    ∃ n1 u, insert n key pos vval bn = .ok n1 u ∧ wf n1 r = true ∧
      (∀ s : List Nat, s.length = r →
        find n1 s = if s = key.drop pos then some vval else find n s) ∧
      (u = false → find n (key.drop pos) = some vval) ∧
      (isValue n = true → isValue n1 = true) ∧
      (isBranch n = true → isBranch n1 = true) := by
  intro r
  induction r using Nat.strong_induction_on with
  | _ r IH =>
  intro n key pos hwf hlen hkey
  match n with
  | .nilNode => simp at hwf
  | .hashNode h => simp at hwf
  | .valueNode v =>
    have hr0 : r = 0 := by simpa using hwf
    subst hr0
    have hpos : key.length = pos := by omega
    have hdrop : key.drop pos = [] := by
      apply List.drop_eq_nil_of_le
      omega
    by_cases hv : v = vval
    · refine ⟨.valueNode v, false, ?_, by simp, ?_, ?_, fun h => h, fun h => h⟩
      · simp only [insert, if_pos hpos, insertBase, if_pos hv]
      · intro s hs
        rw [List.length_eq_zero] at hs
        subst hs
        simp [hdrop, hv]
      · intro _
        simp [hdrop, hv]
    · refine ⟨.valueNode vval, true, ?_, by simp, ?_, by simp, fun _ => rfl,
        by intro hb; simp [isBranch] at hb⟩
      · simp only [insert, if_pos hpos, insertBase, if_neg hv]
      · intro s hs
        rw [List.length_eq_zero] at hs
        subst hs
        simp [hdrop]
  | .shortNode k val fl =>
    rw [wf_shortNode_iff] at hwf
    obtain ⟨hk_ne, hk_vh, hk_rt, hk_le, hwf_val, hk_br, hval_ns, hval_nn, hval_nh⟩ := hwf
    have hklen1 : 1 ≤ (compactToHex k).length := List.length_pos.mpr hk_ne
    have hr1 : 1 ≤ r := by omega
    have hpos : ¬(key.length = pos) := by omega
    have hm_le1 : prefixLen (key.drop pos) (compactToHex k) ≤ r := by
      have := prefixLen_le_left (key.drop pos) (compactToHex k)
      simp only [List.length_drop] at this
      omega
    have hm_le2 : prefixLen (key.drop pos) (compactToHex k) ≤ (compactToHex k).length :=
      prefixLen_le_right _ _
    by_cases hfull : prefixLen (key.drop pos) (compactToHex k) = (compactToHex k).length
    · -- whole key of the short node matches: recurse into the child
      obtain ⟨n1', u, hins, hwf1, hfind1, hu1, hvv1, hbb1⟩ :=
        IH (r - (compactToHex k).length) (by omega) val key
          (pos + (compactToHex k).length) hwf_val (by omega) hkey
      have hk_pre_key : compactToHex k <+: key.drop pos := prefix_of_prefixLen_eq hfull
      have hNV : ∀ s' : List Nat, s'.length = r - (compactToHex k).length →
          find (if u = true then n1' else val) s' =
            if s' = key.drop (pos + (compactToHex k).length) then some vval
            else find val s' := by
        intro s' hs'
        cases u with
        | true =>
          rw [if_pos rfl]
          exact hfind1 s' hs'
        | false =>
          rw [if_neg (by simp)]
          by_cases heq : s' = key.drop (pos + (compactToHex k).length)
          · rw [if_pos heq, heq]
            exact hu1 rfl
          · rw [if_neg heq]
      have hNVwf : wf (if u = true then n1' else val) (r - (compactToHex k).length) := by
        cases u with
        | true => simpa using hwf1
        | false => simpa using hwf_val
      have hNVclass : isValue (if u = true then n1' else val) = true ∨
          isBranch (if u = true then n1' else val) = true := by
        rcases not_short_cases hval_ns hval_nn hval_nh with hv | hb
        · cases u with
          | true => exact Or.inl (by simpa using hvv1 hv)
          | false => exact Or.inl (by simpa using hv)
        · cases u with
          | true => exact Or.inr (by simpa using hbb1 hb)
          | false => exact Or.inr (by simpa using hb)
      have hNVbr : isBranch (if u = true then n1' else val) = true → isBranch val = true := by
        intro hb
        rcases not_short_cases hval_ns hval_nn hval_nh with hv | hv
        · cases u with
          | true =>
            have := hvv1 hv
            rw [isValue_not_isBranch (by simpa using this)] at hb
            simp at hb
          | false =>
            rw [isValue_not_isBranch (by simpa using hv)] at hb
            simp at hb
        · exact hv
      refine ⟨adjustTod (node.shortNode k (if u = true then n1' else val)
          { dirty := fl.dirty || u, t := bn, tod := fl.tod, hash := fl.hash }) bn,
        u, ?hred, ?hwf2, ?hfind2, ?hu2, ?hv2, ?hb2⟩
      case hred =>
        simp only [insert]
        rw [if_neg hpos, hfull, hins]
        simp only [insertShortStep]
        rw [hfull, if_pos rfl]
      case hwf2 =>
        rw [wf_adjustTod, wf_shortNode_iff]
        refine ⟨hk_ne, hk_vh, hk_rt, hk_le, hNVwf, ?_, ?_, ?_, ?_⟩
        · intro hb
          exact hk_br (hNVbr hb)
        · rcases hNVclass with hv | hb
          · exact isValue_not_isShort hv
          · exact isBranch_not_isShort hb
        · exact wf_ne_nil hNVwf
        · exact wf_ne_hash hNVwf
      case hfind2 =>
        intro s hs
        rw [find_adjustTod]
        simp only [find_shortNode]
        by_cases hpre : (compactToHex k).isPrefixOf s
        · rw [if_pos hpre, if_pos hpre]
          have hpre' : compactToHex k <+: s := List.isPrefixOf_iff_prefix.mp hpre
          have hdd : (key.drop pos).drop (compactToHex k).length =
              key.drop (pos + (compactToHex k).length) := by
            rw [List.drop_drop]
          have hsplit : s = key.drop pos ↔
              s.drop (compactToHex k).length = key.drop (pos + (compactToHex k).length) := by
            rw [prefix_drop_eq_iff hk_pre_key hpre', hdd]
          rw [hNV _ (by simp [List.length_drop]; omega)]
          by_cases heq : s = key.drop pos
          · rw [if_pos heq, if_pos (hsplit.mp heq)]
          · rw [if_neg heq, if_neg (fun hc => heq (hsplit.mpr hc))]
        · rw [if_neg hpre, if_neg hpre]
          have hne : ¬(s = key.drop pos) := by
            intro heq
            subst heq
            exact hpre (List.isPrefixOf_iff_prefix.mpr hk_pre_key)
          rw [if_neg hne]
      case hu2 =>
        intro hu
        simp only [find_shortNode]
        rw [if_pos (List.isPrefixOf_iff_prefix.mpr hk_pre_key)]
        have hdd : (key.drop pos).drop (compactToHex k).length =
            key.drop (pos + (compactToHex k).length) := by
          rw [List.drop_drop]
        rw [hdd]
        exact hu1 hu
      case hv2 =>
        intro hv
        simp [isValue] at hv
      case hb2 =>
        intro hb
        simp [isBranch] at hb
    · -- partial match: split into a branch at the first mismatching nibble
      obtain ⟨n1, hstep, hwfn1, hfindn1⟩ :=
        short_split_spec k val fl key pos r (prefixLen (key.drop pos) (compactToHex k))
          vval bn (insert val key (pos + prefixLen (key.drop pos) (compactToHex k)) vval bn)
          hk_vh hk_le hwf_val hk_br hval_ns hval_nn hval_nh hlen hkey rfl hfull
      refine ⟨n1, true, ?_, hwfn1, hfindn1, ?_, ?_, ?_⟩
      · simp only [insert]
        rw [if_neg hpos]
        exact hstep
      · intro h
        simp at h
      · intro hv
        simp [isValue] at hv
      · intro hb
        simp [isBranch] at hb

  | .duoNode i1 i2 c1 c2 fl =>
    rw [wf_duoNode_iff] at hwf
    obtain ⟨hr1, hi12, hi216, hwc1, hwc2, h16⟩ := hwf
    have hpos : ¬(key.length = pos) := by omega
    have hposlt : pos < key.length := by omega
    have hkdrop : key.drop pos = key.getD pos 0 :: key.drop (pos + 1) :=
      drop_eq_getD_cons hposlt
    by_cases ha1 : key.getD pos 0 = i1
    · -- recurse into the first child
      obtain ⟨n1', u, hins, hwf1, hfind1, hu1, hx1, hx2⟩ :=
        IH (r - 1) (by omega) c1 key (pos + 1) hwc1 (by omega) hkey
      have hNV : ∀ s' : List Nat, s'.length = r - 1 →
          find (if u = true then n1' else c1) s' =
            if s' = key.drop (pos + 1) then some vval else find c1 s' := by
        intro s' hs'
        cases u with
        | true =>
          rw [if_pos rfl]
          exact hfind1 s' hs'
        | false =>
          rw [if_neg (by simp)]
          by_cases heq : s' = key.drop (pos + 1)
          · rw [if_pos heq, heq]
            exact hu1 rfl
          · rw [if_neg heq]
      have hNVwf : wf (if u = true then n1' else c1) (r - 1) = true := by
        cases u with
        | true => simpa using hwf1
        | false => simpa using hwc1
      refine ⟨if decide (fl.tod = c1.todv bn) = true then
          adjustTod (.duoNode i1 i2 (if u = true then n1' else c1) c2
            { dirty := fl.dirty || u, t := bn, tod := fl.tod, hash := fl.hash }) bn
        else .duoNode i1 i2 (if u = true then n1' else c1) c2
          { dirty := fl.dirty || u, t := bn, tod := fl.tod, hash := fl.hash },
        u, ?_, ?_, ?_, ?_, ?_, ?_⟩
      · simp only [insert]
        rw [if_neg hpos, hins]
        exact insertDuoStep_sel1 i1 i2 c1 c2 fl key pos vval bn n1' u _ ha1 (wf_ne_nil hwc1)
      · rw [wf_condAdjust, wf_duoNode_iff]
        exact ⟨hr1, hi12, hi216, hNVwf, hwc2, h16⟩
      · intro s hs
        rw [find_condAdjust]
        cases s with
        | nil =>
          exfalso
          simp only [List.length_nil] at hs
          omega
        | cons b s1 =>
          have hs1 : s1.length = r - 1 := by
            simp only [List.length_cons] at hs
            omega
          rw [find_duoNode_cons, find_duoNode_cons]
          have hiff : (b :: s1 = key.drop pos) ↔
              (b = key.getD pos 0 ∧ s1 = key.drop (pos + 1)) := by
            rw [hkdrop, List.cons_eq_cons]
          by_cases hb1 : b = i1
          · rw [if_pos hb1, if_pos hb1, hNV s1 hs1]
            by_cases heq : s1 = key.drop (pos + 1)
            · rw [if_pos heq, if_pos (hiff.mpr ⟨hb1.trans ha1.symm, heq⟩)]
            · rw [if_neg heq, if_neg (fun hc => heq (hiff.mp hc).2)]
          · rw [if_neg hb1, if_neg hb1]
            have hne : ¬(b :: s1 = key.drop pos) := by
              intro hc
              exact hb1 ((hiff.mp hc).1.trans ha1)
            rw [if_neg hne]
      · intro hu
        rw [hkdrop, find_duoNode_cons, if_pos ha1]
        exact hu1 hu
      · intro hv
        simp [isValue] at hv
      · intro _
        rw [isBranch_condAdjust]
        rfl
    · by_cases ha2 : key.getD pos 0 = i2
      · -- recurse into the second child
        obtain ⟨n1', u, hins, hwf1, hfind1, hu1, hx1, hx2⟩ :=
          IH (r - 1) (by omega) c2 key (pos + 1) hwc2 (by omega) hkey
        have hNV : ∀ s' : List Nat, s'.length = r - 1 →
            find (if u = true then n1' else c2) s' =
              if s' = key.drop (pos + 1) then some vval else find c2 s' := by
          intro s' hs'
          cases u with
          | true =>
            rw [if_pos rfl]
            exact hfind1 s' hs'
          | false =>
            rw [if_neg (by simp)]
            by_cases heq : s' = key.drop (pos + 1)
            · rw [if_pos heq, heq]
              exact hu1 rfl
            · rw [if_neg heq]
        have hNVwf : wf (if u = true then n1' else c2) (r - 1) = true := by
          cases u with
          | true => simpa using hwf1
          | false => simpa using hwc2
        refine ⟨if decide (fl.tod = c2.todv bn) = true then
            adjustTod (.duoNode i1 i2 c1 (if u = true then n1' else c2)
              { dirty := fl.dirty || u, t := bn, tod := fl.tod, hash := fl.hash }) bn
          else .duoNode i1 i2 c1 (if u = true then n1' else c2)
            { dirty := fl.dirty || u, t := bn, tod := fl.tod, hash := fl.hash },
          u, ?_, ?_, ?_, ?_, ?_, ?_⟩
        · simp only [insert]
          rw [if_neg hpos, hins]
          exact insertDuoStep_sel2 i1 i2 c1 c2 fl key pos vval bn n1' u _ ha1 ha2
            (wf_ne_nil hwc2)
        · rw [wf_condAdjust, wf_duoNode_iff]
          refine ⟨hr1, hi12, hi216, hwc1, hNVwf, fun h => ?_⟩
          cases u with
          | true =>
            rw [if_pos rfl]
            exact hx1 (h16 h)
          | false =>
            rw [if_neg (by simp)]
            exact h16 h
        · intro s hs
          rw [find_condAdjust]
          cases s with
          | nil =>
            exfalso
            simp only [List.length_nil] at hs
            omega
          | cons b s1 =>
            have hs1 : s1.length = r - 1 := by
              simp only [List.length_cons] at hs
              omega
            rw [find_duoNode_cons, find_duoNode_cons]
            have hiff : (b :: s1 = key.drop pos) ↔
                (b = key.getD pos 0 ∧ s1 = key.drop (pos + 1)) := by
              rw [hkdrop, List.cons_eq_cons]
            by_cases hb1 : b = i1
            · rw [if_pos hb1, if_pos hb1]
              have hne : ¬(b :: s1 = key.drop pos) := by
                intro hc
                exact ha1 ((hiff.mp hc).1.symm.trans hb1)
              rw [if_neg hne]
            · rw [if_neg hb1, if_neg hb1]
              by_cases hb2 : b = i2
              · rw [if_pos hb2, if_pos hb2, hNV s1 hs1]
                by_cases heq : s1 = key.drop (pos + 1)
                · rw [if_pos heq, if_pos (hiff.mpr ⟨hb2.trans ha2.symm, heq⟩)]
                · rw [if_neg heq, if_neg (fun hc => heq (hiff.mp hc).2)]
              · rw [if_neg hb2, if_neg hb2]
                have hne : ¬(b :: s1 = key.drop pos) := by
                  intro hc
                  exact hb2 ((hiff.mp hc).1.trans ha2)
                rw [if_neg hne]
        · intro hu
          rw [hkdrop, find_duoNode_cons, if_neg ha1, if_pos ha2]
          exact hu1 hu
        · intro hv
          simp [isValue] at hv
        · intro _
          rw [isBranch_condAdjust]
          rfl
      · -- neither child selected: expand to a full node with a fresh leaf
        have ha16 : key.getD pos 0 ≤ 16 := validKey_getD_le16 hkey (by omega)
        obtain ⟨flb, hW⟩ : ∃ flb, fullSet (adjustTod (.fullNode (expandDuo i1 i2 c1 c2)
            { dirty := true, t := bn }) bn) (key.getD pos 0)
            (newLeaf key pos vval bn) =
            .fullNode ((expandDuo i1 i2 c1 c2).set (key.getD pos 0)
              (newLeaf key pos vval bn)) flb :=
          ⟨{ dirty := true, t := bn,
             tod := min bn (minChildTod (expandDuo i1 i2 c1 c2) bn), hash := [] },
            by simp [adjustTod, fullSet]⟩
        refine ⟨fullSet (adjustTod (.fullNode (expandDuo i1 i2 c1 c2)
            { dirty := true, t := bn }) bn) (key.getD pos 0)
            (newLeaf key pos vval bn), true, ?_, ?_, ?_, ?_, ?_, ?_⟩
        · simp only [insert]
          rw [if_neg hpos]
          exact insertDuoStep_other i1 i2 c1 c2 fl key pos vval bn _ _ ha1 ha2
        · rw [hW, wf_fullNode_iff]
          refine ⟨hr1, by rw [List.length_set, length_expandDuo], ?_, ?_, ?_⟩
          · have hm1 : i1 ∈ nonNullIndices ((expandDuo i1 i2 c1 c2).set (key.getD pos 0)
                (newLeaf key pos vval bn)) := by
              rw [mem_nonNullIndices]
              refine ⟨by omega, ?_⟩
              rw [getD_set_ne ha1, getD_expandDuo _ _ _ _ i1 (by omega), if_pos rfl]
              exact wf_ne_nil hwc1
            have hm2 : i2 ∈ nonNullIndices ((expandDuo i1 i2 c1 c2).set (key.getD pos 0)
                (newLeaf key pos vval bn)) := by
              rw [mem_nonNullIndices]
              refine ⟨by omega, ?_⟩
              rw [getD_set_ne ha2, getD_expandDuo _ _ _ _ i2 (by omega),
                if_neg (by omega), if_pos rfl]
              exact wf_ne_nil hwc2
            have hma : key.getD pos 0 ∈ nonNullIndices ((expandDuo i1 i2 c1 c2).set
                (key.getD pos 0) (newLeaf key pos vval bn)) := by
              rw [mem_nonNullIndices]
              refine ⟨by omega, ?_⟩
              rw [getD_set_self (by rw [length_expandDuo]; omega)]
              exact wf_ne_nil (wf_newLeaf hkey hlen hr1 vval bn)
            exact three_le_length_of_mem (nodup_nonNullIndices _) hm1 hm2 hma
              (by omega) (fun h => ha1 h.symm) (fun h => ha2 h.symm)
          · intro i hi
            by_cases hia : i = key.getD pos 0
            · right
              rw [hia, getD_set_self (by rw [length_expandDuo]; omega)]
              exact wf_newLeaf hkey hlen hr1 vval bn
            · rw [getD_set_ne (fun h => hia h.symm), getD_expandDuo _ _ _ _ i hi]
              by_cases hii1 : i = i1
              · rw [if_pos hii1]
                right
                exact hwc1
              · rw [if_neg hii1]
                by_cases hii2 : i = i2
                · rw [if_pos hii2]
                  right
                  exact hwc2
                · rw [if_neg hii2]
                  left
                  rfl
          · by_cases h16a : key.getD pos 0 = 16
            · right
              have h16eq : ((expandDuo i1 i2 c1 c2).set (key.getD pos 0)
                  (newLeaf key pos vval bn)).getD 16 .nilNode =
                  newLeaf key pos vval bn := by
                rw [← h16a]
                exact getD_set_self (by rw [length_expandDuo]; omega) _ _
              rw [h16eq]
              exact isValue_newLeaf_of_last hkey (by omega) h16a vval bn
            · rw [getD_set_ne h16a, getD_expandDuo _ _ _ _ 16 (by omega)]
              by_cases hi2 : (16 : Nat) = i2
              · rw [if_neg (by omega), if_pos hi2]
                right
                exact h16 hi2.symm
              · rw [if_neg (by omega), if_neg hi2]
                left
                rfl
        · intro s hs
          rw [hW]
          cases s with
          | nil =>
            exfalso
            simp only [List.length_nil] at hs
            omega
          | cons b s1 =>
            have hs1 : s1.length = r - 1 := by
              simp only [List.length_cons] at hs
              omega
            rw [find_fullNode_cons, find_duoNode_cons]
            by_cases hba : b = key.getD pos 0
            · rw [hba, getD_set_self (by rw [length_expandDuo]; omega),
                find_newLeaf hkey hlen hr1 vval bn s1 hs1]
              have hiff : (key.getD pos 0 :: s1 = key.drop pos) ↔
                  (s1 = key.drop (pos + 1)) := by
                rw [hkdrop]
                simp
              by_cases heq : s1 = key.drop (pos + 1)
              · rw [if_pos heq, if_pos (hiff.mpr heq)]
              · rw [if_neg heq, if_neg (fun hc => heq (hiff.mp hc)),
                  if_neg ha1, if_neg ha2]
            · rw [getD_set_ne (fun h => hba h.symm)]
              have hcond : ¬(b :: s1 = key.drop pos) := by
                rw [hkdrop]
                intro hc
                have h1 : b = key.getD pos 0 := by
                  injection hc with h1 h2
                exact hba h1
              rw [if_neg hcond]
              by_cases hb17 : b < 17
              · rw [getD_expandDuo _ _ _ _ b hb17]
                by_cases hbi1 : b = i1
                · rw [if_pos hbi1, if_pos hbi1]
                · rw [if_neg hbi1, if_neg hbi1]
                  by_cases hbi2 : b = i2
                  · rw [if_pos hbi2, if_pos hbi2]
                  · rw [if_neg hbi2, if_neg hbi2, find_nilNode]
              · have hb1 : ¬(b = i1) := by omega
                have hb2 : ¬(b = i2) := by omega
                rw [if_neg hb1, if_neg hb2, List.getD_eq_default, find_nilNode]
                rw [length_expandDuo]
                omega
        · intro h
          simp at h
        · intro hv
          simp [isValue] at hv
        · intro _
          rw [hW]
          rfl
  | .fullNode ch fl =>
    rw [wf_fullNode_iff] at hwf
    obtain ⟨hr1, hch17, hnn3, hchwf, h16f⟩ := hwf
    have hpos : ¬(key.length = pos) := by omega
    have hposlt : pos < key.length := by omega
    have hkdrop : key.drop pos = key.getD pos 0 :: key.drop (pos + 1) :=
      drop_eq_getD_cons hposlt
    have ha16 : key.getD pos 0 ≤ 16 := validKey_getD_le16 hkey (by omega)
    by_cases hanil : (ch.getD (key.getD pos 0) .nilNode).isNull = true
    · -- empty slot: hang a fresh leaf there
      have haeq : ch.getD (key.getD pos 0) .nilNode = .nilNode := isNull_eq_nil hanil
      refine ⟨.fullNode (ch.set (key.getD pos 0) (newLeaf key pos vval bn))
          { dirty := true, t := bn, tod := fl.tod, hash := fl.hash },
        true, ?_, ?_, ?_, ?_, ?_, ?_⟩
      · simp only [insert]
        rw [if_neg hpos]
        exact insertFullStep_nil ch fl key pos vval bn _ haeq
      · rw [wf_fullNode_iff]
        refine ⟨hr1, by rw [List.length_set]; exact hch17, ?_, ?_, ?_⟩
        · refine le_trans hnn3 (nonNullIndices_length_mono ?_)
          intro j hj hjn
          by_cases hja : j = key.getD pos 0
          · rw [hja, haeq] at hjn
            simp [node.isNull] at hjn
          · rwa [getD_set_ne (fun h => hja h.symm)]
        · intro i hi
          by_cases hia : i = key.getD pos 0
          · right
            rw [hia, getD_set_self (by rw [hch17]; omega)]
            exact wf_newLeaf hkey hlen hr1 vval bn
          · rw [getD_set_ne (fun h => hia h.symm)]
            exact hchwf i hi
        · by_cases h16a : key.getD pos 0 = 16
          · have h16eq : (ch.set (key.getD pos 0)
                (newLeaf key pos vval bn)).getD 16 .nilNode =
                newLeaf key pos vval bn := by
              rw [← h16a]
              exact getD_set_self (by rw [hch17]; omega) _ _
            rw [h16eq]
            right
            exact isValue_newLeaf_of_last hkey (by omega) h16a vval bn
          · rw [getD_set_ne h16a]
            exact h16f
      · intro s hs
        cases s with
        | nil =>
          exfalso
          simp only [List.length_nil] at hs
          omega
        | cons b s1 =>
          have hs1 : s1.length = r - 1 := by
            simp only [List.length_cons] at hs
            omega
          rw [find_fullNode_cons, find_fullNode_cons]
          by_cases hba : b = key.getD pos 0
          · rw [hba, getD_set_self (by rw [hch17]; omega), haeq,
              find_newLeaf hkey hlen hr1 vval bn s1 hs1, find_nilNode]
            have hiff : (key.getD pos 0 :: s1 = key.drop pos) ↔
                (s1 = key.drop (pos + 1)) := by
              rw [hkdrop]
              simp
            by_cases heq : s1 = key.drop (pos + 1)
            · rw [if_pos heq, if_pos (hiff.mpr heq)]
            · rw [if_neg heq, if_neg (fun hc => heq (hiff.mp hc))]
          · rw [getD_set_ne (fun h => hba h.symm)]
            have hcond : ¬(b :: s1 = key.drop pos) := by
              rw [hkdrop]
              intro hc
              have h1 : b = key.getD pos 0 := by
                injection hc with h1 h2
              exact hba h1
            rw [if_neg hcond]
      · intro h
        simp at h
      · intro hv
        simp [isValue] at hv
      · intro _
        rfl
    · -- occupied slot: recurse into the child
      have hanil2 : (ch.getD (key.getD pos 0) .nilNode).isNull = false :=
        Bool.eq_false_iff.mpr hanil
      have hcwf : wf (ch.getD (key.getD pos 0) .nilNode) (r - 1) = true := by
        rcases hchwf (key.getD pos 0) (by omega) with h | h
        · rw [h] at hanil2
          simp at hanil2
        · exact h
      obtain ⟨n1', u, hins, hwf1, hfind1, hu1, hx1, hx2⟩ :=
        IH (r - 1) (by omega) (ch.getD (key.getD pos 0) .nilNode) key (pos + 1)
          hcwf (by omega) hkey
      have hNV : ∀ s' : List Nat, s'.length = r - 1 →
          find (if u = true then n1' else ch.getD (key.getD pos 0) .nilNode) s' =
            if s' = key.drop (pos + 1) then some vval
            else find (ch.getD (key.getD pos 0) .nilNode) s' := by
        intro s' hs'
        cases u with
        | true =>
          rw [if_pos rfl]
          exact hfind1 s' hs'
        | false =>
          rw [if_neg (by simp)]
          by_cases heq : s' = key.drop (pos + 1)
          · rw [if_pos heq, heq]
            exact hu1 rfl
          · rw [if_neg heq]
      have hlen2 : (if u = true then ch.set (key.getD pos 0) n1' else ch).length = 17 := by
        cases u with
        | true =>
          rw [if_pos rfl, List.length_set]
          exact hch17
        | false =>
          rw [if_neg (by simp)]
          exact hch17
      have hgetD2 : ∀ j : Nat,
          (if u = true then ch.set (key.getD pos 0) n1' else ch).getD j .nilNode =
            if j = key.getD pos 0 then
              (if u = true then n1' else ch.getD (key.getD pos 0) .nilNode)
            else ch.getD j .nilNode := by
        intro j
        cases u with
        | true =>
          rw [if_pos rfl]
          by_cases hj : j = key.getD pos 0
          · rw [if_pos hj, if_pos rfl, hj, getD_set_self (by rw [hch17]; omega)]
          · rw [if_neg hj, getD_set_ne (fun h => hj h.symm)]
        | false =>
          rw [if_neg (by simp)]
          by_cases hj : j = key.getD pos 0
          · rw [if_pos hj, if_neg (by simp), hj]
          · rw [if_neg hj]
      refine ⟨if decide (fl.tod = (ch.getD (key.getD pos 0) .nilNode).todv bn) = true then
          adjustTod (.fullNode (if u = true then ch.set (key.getD pos 0) n1' else ch)
            { dirty := fl.dirty || u, t := bn, tod := fl.tod, hash := fl.hash }) bn
        else .fullNode (if u = true then ch.set (key.getD pos 0) n1' else ch)
          { dirty := fl.dirty || u, t := bn, tod := fl.tod, hash := fl.hash },
        u, ?_, ?_, ?_, ?_, ?_, ?_⟩
      · simp only [insert]
        rw [if_neg hpos, hins]
        exact insertFullStep_sel ch fl key pos vval bn n1' u hanil2
      · rw [wf_condAdjust, wf_fullNode_iff]
        refine ⟨hr1, hlen2, ?_, ?_, ?_⟩
        · refine le_trans hnn3 (nonNullIndices_length_mono ?_)
          intro j hj hjn
          rw [hgetD2 j]
          by_cases hja : j = key.getD pos 0
          · rw [if_pos hja]
            cases u with
            | true =>
              rw [if_pos rfl]
              exact wf_ne_nil hwf1
            | false =>
              rw [if_neg (by simp)]
              exact hanil2
          · rw [if_neg hja]
            exact hjn
        · intro i hi
          rw [hgetD2 i]
          by_cases hia : i = key.getD pos 0
          · rw [if_pos hia]
            right
            cases u with
            | true =>
              rw [if_pos rfl]
              exact hwf1
            | false =>
              rw [if_neg (by simp)]
              exact hcwf
          · rw [if_neg hia]
            exact hchwf i hi
        · rw [hgetD2 16]
          by_cases h16a : (16 : Nat) = key.getD pos 0
          · rw [if_pos h16a]
            right
            have holdv : isValue (ch.getD (key.getD pos 0) .nilNode) = true := by
              rcases h16f with hn | hv
              · rw [h16a] at hn
                rw [hn] at hanil2
                simp at hanil2
              · rw [h16a] at hv
                exact hv
            cases u with
            | true =>
              rw [if_pos rfl]
              exact hx1 holdv
            | false =>
              rw [if_neg (by simp)]
              exact holdv
          · rw [if_neg h16a]
            exact h16f
      · intro s hs
        rw [find_condAdjust]
        cases s with
        | nil =>
          exfalso
          simp only [List.length_nil] at hs
          omega
        | cons b s1 =>
          have hs1 : s1.length = r - 1 := by
            simp only [List.length_cons] at hs
            omega
          rw [find_fullNode_cons, find_fullNode_cons, hgetD2 b]
          by_cases hba : b = key.getD pos 0
          · rw [if_pos hba, hNV s1 hs1, hba]
            have hiff : (key.getD pos 0 :: s1 = key.drop pos) ↔
                (s1 = key.drop (pos + 1)) := by
              rw [hkdrop]
              simp
            by_cases heq : s1 = key.drop (pos + 1)
            · rw [if_pos heq, if_pos (hiff.mpr heq)]
            · rw [if_neg heq, if_neg (fun hc => heq (hiff.mp hc))]
          · rw [if_neg hba]
            have hcond : ¬(b :: s1 = key.drop pos) := by
              rw [hkdrop]
              intro hc
              have h1 : b = key.getD pos 0 := by
                injection hc with h1 h2
              exact hba h1
            rw [if_neg hcond]
      · intro hu
        rw [hkdrop, find_fullNode_cons]
        exact hu1 hu
      · intro hv
        simp [isValue] at hv
      · intro _
        rw [isBranch_condAdjust]
        rfl

/-! ## Helpers for delete -/

theorem not_prefix_of_prefixLen_lt {a b : List Nat}
    (h : prefixLen a b < b.length) : ¬(b <+: a) := by
  intro hc
  rw [prefixLen_eq_length_left hc] at h
  omega

theorem validHex_append_lt {p q : List Nat} (hp : ∀ a ∈ p, a < 16)
    (hq : validHex q = true) : validHex (p ++ q) = true := by
  rcases List.eq_nil_or_concat q with rfl | ⟨l, b, rfl⟩
  · rw [List.append_nil]
    exact validHex_of_all_lt hp
  · simp only [List.concat_eq_append, ← List.append_assoc] at *
    unfold validHex at hq ⊢
    simp only [List.dropLast_concat, List.getLast?_concat, Option.getD_some,
      Bool.and_eq_true, List.all_eq_true, decide_eq_true_eq, List.mem_append] at hq ⊢
    refine ⟨?_, hq.2⟩
    intro a ha
    rcases ha with ha | ha
    · exact hp a ha
    · exact hq.1 a ha

theorem validHex_singleton {p : Nat} (hp : p ≤ 16) : validHex [p] = true := by
  unfold validHex
  simp [hp]

theorem isNull_stripFlags (n : node) : (stripFlags n).isNull = n.isNull := by
  cases n <;> simp [node.isNull]

theorem isShort_stripFlags (n : node) : isShort (stripFlags n) = isShort n := by
  cases n <;> simp [isShort]

theorem isValue_stripFlags (n : node) : isValue (stripFlags n) = isValue n := by
  cases n <;> simp [isValue]

theorem isNull_of_stripFlags_eq {a b : node} (h : stripFlags a = stripFlags b) :
    a.isNull = b.isNull := by
  have := congrArg node.isNull h
  rwa [isNull_stripFlags, isNull_stripFlags] at this

theorem map_strip_set {l : List node} {i : Nat} (x : node)
    (hx : stripFlags x = stripFlags (l.getD i .nilNode)) (hi : i < l.length) :
    (l.set i x).map stripFlags = l.map stripFlags := by
  apply List.ext_getElem?
  intro j
  simp only [List.getElem?_map]
  by_cases hj : i = j
  · subst hj
    rw [List.getElem?_set_self hi, List.getElem?_eq_getElem hi]
    have hgd : l.getD i .nilNode = l[i] := by
      simp [List.getD, List.getElem?_eq_getElem hi]
    rw [hgd] at hx
    simp [hx]
  · rw [List.getElem?_set_ne hj]

theorem nonNullIndices_congr {ch ch' : List node}
    (h : ∀ j < 17, (ch.getD j .nilNode).isNull = (ch'.getD j .nilNode).isNull) :
    nonNullIndices ch = nonNullIndices ch' := by
  unfold nonNullIndices
  apply List.filter_congr
  intro j hj
  simp only [List.mem_range] at hj
  rw [h j hj]

theorem length_filter_le_succ_of_ne {l : List Nat} {p q : Nat → Bool} {a : Nat}
    (hnd : l.Nodup)
    (h : ∀ b ∈ l, b ≠ a → p b = true → q b = true) :
    (l.filter p).length ≤ (l.filter q).length + 1 := by
  induction l with
  | nil => simp
  | cons x xs ih =>
    have hnd' : xs.Nodup := (List.nodup_cons.mp hnd).2
    by_cases hxa : x = a
    · subst hxa
      have hnx : x ∉ xs := (List.nodup_cons.mp hnd).1
      have hmono : (xs.filter p).length ≤ (xs.filter q).length :=
        length_filter_mono (fun b hb hp => h b (by simp [hb]) (fun hc => hnx (hc ▸ hb)) hp)
      have h1 : (List.filter p (x :: xs)).length ≤ (xs.filter p).length + 1 := by
        by_cases hpx : p x = true
        · rw [List.filter_cons_of_pos hpx]
          simp
        · rw [List.filter_cons_of_neg (by simpa using hpx)]
          omega
      have h2 : (xs.filter q).length ≤ (List.filter q (x :: xs)).length := by
        by_cases hqx : q x = true
        · rw [List.filter_cons_of_pos hqx]
          simp
        · rw [List.filter_cons_of_neg (by simpa using hqx)]
      omega
    · have ih' := ih hnd' (fun b hb => h b (by simp [hb]))
      by_cases hpx : p x = true
      · rw [List.filter_cons_of_pos hpx, List.filter_cons_of_pos (h x (by simp) hxa hpx)]
        simpa using ih'
      · rw [List.filter_cons_of_neg (by simpa using hpx)]
        have h2 : (xs.filter q).length ≤ (List.filter q (x :: xs)).length := by
          by_cases hqx : q x = true
          · rw [List.filter_cons_of_pos hqx]
            simp
          · rw [List.filter_cons_of_neg (by simpa using hqx)]
        omega

theorem nonNullIndices_set_ge (ch : List node) (a : Nat) (x : node) :
    (nonNullIndices ch).length ≤ (nonNullIndices (ch.set a x)).length + 1 := by
  unfold nonNullIndices
  apply length_filter_le_succ_of_ne (List.nodup_range 17)
  intro b hb hba hp
  rwa [getD_set_ne (fun hc => hba hc.symm)]

theorem nonNullIndices_pairwise (ch : List node) :
    (nonNullIndices ch).Pairwise (· < ·) :=
  (List.pairwise_lt_range 17).filter _

theorem pair_of_length_two {l : List Nat} (h : l.length = 2)
    (hp : l.Pairwise (· < ·)) :
    l = [l.getD 0 0, l.getD 1 0] ∧ l.getD 0 0 < l.getD 1 0 := by
  match l, h with
  | [x, y], _ =>
    refine ⟨rfl, ?_⟩
    simpa using hp

/-- convertToShortNode on a well-formed child (trie.go lines 2324-2399):
always succeeds with updated = true, yields a short node that is well
formed one level up and routes lookups through the nibble p.  The
terminator slot (p = 16) only ever holds a bare value. -/
theorem convertToShortNode_spec (child : node) (p bn r : Nat)
    (hwf : wf child r = true) (hp : p ≤ 16) (h16 : p = 16 → isValue child = true) :
    ∃ n1, convertToShortNode child p bn = .ok n1 true ∧ wf n1 (r + 1) = true ∧
      isShort n1 = true ∧
      ∀ (a : Nat) (s1 : List Nat), find n1 (a :: s1) =
        if a = p then find child s1 else none := by
  cases child with
  | nilNode => simp at hwf
  | hashNode h => simp at hwf
  | shortNode ck cval cfl =>
    have hp16 : p ≠ 16 := by
      intro hc
      have := h16 hc
      simp [isValue] at this
    have hplt : p < 16 := by omega
    rw [wf_shortNode_iff] at hwf
    obtain ⟨hck_ne, hck_vh, hck_rt, hck_le, hcv_wf, hck_br, hcv_ns, hcv_nn, hcv_nh⟩ := hwf
    have hvh : validHex (p :: compactToHex ck) = true := by
      have := validHex_append_lt (p := [p]) (by simp [hplt]) hck_vh
      simpa using this
    have hrt : compactToHex (hexToCompact (p :: compactToHex ck)) =
        p :: compactToHex ck := compactToHex_hexToCompact _ hvh
    refine ⟨adjustTod (.shortNode (hexToCompact (p :: compactToHex ck)) cval
        { dirty := true, t := bn }) bn, ?_, ?_, ?_, ?_⟩
    · simp only [convertToShortNode]
      rw [if_pos hp16]
    · rw [wf_adjustTod, wf_shortNode_iff, hrt]
      refine ⟨by simp, hvh, rfl, ?_, ?_, ?_, hcv_ns, hcv_nn, hcv_nh⟩
      · simp only [List.length_cons]
        omega
      · have he : r + 1 - (p :: compactToHex ck).length =
            r - (compactToHex ck).length := by
          simp only [List.length_cons]
          omega
        rw [he]
        exact hcv_wf
      · intro hb
        have hall := hck_br hb
        simp only [List.all_eq_true, decide_eq_true_eq, List.mem_cons] at hall ⊢
        rintro x (rfl | hx)
        · exact hplt
        · exact hall x hx
    · rw [isShort_adjustTod]
      rfl
    · intro a s1
      rw [find_adjustTod, find_shortNode, hrt, find_shortNode]
      by_cases ha : a = p
      · subst ha
        have hpre : (a :: compactToHex ck).isPrefixOf (a :: s1) =
            (compactToHex ck).isPrefixOf s1 := by
          simp [List.isPrefixOf]
        rw [hpre, if_pos rfl]
        simp only [List.length_cons, List.drop_succ_cons]
      · have hpre : ¬((p :: compactToHex ck).isPrefixOf (a :: s1) = true) := by
          simp only [List.isPrefixOf, Bool.and_eq_true, beq_iff_eq]
          intro hc
          exact ha hc.1.symm
        rw [if_neg hpre, if_neg ha]
  | valueNode v =>
    have hr0 : r = 0 := by simpa using hwf
    subst hr0
    refine ⟨adjustTod (.shortNode (hexToCompact [p]) (.valueNode v)
        { dirty := true, t := bn }) bn, ?_, ?_, ?_, ?_⟩
    · simp only [convertToShortNode]
      by_cases hc : p ≠ 16
      · rw [if_pos hc]
      · rw [if_neg hc]
    · rw [wf_adjustTod, wf_shortNode_iff, compactToHex_hexToCompact _ (validHex_singleton hp)]
      refine ⟨by simp, validHex_singleton hp, rfl, by simp, by simp, ?_, rfl, rfl, rfl⟩
      intro hb
      simp [isBranch] at hb
    · rw [isShort_adjustTod]
      rfl
    · intro a s1
      rw [find_adjustTod, find_shortNode, compactToHex_hexToCompact _ (validHex_singleton hp)]
      by_cases ha : a = p
      · subst ha
        have hpre : ([a] : List Nat).isPrefixOf (a :: s1) = true := by
          simp [List.isPrefixOf]
        rw [hpre, if_pos rfl]
        simp
      · have hpre : ¬(([p] : List Nat).isPrefixOf (a :: s1) = true) := by
          simp only [List.isPrefixOf, Bool.and_eq_true, beq_iff_eq]
          intro hc
          exact ha hc.1.symm
        rw [if_neg hpre, if_neg ha]
  | duoNode i1 i2 c1 c2 dfl =>
    have hp16 : p ≠ 16 := by
      intro hc
      have := h16 hc
      simp [isValue] at this
    have hplt : p < 16 := by omega
    have hr1 : 1 ≤ r := by
      rw [wf_duoNode_iff] at hwf
      exact hwf.1
    refine ⟨adjustTod (.shortNode (hexToCompact [p]) (.duoNode i1 i2 c1 c2 dfl)
        { dirty := true, t := bn }) bn, ?_, ?_, ?_, ?_⟩
    · simp only [convertToShortNode]
      rw [if_pos hp16]
    · rw [wf_adjustTod, wf_shortNode_iff, compactToHex_hexToCompact _ (validHex_singleton hp)]
      refine ⟨by simp, validHex_singleton hp, rfl, by simp, ?_, ?_, rfl, rfl, rfl⟩
      · have he : r + 1 - ([p] : List Nat).length = r := by
          simp
        rw [he]
        exact hwf
      · intro _
        simp [hplt]
    · rw [isShort_adjustTod]
      rfl
    · intro a s1
      rw [find_adjustTod, find_shortNode, compactToHex_hexToCompact _ (validHex_singleton hp)]
      by_cases ha : a = p
      · subst ha
        have hpre : ([a] : List Nat).isPrefixOf (a :: s1) = true := by
          simp [List.isPrefixOf]
        rw [hpre, if_pos rfl]
        simp
      · have hpre : ¬(([p] : List Nat).isPrefixOf (a :: s1) = true) := by
          simp only [List.isPrefixOf, Bool.and_eq_true, beq_iff_eq]
          intro hc
          exact ha hc.1.symm
        rw [if_neg hpre, if_neg ha]
  | fullNode ch cfl =>
    have hp16 : p ≠ 16 := by
      intro hc
      have := h16 hc
      simp [isValue] at this
    have hplt : p < 16 := by omega
    have hr1 : 1 ≤ r := by
      rw [wf_fullNode_iff] at hwf
      exact hwf.1
    refine ⟨adjustTod (.shortNode (hexToCompact [p]) (.fullNode ch cfl)
        { dirty := true, t := bn }) bn, ?_, ?_, ?_, ?_⟩
    · simp only [convertToShortNode]
      rw [if_pos hp16]
    · rw [wf_adjustTod, wf_shortNode_iff, compactToHex_hexToCompact _ (validHex_singleton hp)]
      refine ⟨by simp, validHex_singleton hp, rfl, by simp, ?_, ?_, rfl, rfl, rfl⟩
      · have he : r + 1 - ([p] : List Nat).length = r := by
          simp
        rw [he]
        exact hwf
      · intro _
        simp [hplt]
    · rw [isShort_adjustTod]
      rfl
    · intro a s1
      rw [find_adjustTod, find_shortNode, compactToHex_hexToCompact _ (validHex_singleton hp)]
      by_cases ha : a = p
      · subst ha
        have hpre : ([a] : List Nat).isPrefixOf (a :: s1) = true := by
          simp [List.isPrefixOf]
        rw [hpre, if_pos rfl]
        simp
      · have hpre : ¬(([p] : List Nat).isPrefixOf (a :: s1) = true) := by
          simp only [List.isPrefixOf, Bool.and_eq_true, beq_iff_eq]
          intro hc
          exact ha hc.1.symm
        rw [if_neg hpre, if_neg ha]

/-- deleteShortStep when the stored key is not fully matched (trie.go
lines 2412-2420): nothing to delete. -/
theorem deleteShortStep_miss (k : List Nat) (val : node) (fl : Flags)
    (key : List Nat) (keyStart : Nat) (bn : Nat) (dr : TRes)
    (hm : prefixLen (key.drop keyStart) (compactToHex k) < (compactToHex k).length) :
    deleteShortStep k val fl key keyStart bn dr =
      .ok (.shortNode k val { fl with t := bn }) false := by
  simp only [deleteShortStep]
  rw [if_pos hm]

/-- deleteShortStep when the key ends at the stored key (trie.go lines
2421-2426): the whole short node is removed. -/
theorem deleteShortStep_all (k : List Nat) (val : node) (fl : Flags)
    (key : List Nat) (keyStart : Nat) (bn : Nat) (dr : TRes)
    (hm1 : ¬(prefixLen (key.drop keyStart) (compactToHex k) < (compactToHex k).length))
    (hm2 : prefixLen (key.drop keyStart) (compactToHex k) = key.length - keyStart) :
    deleteShortStep k val fl key keyStart bn dr = .ok .nilNode true := by
  simp only [deleteShortStep]
  rw [if_neg hm1, if_pos hm2]

/-- deleteShortStep when the recursion below reports no change (trie.go
lines 2432-2437). -/
theorem deleteShortStep_stale (k : List Nat) (val : node) (fl : Flags)
    (key : List Nat) (keyStart : Nat) (bn : Nat) (child : node)
    (hm1 : ¬(prefixLen (key.drop keyStart) (compactToHex k) < (compactToHex k).length))
    (hm2 : ¬(prefixLen (key.drop keyStart) (compactToHex k) = key.length - keyStart)) :
    deleteShortStep k val fl key keyStart bn (.ok child false) =
      .ok (.shortNode k val { fl with t := bn }) false := by
  simp only [deleteShortStep]
  rw [if_neg hm1, if_neg hm2]
  rfl

/-- deleteShortStep when the child below was emptied (trie.go lines
2440-2442). -/
theorem deleteShortStep_collapse (k : List Nat) (val : node) (fl : Flags)
    (key : List Nat) (keyStart : Nat) (bn : Nat)
    (hm1 : ¬(prefixLen (key.drop keyStart) (compactToHex k) < (compactToHex k).length))
    (hm2 : ¬(prefixLen (key.drop keyStart) (compactToHex k) = key.length - keyStart)) :
    deleteShortStep k val fl key keyStart bn (.ok .nilNode true) =
      .ok .nilNode true := by
  simp only [deleteShortStep]
  rw [if_neg hm1, if_neg hm2]
  rfl

/-- deleteShortStep when the child below collapsed to a short node
(trie.go lines 2443-2453): the two keys concatenate. -/
theorem deleteShortStep_merge (k : List Nat) (val : node) (fl : Flags)
    (key : List Nat) (keyStart : Nat) (bn : Nat) (ck : List Nat) (cval : node)
    (cfl : Flags)
    (hm1 : ¬(prefixLen (key.drop keyStart) (compactToHex k) < (compactToHex k).length))
    (hm2 : ¬(prefixLen (key.drop keyStart) (compactToHex k) = key.length - keyStart)) :
    deleteShortStep k val fl key keyStart bn (.ok (.shortNode ck cval cfl) true) =
      .ok (adjustTod (.shortNode (hexToCompact (compactToHex k ++ compactToHex ck))
        cval { dirty := true, t := bn }) bn) true := by
  simp only [deleteShortStep]
  rw [if_neg hm1, if_neg hm2]
  rfl

/-- deleteShortStep when the updated child is neither empty nor a short
node (trie.go lines 2454-2462). -/
theorem deleteShortStep_wrap (k : List Nat) (val : node) (fl : Flags)
    (key : List Nat) (keyStart : Nat) (bn : Nat) (child : node)
    (hm1 : ¬(prefixLen (key.drop keyStart) (compactToHex k) < (compactToHex k).length))
    (hm2 : ¬(prefixLen (key.drop keyStart) (compactToHex k) = key.length - keyStart))
    (hns : isShort child = false) (hnn : child.isNull = false) :
    deleteShortStep k val fl key keyStart bn (.ok child true) =
      .ok (adjustTod (.shortNode k child
        { dirty := true, t := bn, tod := fl.tod, hash := fl.hash }) bn) true := by
  cases child with
  | nilNode => simp [node.isNull] at hnn
  | shortNode a b c => simp [isShort] at hns
  | hashNode h =>
    simp only [deleteShortStep]
    rw [if_neg hm1, if_neg hm2]
    rfl
  | valueNode v =>
    simp only [deleteShortStep]
    rw [if_neg hm1, if_neg hm2]
    rfl
  | duoNode j1 j2 d1 d2 f =>
    simp only [deleteShortStep]
    rw [if_neg hm1, if_neg hm2]
    rfl
  | fullNode ch f =>
    simp only [deleteShortStep]
    rw [if_neg hm1, if_neg hm2]
    rfl

/-- deleteDuoStep when the selected first child empties out (trie.go
lines 2477-2492). -/
theorem deleteDuoStep_sel1_collapse (i1 i2 : Nat) (c1 c2 : node) (fl : Flags)
    (key : List Nat) (keyStart : Nat) (bn : Nat) (nn : node) (u : Bool) (dr2 : TRes)
    (ha : key.getD keyStart 0 = i1) (hnn : nn.isNull = true) (hc2 : c2.isNull = false) :
    deleteDuoStep i1 i2 c1 c2 fl key keyStart bn (.ok nn u) dr2 =
      convertToShortNode c2 i2 bn := by
  simp only [deleteDuoStep]
  rw [if_pos ha, hnn, hc2]
  rfl

/-- deleteDuoStep when the selected first child stays populated (trie.go
lines 2493-2505). -/
theorem deleteDuoStep_sel1_rebuild (i1 i2 : Nat) (c1 c2 : node) (fl : Flags)
    (key : List Nat) (keyStart : Nat) (bn : Nat) (nn : node) (u : Bool) (dr2 : TRes)
    (ha : key.getD keyStart 0 = i1) (hnn : nn.isNull = false) :
    deleteDuoStep i1 i2 c1 c2 fl key keyStart bn (.ok nn u) dr2 =
      .ok (if (!c1.isNull && decide (fl.tod = c1.todv bn)) = true then
          adjustTod (.duoNode i1 i2 nn c2
            { dirty := fl.dirty || u, t := bn, tod := fl.tod, hash := fl.hash }) bn
        else .duoNode i1 i2 nn c2
          { dirty := fl.dirty || u, t := bn, tod := fl.tod, hash := fl.hash }) u := by
  simp only [deleteDuoStep]
  rw [if_pos ha, hnn]
  rfl

/-- deleteDuoStep when the selected second child empties out (trie.go
lines 2507-2522). -/
theorem deleteDuoStep_sel2_collapse (i1 i2 : Nat) (c1 c2 : node) (fl : Flags)
    (key : List Nat) (keyStart : Nat) (bn : Nat) (nn : node) (u : Bool) (dr1 : TRes)
    (ha1 : ¬(key.getD keyStart 0 = i1)) (ha : key.getD keyStart 0 = i2)
    (hnn : nn.isNull = true) (hc1 : c1.isNull = false) :
    deleteDuoStep i1 i2 c1 c2 fl key keyStart bn dr1 (.ok nn u) =
      convertToShortNode c1 i1 bn := by
  simp only [deleteDuoStep]
  rw [if_neg ha1, if_pos ha, hnn, hc1]
  rfl

/-- deleteDuoStep when the selected second child stays populated
(trie.go lines 2523-2535). -/
theorem deleteDuoStep_sel2_rebuild (i1 i2 : Nat) (c1 c2 : node) (fl : Flags)
    (key : List Nat) (keyStart : Nat) (bn : Nat) (nn : node) (u : Bool) (dr1 : TRes)
    (ha1 : ¬(key.getD keyStart 0 = i1)) (ha : key.getD keyStart 0 = i2)
    (hnn : nn.isNull = false) :
    deleteDuoStep i1 i2 c1 c2 fl key keyStart bn dr1 (.ok nn u) =
      .ok (if (!c2.isNull && decide (fl.tod = c2.todv bn)) = true then
          adjustTod (.duoNode i1 i2 c1 nn
            { dirty := fl.dirty || u, t := bn, tod := fl.tod, hash := fl.hash }) bn
        else .duoNode i1 i2 c1 nn
          { dirty := fl.dirty || u, t := bn, tod := fl.tod, hash := fl.hash }) u := by
  simp only [deleteDuoStep]
  rw [if_neg ha1, if_pos ha, hnn]
  rfl

/-- deleteDuoStep when the key nibble selects neither child (trie.go
lines 2536-2540): nothing to delete. -/
theorem deleteDuoStep_miss (i1 i2 : Nat) (c1 c2 : node) (fl : Flags)
    (key : List Nat) (keyStart : Nat) (bn : Nat) (dr1 dr2 : TRes)
    (ha1 : ¬(key.getD keyStart 0 = i1)) (ha2 : ¬(key.getD keyStart 0 = i2)) :
    deleteDuoStep i1 i2 c1 c2 fl key keyStart bn dr1 dr2 =
      .ok (.duoNode i1 i2 c1 c2 { fl with t := bn }) false := by
  simp only [deleteDuoStep]
  rw [if_neg ha1, if_neg ha2]

/-- deleteFullStep when exactly two children remain (trie.go lines
2582-2604): the full node shrinks to a duo node. -/
theorem deleteFullStep_toDuo (ch : List node) (fl : Flags) (key : List Nat)
    (keyStart : Nat) (bn : Nat) (nn : node) (u : Bool)
    (h0 : ¬((nonNullIndices (ch.set (key.getD keyStart 0) nn)).length = 0))
    (h1 : ¬((nonNullIndices (ch.set (key.getD keyStart 0) nn)).length = 1))
    (h2 : (nonNullIndices (ch.set (key.getD keyStart 0) nn)).length = 2) :
    deleteFullStep ch fl key keyStart bn (.ok nn u) =
      .ok (adjustTod (.duoNode
        ((nonNullIndices (ch.set (key.getD keyStart 0) nn)).getD 0 0)
        ((nonNullIndices (ch.set (key.getD keyStart 0) nn)).getD 1 0)
        (if (nonNullIndices (ch.set (key.getD keyStart 0) nn)).getD 0 0 =
            key.getD keyStart 0 then nn
          else (ch.set (key.getD keyStart 0) nn).getD
            ((nonNullIndices (ch.set (key.getD keyStart 0) nn)).getD 0 0) .nilNode)
        (if (nonNullIndices (ch.set (key.getD keyStart 0) nn)).getD 1 0 =
            key.getD keyStart 0 then nn
          else (ch.set (key.getD keyStart 0) nn).getD
            ((nonNullIndices (ch.set (key.getD keyStart 0) nn)).getD 1 0) .nilNode)
        { dirty := true, t := bn }) bn) true := by
  simp only [deleteFullStep]
  rw [if_neg h0, if_neg h1, if_pos h2]

/-- deleteFullStep when at least three children remain (trie.go lines
2605-2619). -/
theorem deleteFullStep_rebuild (ch : List node) (fl : Flags) (key : List Nat)
    (keyStart : Nat) (bn : Nat) (nn : node) (u : Bool)
    (h0 : ¬((nonNullIndices (ch.set (key.getD keyStart 0) nn)).length = 0))
    (h1 : ¬((nonNullIndices (ch.set (key.getD keyStart 0) nn)).length = 1))
    (h2 : ¬((nonNullIndices (ch.set (key.getD keyStart 0) nn)).length = 2)) :
    deleteFullStep ch fl key keyStart bn (.ok nn u) =
      .ok (if (!(ch.getD (key.getD keyStart 0) .nilNode).isNull &&
            decide (fl.tod = (ch.getD (key.getD keyStart 0) .nilNode).todv bn)) = true then
          adjustTod (.fullNode (ch.set (key.getD keyStart 0) nn)
            { dirty := fl.dirty || u, t := bn, tod := fl.tod, hash := fl.hash }) bn
        else .fullNode (ch.set (key.getD keyStart 0) nn)
          { dirty := fl.dirty || u, t := bn, tod := fl.tod, hash := fl.hash }) u := by
  simp only [deleteFullStep]
  rw [if_neg h0, if_neg h1, if_neg h2]

theorem stripFlags_condAdjust (c : Prop) [Decidable c] (x : node) (bn : Nat) :
    stripFlags (if c then adjustTod x bn else x) = stripFlags x := by
  by_cases h : c
  · rw [if_pos h, stripFlags_adjustTod]
  · rw [if_neg h]

theorem isShort_cases {n : node} (h : isShort n = true) :
    ∃ ck cval cfl, n = .shortNode ck cval cfl := by
  cases n with
  | shortNode ck cval cfl => exact ⟨ck, cval, cfl, rfl⟩
  | _ => simp [isShort] at h

theorem wf_isValue_zero {n : node} {r : Nat} (hv : isValue n = true)
    (hw : wf n r = true) : r = 0 := by
  cases n with
  | valueNode v => simpa using hw
  | _ => simp [isValue] at hv

/-- Master lemma for delete on well-formed resolved tries: the operation
completes, reports an update exactly when the key is present, leaves a
well-formed or empty trie, removes exactly the given key from the map,
and leaves the structure untouched (up to flags) when nothing was
deleted. -/
theorem delete_spec (bn : Nat) :
    ∀ r : Nat, ∀ n : node, ∀ key : List Nat, ∀ keyStart : Nat,
    wf n r = true → key.length = keyStart + r → validKey key = true →
    ∃ n1 u, delete n key keyStart bn = .ok n1 u ∧
      u = (find n (key.drop keyStart)).isSome ∧
      (wf n1 r = true ∨ n1 = .nilNode) ∧
      (∀ s : List Nat, s.length = r →
        find n1 s = if s = key.drop keyStart then none else find n s) ∧
      (u = false → stripFlags n1 = stripFlags n) := by
  intro r
  induction r using Nat.strong_induction_on with
  | _ r IH =>
  intro n key keyStart hwf hlen hkey
  match n with
  | .nilNode => simp at hwf
  | .hashNode h => simp at hwf
  | .valueNode v =>
    have hr0 : r = 0 := by simpa using hwf
    subst hr0
    have hdrop : key.drop keyStart = [] := by
      apply List.drop_eq_nil_of_le
      omega
    refine ⟨.nilNode, true, by simp only [delete], ?_, Or.inr rfl, ?_, ?_⟩
    · rw [hdrop]
      simp
    · intro s hs
      rw [List.length_eq_zero] at hs
      subst hs
      rw [hdrop]
      simp
    · intro h
      simp at h
  | .shortNode k val fl =>
    rw [wf_shortNode_iff] at hwf
    obtain ⟨hk_ne, hk_vh, hk_rt, hk_le, hwf_val, hk_br, hval_ns, hval_nn, hval_nh⟩ := hwf
    have hklen1 : 1 ≤ (compactToHex k).length := List.length_pos.mpr hk_ne
    have hr1 : 1 ≤ r := by omega
    have hm_le1 : prefixLen (key.drop keyStart) (compactToHex k) ≤ key.length - keyStart := by
      have := prefixLen_le_left (key.drop keyStart) (compactToHex k)
      simpa using this
    have hm_le2 := prefixLen_le_right (key.drop keyStart) (compactToHex k)
    by_cases hm1 : prefixLen (key.drop keyStart) (compactToHex k) < (compactToHex k).length
    · -- key diverges within the stored key: no-op
      have hnp : ¬((compactToHex k).isPrefixOf (key.drop keyStart) = true) := by
        intro hc
        exact not_prefix_of_prefixLen_lt hm1 (List.isPrefixOf_iff_prefix.mp hc)
      refine ⟨.shortNode k val { fl with t := bn }, false, ?_, ?_, ?_, ?_, ?_⟩
      · simp only [delete]
        exact deleteShortStep_miss k val fl key keyStart bn _ hm1
      · rw [find_shortNode, if_neg hnp]
        rfl
      · left
        rw [wf_shortNode_iff]
        exact ⟨hk_ne, hk_vh, hk_rt, hk_le, hwf_val, hk_br, hval_ns, hval_nn, hval_nh⟩
      · intro s hs
        rw [find_shortNode, find_shortNode]
        by_cases heq : s = key.drop keyStart
        · rw [if_pos heq]
          subst heq
          rw [if_neg hnp]
        · rw [if_neg heq]
      · intro _
        simp
    · by_cases hm2 : prefixLen (key.drop keyStart) (compactToHex k) = key.length - keyStart
      · -- the remaining key is exactly the stored key: remove the node
        have hmfull : prefixLen (key.drop keyStart) (compactToHex k) =
            (compactToHex k).length := by omega
        have hkeq : compactToHex k = key.drop keyStart := by
          apply List.IsPrefix.eq_of_length (prefix_of_prefixLen_eq hmfull)
          simp only [List.length_drop]
          omega
        have hrk : (compactToHex k).length = r := by
          have := congrArg List.length hkeq
          simp only [List.length_drop] at this
          omega
        have h0 : r - (compactToHex k).length = 0 := by omega
        rw [h0] at hwf_val
        obtain ⟨v, rfl⟩ := wf_value_of_zero hwf_val
        refine ⟨.nilNode, true, ?_, ?_, Or.inr rfl, ?_, ?_⟩
        · simp only [delete]
          exact deleteShortStep_all k (.valueNode v) fl key keyStart bn _ hm1 hm2
        · rw [find_shortNode,
            if_pos (by rw [hkeq]; exact List.isPrefixOf_iff_prefix.mpr (List.prefix_refl _))]
          have hd : (key.drop keyStart).drop (compactToHex k).length = [] := by
            apply List.drop_eq_nil_of_le
            simp only [List.length_drop]
            omega
          rw [hd]
          simp
        · intro s hs
          rw [find_nilNode, find_shortNode]
          by_cases heq : s = key.drop keyStart
          · rw [if_pos heq]
          · rw [if_neg heq, if_neg ?_]
            intro hc
            apply heq
            rw [← hkeq]
            symm
            apply List.IsPrefix.eq_of_length (List.isPrefixOf_iff_prefix.mp hc)
            omega
        · intro h
          simp at h
      · -- recurse below the stored key
        have hmfull : prefixLen (key.drop keyStart) (compactToHex k) =
            (compactToHex k).length := by omega
        have hklt : (compactToHex k).length < r := by omega
        have hkpre : compactToHex k <+: key.drop keyStart := prefix_of_prefixLen_eq hmfull
        obtain ⟨nn, u, hdel, huc, hwfnn, hfindnn, hstripnn⟩ :=
          IH (r - (compactToHex k).length) (by omega) val key
            (keyStart + (compactToHex k).length) hwf_val (by omega) hkey
        have hdd : (key.drop keyStart).drop (compactToHex k).length =
            key.drop (keyStart + (compactToHex k).length) := by
          rw [List.drop_drop]
        have hufind : (find (.shortNode k val fl) (key.drop keyStart)).isSome =
            (find val (key.drop (keyStart + (compactToHex k).length))).isSome := by
          rw [find_shortNode, if_pos (List.isPrefixOf_iff_prefix.mpr hkpre), hdd]
        have hvb : isBranch val = true := by
          rcases not_short_cases hval_ns hval_nn hval_nh with hv | hb
          · have := wf_isValue_zero hv hwf_val
            omega
          · exact hb
        have hk_all : ∀ a ∈ compactToHex k, a < 16 := by
          have hall := hk_br hvb
          simp only [List.all_eq_true, decide_eq_true_eq] at hall
          exact hall
        -- uniform lookup law for any result n2 with
        -- find n2 s = if nKey prefix s then find nn (drop) else none
        have hkey_iff : ∀ s : List Nat, s.length = r →
            ((compactToHex k).isPrefixOf s = true →
              (s = key.drop keyStart ↔
                s.drop (compactToHex k).length =
                  key.drop (keyStart + (compactToHex k).length))) := by
          intro s hs hpre
          have h := prefix_drop_eq_iff hkpre (List.isPrefixOf_iff_prefix.mp hpre)
          rwa [hdd] at h
        by_cases hu : u = true
        · subst hu
          rcases hwfnn with hwfnn | rfl
          · by_cases hsh : isShort nn = true
            · -- the child collapsed to a short node: merge the keys
              obtain ⟨ck, cval, cfl, rfl⟩ := isShort_cases hsh
              rw [wf_shortNode_iff] at hwfnn
              obtain ⟨hn_ne, hn_vh, hn_rt, hn_le, hn_wf, hn_br, hn_ns, hn_nn, hn_nh⟩ := hwfnn
              have hvh2 : validHex (compactToHex k ++ compactToHex ck) = true :=
                validHex_append_lt hk_all hn_vh
              have hrt2 : compactToHex (hexToCompact (compactToHex k ++ compactToHex ck)) =
                  compactToHex k ++ compactToHex ck := compactToHex_hexToCompact _ hvh2
              refine ⟨adjustTod (.shortNode (hexToCompact (compactToHex k ++ compactToHex ck))
                  cval { dirty := true, t := bn }) bn, true, ?_, ?_, ?_, ?_, ?_⟩
              · simp only [delete]
                rw [hdel]
                exact deleteShortStep_merge k val fl key keyStart bn ck cval cfl hm1 hm2
              · rw [hufind, ← huc]
              · left
                rw [wf_adjustTod, wf_shortNode_iff, hrt2]
                refine ⟨?_, hvh2, rfl, ?_, ?_, ?_, hn_ns, hn_nn, hn_nh⟩
                · intro hc
                  have := congrArg List.length hc
                  simp only [List.length_append, List.length_nil] at this
                  omega
                · simp only [List.length_append]
                  omega
                · have he : r - (compactToHex k ++ compactToHex ck).length =
                      r - (compactToHex k).length - (compactToHex ck).length := by
                    simp only [List.length_append]
                    omega
                  rw [he]
                  exact hn_wf
                · intro hb
                  have hall := hn_br hb
                  simp only [List.all_eq_true, decide_eq_true_eq, List.mem_append] at hall ⊢
                  rintro x (hx | hx)
                  · exact hk_all x hx
                  · exact hall x hx
              · intro s hs
                rw [find_adjustTod, find_shortNode, hrt2, find_shortNode]
                have hsplit : (compactToHex k ++ compactToHex ck).isPrefixOf s = true ↔
                    ((compactToHex k).isPrefixOf s = true ∧
                     (compactToHex ck).isPrefixOf (s.drop (compactToHex k).length) = true) := by
                  simp only [List.isPrefixOf_iff_prefix]
                  exact prefix_append_iff
                have hdrop2 : s.drop (compactToHex k ++ compactToHex ck).length =
                    (s.drop (compactToHex k).length).drop (compactToHex ck).length := by
                  rw [List.drop_drop]
                  congr 1
                  simp only [List.length_append]
                by_cases hpre : (compactToHex k).isPrefixOf s = true
                · have hnnfind := hfindnn (s.drop (compactToHex k).length)
                    (by simp only [List.length_drop]; omega)
                  rw [find_shortNode] at hnnfind
                  by_cases heq : s = key.drop keyStart
                  · rw [if_pos heq]
                    have hdone : s.drop (compactToHex k).length =
                        key.drop (keyStart + (compactToHex k).length) :=
                      (hkey_iff s hs hpre).mp heq
                    rw [if_pos hdone] at hnnfind
                    by_cases hps : (compactToHex k ++ compactToHex ck).isPrefixOf s = true
                    · rw [if_pos hps, hdrop2]
                      have hck2 := (hsplit.mp hps).2
                      rw [if_pos hck2] at hnnfind
                      exact hnnfind
                    · rw [if_neg hps]
                  · rw [if_neg heq, if_pos hpre]
                    have hne2 : ¬(s.drop (compactToHex k).length =
                        key.drop (keyStart + (compactToHex k).length)) := by
                      intro hc
                      exact heq ((hkey_iff s hs hpre).mpr hc)
                    rw [if_neg hne2] at hnnfind
                    by_cases hps : (compactToHex k ++ compactToHex ck).isPrefixOf s = true
                    · rw [if_pos hps, hdrop2]
                      have hck2 := (hsplit.mp hps).2
                      rw [if_pos hck2] at hnnfind
                      exact hnnfind
                    · rw [if_neg hps]
                      have hck2 := (fun hc => hps (hsplit.mpr ⟨hpre, hc⟩))
                      rw [if_neg hck2] at hnnfind
                      exact hnnfind
                · have hps : ¬((compactToHex k ++ compactToHex ck).isPrefixOf s = true) :=
                    fun hc => hpre (hsplit.mp hc).1
                  rw [if_neg hps]
                  have hne : ¬(s = key.drop keyStart) := by
                    intro hc
                    subst hc
                    exact hpre (List.isPrefixOf_iff_prefix.mpr hkpre)
                  rw [if_neg hne, if_neg hpre]
              · intro h
                simp at h
            · -- wrap the updated child back under the stored key
              have hn_nn : nn.isNull = false := wf_ne_nil hwfnn
              have hsh2 : isShort nn = false := Bool.eq_false_iff.mpr hsh
              refine ⟨adjustTod (.shortNode k nn
                  { dirty := true, t := bn, tod := fl.tod, hash := fl.hash }) bn,
                true, ?_, ?_, ?_, ?_, ?_⟩
              · simp only [delete]
                rw [hdel]
                exact deleteShortStep_wrap k val fl key keyStart bn nn hm1 hm2 hsh2 hn_nn
              · rw [hufind, ← huc]
              · left
                rw [wf_adjustTod, wf_shortNode_iff]
                exact ⟨hk_ne, hk_vh, hk_rt, hk_le, hwfnn,
                  fun _ => hk_br hvb, hsh2, hn_nn, wf_ne_hash hwfnn⟩
              · intro s hs
                rw [find_adjustTod, find_shortNode, find_shortNode]
                have hnnfind := hfindnn (s.drop (compactToHex k).length)
                  (by simp only [List.length_drop]; omega)
                by_cases hpre : (compactToHex k).isPrefixOf s = true
                · rw [if_pos hpre]
                  by_cases heq : s = key.drop keyStart
                  · rw [if_pos heq]
                    have hdone := (hkey_iff s hs hpre).mp heq
                    rw [hdone] at hnnfind
                    rw [if_pos rfl] at hnnfind
                    rw [hdone]
                    exact hnnfind
                  · rw [if_neg heq, if_pos hpre]
                    have hne2 : ¬(s.drop (compactToHex k).length =
                        key.drop (keyStart + (compactToHex k).length)) :=
                      fun hc => heq ((hkey_iff s hs hpre).mpr hc)
                    rw [if_neg hne2] at hnnfind
                    exact hnnfind
                · rw [if_neg hpre]
                  have hne : ¬(s = key.drop keyStart) := by
                    intro hc
                    subst hc
                    exact hpre (List.isPrefixOf_iff_prefix.mpr hkpre)
                  rw [if_neg hne, if_neg hpre]
              · intro h
                simp at h
          · -- the child became empty: drop the whole short node
            refine ⟨.nilNode, true, ?_, ?_, Or.inr rfl, ?_, ?_⟩
            · simp only [delete]
              rw [hdel]
              exact deleteShortStep_collapse k val fl key keyStart bn hm1 hm2
            · rw [hufind, ← huc]
            · intro s hs
              rw [find_nilNode, find_shortNode]
              by_cases heq : s = key.drop keyStart
              · rw [if_pos heq]
              · rw [if_neg heq]
                by_cases hpre : (compactToHex k).isPrefixOf s = true
                · rw [if_pos hpre]
                  have hnnfind := hfindnn (s.drop (compactToHex k).length)
                    (by simp only [List.length_drop]; omega)
                  rw [find_nilNode] at hnnfind
                  have hne2 : ¬(s.drop (compactToHex k).length =
                      key.drop (keyStart + (compactToHex k).length)) := by
                    intro hc
                    exact heq ((hkey_iff s hs hpre).mpr hc)
                  rw [if_neg hne2] at hnnfind
                  exact hnnfind
                · rw [if_neg hpre]
            · intro h
              simp at h
        · -- nothing was deleted below
          have hu0 : u = false := by
            cases u
            · rfl
            · exact absurd rfl hu
          subst hu0
          refine ⟨.shortNode k val { fl with t := bn }, false, ?_, ?_, ?_, ?_, ?_⟩
          · simp only [delete]
            rw [hdel]
            exact deleteShortStep_stale k val fl key keyStart bn nn hm1 hm2
          · rw [hufind, ← huc]
          · left
            rw [wf_shortNode_iff]
            exact ⟨hk_ne, hk_vh, hk_rt, hk_le, hwf_val, hk_br, hval_ns, hval_nn, hval_nh⟩
          · intro s hs
            rw [find_shortNode, find_shortNode]
            by_cases heq : s = key.drop keyStart
            · rw [if_pos heq]
              subst heq
              rw [if_pos (List.isPrefixOf_iff_prefix.mpr hkpre), hdd]
              have hnone : find val (key.drop (keyStart + (compactToHex k).length)) = none := by
                cases hfv : find val (key.drop (keyStart + (compactToHex k).length)) with
                | none => rfl
                | some v =>
                  rw [hfv] at huc
                  simp at huc
              exact hnone
            · rw [if_neg heq]
          · intro _
            simp
  | .duoNode i1 i2 c1 c2 fl =>
    rw [wf_duoNode_iff] at hwf
    obtain ⟨hr1, hi12, hi216, hwc1, hwc2, h16⟩ := hwf
    have hposlt : keyStart < key.length := by omega
    have hkdrop : key.drop keyStart = key.getD keyStart 0 :: key.drop (keyStart + 1) :=
      drop_eq_getD_cons hposlt
    by_cases ha1 : key.getD keyStart 0 = i1
    · obtain ⟨nn, u, hdel, huc, hwfnn, hfindnn, hstripnn⟩ :=
        IH (r - 1) (by omega) c1 key (keyStart + 1) hwc1 (by omega) hkey
      have hufind : (find (.duoNode i1 i2 c1 c2 fl) (key.drop keyStart)).isSome =
          (find c1 (key.drop (keyStart + 1))).isSome := by
        rw [hkdrop, find_duoNode_cons, if_pos ha1]
      by_cases hnl : nn.isNull = true
      · -- the selected child emptied: fold the duo into a short node
        have hc2n : c2.isNull = false := wf_ne_nil hwc2
        have hnneq : nn = .nilNode := isNull_eq_nil hnl
        subst hnneq
        have hu1 : u = true := by
          cases u with
          | true => rfl
          | false =>
            exfalso
            have hst := hstripnn rfl
            have hn := isNull_of_stripFlags_eq hst
            rw [wf_ne_nil hwc1] at hn
            simp [node.isNull] at hn
        subst hu1
        obtain ⟨n1c, hceq, hcwf, hcshort, hcfind⟩ :=
          convertToShortNode_spec c2 i2 bn (r - 1) hwc2 hi216 h16
        refine ⟨n1c, true, ?_, ?_, ?_, ?_, ?_⟩
        · simp only [delete]
          rw [hdel,
            deleteDuoStep_sel1_collapse i1 i2 c1 c2 fl key keyStart bn .nilNode true _
              ha1 rfl hc2n]
          exact hceq
        · rw [hufind]
          exact huc
        · left
          have he : r - 1 + 1 = r := by omega
          rw [he] at hcwf
          exact hcwf
        · intro s hs
          cases s with
          | nil =>
            exfalso
            simp only [List.length_nil] at hs
            omega
          | cons b s1 =>
            have hs1 : s1.length = r - 1 := by
              simp only [List.length_cons] at hs
              omega
            rw [hcfind b s1, find_duoNode_cons]
            have hiff : (b :: s1 = key.drop keyStart) ↔
                (b = key.getD keyStart 0 ∧ s1 = key.drop (keyStart + 1)) := by
              rw [hkdrop, List.cons_eq_cons]
            by_cases hb2 : b = i2
            · rw [if_pos hb2]
              have hne : ¬(b :: s1 = key.drop keyStart) := by
                intro hc
                have h1 := (hiff.mp hc).1
                rw [ha1] at h1
                omega
              rw [if_neg hne, if_neg (show ¬(b = i1) by omega)]
            · rw [if_neg hb2]
              by_cases hb1 : b = i1
              · by_cases heq : s1 = key.drop (keyStart + 1)
                · rw [if_pos (hiff.mpr ⟨hb1.trans ha1.symm, heq⟩)]
                · rw [if_neg (fun hc => heq (hiff.mp hc).2), if_pos hb1]
                  have hf := hfindnn s1 hs1
                  rw [find_nilNode, if_neg heq] at hf
                  exact hf
              · have hne : ¬(b :: s1 = key.drop keyStart) := by
                  intro hc
                  exact hb1 ((hiff.mp hc).1.trans ha1)
                rw [if_neg hne, if_neg hb1]
        · intro h
          simp at h
      · -- the selected child stays: rebuild the duo in place
        have hnl2 : nn.isNull = false := Bool.eq_false_iff.mpr hnl
        have hwfnn2 : wf nn (r - 1) = true := by
          rcases hwfnn with h | rfl
          · exact h
          · simp [node.isNull] at hnl2
        refine ⟨if (!c1.isNull && decide (fl.tod = c1.todv bn)) = true then
            adjustTod (.duoNode i1 i2 nn c2
              { dirty := fl.dirty || u, t := bn, tod := fl.tod, hash := fl.hash }) bn
          else .duoNode i1 i2 nn c2
            { dirty := fl.dirty || u, t := bn, tod := fl.tod, hash := fl.hash },
          u, ?_, ?_, ?_, ?_, ?_⟩
        · simp only [delete]
          rw [hdel]
          exact deleteDuoStep_sel1_rebuild i1 i2 c1 c2 fl key keyStart bn nn u _ ha1 hnl2
        · rw [hufind]
          exact huc
        · left
          rw [wf_condAdjust, wf_duoNode_iff]
          exact ⟨hr1, hi12, hi216, hwfnn2, hwc2, h16⟩
        · intro s hs
          rw [find_condAdjust]
          cases s with
          | nil =>
            exfalso
            simp only [List.length_nil] at hs
            omega
          | cons b s1 =>
            have hs1 : s1.length = r - 1 := by
              simp only [List.length_cons] at hs
              omega
            rw [find_duoNode_cons, find_duoNode_cons]
            have hiff : (b :: s1 = key.drop keyStart) ↔
                (b = key.getD keyStart 0 ∧ s1 = key.drop (keyStart + 1)) := by
              rw [hkdrop, List.cons_eq_cons]
            by_cases hb1 : b = i1
            · rw [if_pos hb1, if_pos hb1]
              have hf := hfindnn s1 hs1
              by_cases heq : s1 = key.drop (keyStart + 1)
              · rw [if_pos (hiff.mpr ⟨hb1.trans ha1.symm, heq⟩)]
                rw [if_pos heq] at hf
                exact hf
              · rw [if_neg (fun hc => heq (hiff.mp hc).2)]
                rw [if_neg heq] at hf
                exact hf
            · rw [if_neg hb1, if_neg hb1]
              have hne : ¬(b :: s1 = key.drop keyStart) := fun hc =>
                hb1 ((hiff.mp hc).1.trans ha1)
              rw [if_neg hne]
        · intro hu
          have hst := hstripnn hu
          rw [stripFlags_condAdjust]
          simp only [stripFlags_duoNode]
          rw [hst]
    · by_cases ha2 : key.getD keyStart 0 = i2
      · obtain ⟨nn, u, hdel, huc, hwfnn, hfindnn, hstripnn⟩ :=
          IH (r - 1) (by omega) c2 key (keyStart + 1) hwc2 (by omega) hkey
        have hufind : (find (.duoNode i1 i2 c1 c2 fl) (key.drop keyStart)).isSome =
            (find c2 (key.drop (keyStart + 1))).isSome := by
          rw [hkdrop, find_duoNode_cons, if_neg ha1, if_pos ha2]
        by_cases hnl : nn.isNull = true
        · -- the selected child emptied: fold around the first child
          have hc1n : c1.isNull = false := wf_ne_nil hwc1
          have hnneq : nn = .nilNode := isNull_eq_nil hnl
          subst hnneq
          have hu1 : u = true := by
            cases u with
            | true => rfl
            | false =>
              exfalso
              have hst := hstripnn rfl
              have hn := isNull_of_stripFlags_eq hst
              rw [wf_ne_nil hwc2] at hn
              simp [node.isNull] at hn
          subst hu1
          obtain ⟨n1c, hceq, hcwf, hcshort, hcfind⟩ :=
            convertToShortNode_spec c1 i1 bn (r - 1) hwc1 (by omega)
              (fun h => absurd h (by omega))
          refine ⟨n1c, true, ?_, ?_, ?_, ?_, ?_⟩
          · simp only [delete]
            rw [hdel,
              deleteDuoStep_sel2_collapse i1 i2 c1 c2 fl key keyStart bn .nilNode true _
                ha1 ha2 rfl hc1n]
            exact hceq
          · rw [hufind]
            exact huc
          · left
            have he : r - 1 + 1 = r := by omega
            rw [he] at hcwf
            exact hcwf
          · intro s hs
            cases s with
            | nil =>
              exfalso
              simp only [List.length_nil] at hs
              omega
            | cons b s1 =>
              have hs1 : s1.length = r - 1 := by
                simp only [List.length_cons] at hs
                omega
              rw [hcfind b s1, find_duoNode_cons]
              have hiff : (b :: s1 = key.drop keyStart) ↔
                  (b = key.getD keyStart 0 ∧ s1 = key.drop (keyStart + 1)) := by
                rw [hkdrop, List.cons_eq_cons]
              by_cases hb1 : b = i1
              · rw [if_pos hb1, if_pos hb1]
                have hne : ¬(b :: s1 = key.drop keyStart) := by
                  intro hc
                  have h1 := (hiff.mp hc).1
                  rw [ha2] at h1
                  omega
                rw [if_neg hne]
              · rw [if_neg hb1, if_neg hb1]
                by_cases hb2 : b = i2
                · rw [if_pos hb2]
                  by_cases heq : s1 = key.drop (keyStart + 1)
                  · rw [if_pos (hiff.mpr ⟨hb2.trans ha2.symm, heq⟩)]
                  · rw [if_neg (fun hc => heq (hiff.mp hc).2)]
                    have hf := hfindnn s1 hs1
                    rw [find_nilNode, if_neg heq] at hf
                    exact hf
                · have hne : ¬(b :: s1 = key.drop keyStart) := by
                    intro hc
                    exact hb2 ((hiff.mp hc).1.trans ha2)
                  rw [if_neg hne, if_neg hb2]
          · intro h
            simp at h
        · -- the selected child stays: rebuild the duo in place
          have hnl2 : nn.isNull = false := Bool.eq_false_iff.mpr hnl
          have hwfnn2 : wf nn (r - 1) = true := by
            rcases hwfnn with h | rfl
            · exact h
            · simp [node.isNull] at hnl2
          have h16n : i2 = 16 → isValue nn = true := by
            intro hx
            exfalso
            have hv2 := h16 hx
            have hr0 : r - 1 = 0 := wf_isValue_zero hv2 hwc2
            have hdrop0 : key.drop (keyStart + 1) = [] := by
              apply List.drop_eq_nil_of_le
              omega
            have hf := hfindnn [] (by simp [hr0])
            rw [hdrop0, if_pos rfl] at hf
            rw [hr0] at hwfnn2
            obtain ⟨w, rfl⟩ := wf_value_of_zero hwfnn2
            simp [find] at hf
          refine ⟨if (!c2.isNull && decide (fl.tod = c2.todv bn)) = true then
              adjustTod (.duoNode i1 i2 c1 nn
                { dirty := fl.dirty || u, t := bn, tod := fl.tod, hash := fl.hash }) bn
            else .duoNode i1 i2 c1 nn
              { dirty := fl.dirty || u, t := bn, tod := fl.tod, hash := fl.hash },
            u, ?_, ?_, ?_, ?_, ?_⟩
          · simp only [delete]
            rw [hdel]
            exact deleteDuoStep_sel2_rebuild i1 i2 c1 c2 fl key keyStart bn nn u _
              ha1 ha2 hnl2
          · rw [hufind]
            exact huc
          · left
            rw [wf_condAdjust, wf_duoNode_iff]
            exact ⟨hr1, hi12, hi216, hwc1, hwfnn2, h16n⟩
          · intro s hs
            rw [find_condAdjust]
            cases s with
            | nil =>
              exfalso
              simp only [List.length_nil] at hs
              omega
            | cons b s1 =>
              have hs1 : s1.length = r - 1 := by
                simp only [List.length_cons] at hs
                omega
              rw [find_duoNode_cons, find_duoNode_cons]
              have hiff : (b :: s1 = key.drop keyStart) ↔
                  (b = key.getD keyStart 0 ∧ s1 = key.drop (keyStart + 1)) := by
                rw [hkdrop, List.cons_eq_cons]
              by_cases hb1 : b = i1
              · rw [if_pos hb1, if_pos hb1]
                have hne : ¬(b :: s1 = key.drop keyStart) := by
                  intro hc
                  have h1 := (hiff.mp hc).1
                  rw [ha2] at h1
                  omega
                rw [if_neg hne]
              · rw [if_neg hb1, if_neg hb1]
                by_cases hb2 : b = i2
                · rw [if_pos hb2, if_pos hb2]
                  have hf := hfindnn s1 hs1
                  by_cases heq : s1 = key.drop (keyStart + 1)
                  · rw [if_pos (hiff.mpr ⟨hb2.trans ha2.symm, heq⟩)]
                    rw [if_pos heq] at hf
                    exact hf
                  · rw [if_neg (fun hc => heq (hiff.mp hc).2)]
                    rw [if_neg heq] at hf
                    exact hf
                · rw [if_neg hb2, if_neg hb2]
                  have hne : ¬(b :: s1 = key.drop keyStart) := fun hc =>
                    hb2 ((hiff.mp hc).1.trans ha2)
                  rw [if_neg hne]
          · intro hu
            have hst := hstripnn hu
            rw [stripFlags_condAdjust]
            simp only [stripFlags_duoNode]
            rw [hst]
      · -- neither child selected: nothing to delete
        refine ⟨.duoNode i1 i2 c1 c2 { fl with t := bn }, false, ?_, ?_, ?_, ?_, ?_⟩
        · simp only [delete]
          exact deleteDuoStep_miss i1 i2 c1 c2 fl key keyStart bn _ _ ha1 ha2
        · rw [hkdrop, find_duoNode_cons, if_neg ha1, if_neg ha2]
          rfl
        · left
          rw [wf_duoNode_iff]
          exact ⟨hr1, hi12, hi216, hwc1, hwc2, h16⟩
        · intro s hs
          cases s with
          | nil =>
            exfalso
            simp only [List.length_nil] at hs
            omega
          | cons b s1 =>
            rw [find_duoNode_cons, find_duoNode_cons]
            have hiff : (b :: s1 = key.drop keyStart) ↔
                (b = key.getD keyStart 0 ∧ s1 = key.drop (keyStart + 1)) := by
              rw [hkdrop, List.cons_eq_cons]
            by_cases heq : b :: s1 = key.drop keyStart
            · rw [if_pos heq]
              have hb := (hiff.mp heq).1
              rw [if_neg (show ¬(b = i1) from fun hc => ha1 (hb.symm.trans hc)),
                if_neg (show ¬(b = i2) from fun hc => ha2 (hb.symm.trans hc))]
            · rw [if_neg heq]
        · intro _
          simp
  | .fullNode ch fl =>
    rw [wf_fullNode_iff] at hwf
    obtain ⟨hr1, hch17, hnn3, hchwf, h16f⟩ := hwf
    have hposlt : keyStart < key.length := by omega
    have hkdrop : key.drop keyStart = key.getD keyStart 0 :: key.drop (keyStart + 1) :=
      drop_eq_getD_cons hposlt
    have ha16 : key.getD keyStart 0 ≤ 16 := validKey_getD_le16 hkey (by omega)
    obtain ⟨nn, u, hdel, huc, hwfnn, hfindnn, hstripnn⟩ :
        ∃ nn u, delete (ch.getD (key.getD keyStart 0) .nilNode) key (keyStart + 1) bn =
            .ok nn u ∧
          u = (find (ch.getD (key.getD keyStart 0) .nilNode)
            (key.drop (keyStart + 1))).isSome ∧
          (wf nn (r - 1) = true ∨ nn = .nilNode) ∧
          (∀ s : List Nat, s.length = r - 1 →
            find nn s = if s = key.drop (keyStart + 1) then none
              else find (ch.getD (key.getD keyStart 0) .nilNode) s) ∧
          (u = false →
            stripFlags nn = stripFlags (ch.getD (key.getD keyStart 0) .nilNode)) := by
      rcases hchwf (key.getD keyStart 0) (by omega) with hnul | hwfc
      · have hceq := isNull_eq_nil hnul
        rw [hceq]
        refine ⟨.nilNode, false, by simp only [delete], by simp, Or.inr rfl, ?_,
          fun _ => rfl⟩
        intro s hs
        rw [find_nilNode]
        by_cases h : s = key.drop (keyStart + 1)
        · rw [if_pos h]
        · rw [if_neg h]
      · exact IH (r - 1) (by omega) _ key (keyStart + 1) hwfc (by omega) hkey
    have hufind : (find (.fullNode ch fl) (key.drop keyStart)).isSome =
        (find (ch.getD (key.getD keyStart 0) .nilNode) (key.drop (keyStart + 1))).isSome := by
      rw [hkdrop, find_fullNode_cons]
    have hsget : ∀ j : Nat, j < 17 →
        (ch.set (key.getD keyStart 0) nn).getD j .nilNode =
          if j = key.getD keyStart 0 then nn else ch.getD j .nilNode := by
      intro j hj
      by_cases h : j = key.getD keyStart 0
      · rw [if_pos h, h, getD_set_self (by rw [hch17]; omega)]
      · rw [if_neg h, getD_set_ne (fun hc => h hc.symm)]
    have hcnt2 : 2 ≤ (nonNullIndices (ch.set (key.getD keyStart 0) nn)).length := by
      have hge := nonNullIndices_set_ge ch (key.getD keyStart 0) nn
      omega
    have h0 : ¬((nonNullIndices (ch.set (key.getD keyStart 0) nn)).length = 0) := by omega
    have h1 : ¬((nonNullIndices (ch.set (key.getD keyStart 0) nn)).length = 1) := by omega
    by_cases h2 : (nonNullIndices (ch.set (key.getD keyStart 0) nn)).length = 2
    · -- only two children remain: shrink to a duo node
      have hu1 : u = true := by
        cases u with
        | true => rfl
        | false =>
          exfalso
          have hst := hstripnn rfl
          have hcong : nonNullIndices (ch.set (key.getD keyStart 0) nn) =
              nonNullIndices ch := by
            apply nonNullIndices_congr
            intro j hj
            rw [hsget j hj]
            by_cases h : j = key.getD keyStart 0
            · rw [if_pos h, h]
              exact isNull_of_stripFlags_eq hst
            · rw [if_neg h]
          rw [hcong] at h2
          omega
      subst hu1
      obtain ⟨hl2, hp12⟩ := pair_of_length_two h2 (nonNullIndices_pairwise _)
      have hP1mem : (nonNullIndices (ch.set (key.getD keyStart 0) nn)).getD 0 0 ∈
          nonNullIndices (ch.set (key.getD keyStart 0) nn) := by
        rw [hl2]
        simp [List.getD]
      have hP2mem : (nonNullIndices (ch.set (key.getD keyStart 0) nn)).getD 1 0 ∈
          nonNullIndices (ch.set (key.getD keyStart 0) nn) := by
        rw [hl2]
        simp [List.getD]
      obtain ⟨hP1lt, hP1nn⟩ := mem_nonNullIndices.mp hP1mem
      obtain ⟨hP2lt, hP2nn⟩ := mem_nonNullIndices.mp hP2mem
      have hDeq : ∀ j : Nat, j < 17 →
          (if j = key.getD keyStart 0 then nn
            else (ch.set (key.getD keyStart 0) nn).getD j .nilNode) =
          (ch.set (key.getD keyStart 0) nn).getD j .nilNode := by
        intro j hj
        by_cases h : j = key.getD keyStart 0
        · rw [if_pos h, h, getD_set_self (by rw [hch17]; omega)]
        · rw [if_neg h]
      -- well-formedness of the two remaining children
      have hDwf : ∀ j : Nat, j < 17 →
          ((ch.set (key.getD keyStart 0) nn).getD j .nilNode).isNull = false →
          wf ((ch.set (key.getD keyStart 0) nn).getD j .nilNode) (r - 1) = true := by
        intro j hj hjn
        rw [hsget j hj] at hjn ⊢
        by_cases h : j = key.getD keyStart 0
        · rw [if_pos h] at hjn ⊢
          rcases hwfnn with hw | rfl
          · exact hw
          · simp [node.isNull] at hjn
        · rw [if_neg h] at hjn ⊢
          rcases hchwf j hj with hx | hx
          · rw [hx] at hjn
            simp at hjn
          · exact hx
      -- a member of the index list is never the terminator slot holding a branch
      have hval16 : ∀ j : Nat, j < 17 →
          ((ch.set (key.getD keyStart 0) nn).getD j .nilNode).isNull = false →
          j = 16 →
          isValue ((ch.set (key.getD keyStart 0) nn).getD j .nilNode) = true := by
        intro j hj hjn hj16
        subst hj16
        rw [hsget 16 (by omega)] at hjn ⊢
        by_cases h : (16 : Nat) = key.getD keyStart 0
        · rw [if_pos h] at hjn ⊢
          rcases h16f with hn | hv
          · rw [h] at hn
            have hceq := isNull_eq_nil hn
            rw [hceq] at huc
            rw [find_nilNode] at huc
            simp at huc
          · rw [h] at hv
            rcases hwfnn with hw | rfl
            · have hr0 : r - 1 = 0 := by
                rcases hchwf (key.getD keyStart 0) (by omega) with hnx | hwx
                · rw [isNull_eq_nil hnx] at hv
                  simp [isValue] at hv
                · exact wf_isValue_zero hv hwx
              rw [hr0] at hw
              obtain ⟨w, rfl⟩ := wf_value_of_zero hw
              rfl
            · simp [node.isNull] at hjn
        · rw [if_neg h] at hjn ⊢
          rcases h16f with hn | hv
          · rw [hn] at hjn
            simp at hjn
          · exact hv
      refine ⟨adjustTod (.duoNode
          ((nonNullIndices (ch.set (key.getD keyStart 0) nn)).getD 0 0)
          ((nonNullIndices (ch.set (key.getD keyStart 0) nn)).getD 1 0)
          (if (nonNullIndices (ch.set (key.getD keyStart 0) nn)).getD 0 0 =
              key.getD keyStart 0 then nn
            else (ch.set (key.getD keyStart 0) nn).getD
              ((nonNullIndices (ch.set (key.getD keyStart 0) nn)).getD 0 0) .nilNode)
          (if (nonNullIndices (ch.set (key.getD keyStart 0) nn)).getD 1 0 =
              key.getD keyStart 0 then nn
            else (ch.set (key.getD keyStart 0) nn).getD
              ((nonNullIndices (ch.set (key.getD keyStart 0) nn)).getD 1 0) .nilNode)
          { dirty := true, t := bn }) bn, true, ?_, ?_, ?_, ?_, ?_⟩
      · simp only [delete]
        rw [hdel]
        exact deleteFullStep_toDuo ch fl key keyStart bn nn true h0 h1 h2
      · rw [hufind]
        exact huc
      · left
        rw [wf_adjustTod, wf_duoNode_iff, hDeq _ hP1lt, hDeq _ hP2lt]
        refine ⟨hr1, hp12, by omega, hDwf _ hP1lt hP1nn, hDwf _ hP2lt hP2nn, ?_⟩
        intro h216
        exact hval16 _ hP2lt hP2nn h216
      · intro s hs
        rw [find_adjustTod]
        cases s with
        | nil =>
          exfalso
          simp only [List.length_nil] at hs
          omega
        | cons b s1 =>
          have hs1 : s1.length = r - 1 := by
            simp only [List.length_cons] at hs
            omega
          rw [find_duoNode_cons, hDeq _ hP1lt, hDeq _ hP2lt, find_fullNode_cons]
          have hiff : (b :: s1 = key.drop keyStart) ↔
              (b = key.getD keyStart 0 ∧ s1 = key.drop (keyStart + 1)) := by
            rw [hkdrop, List.cons_eq_cons]
          -- lookup in a surviving slot agrees with the updated children array
          have hslot : ∀ hb17 : b < 17,
              find ((ch.set (key.getD keyStart 0) nn).getD b .nilNode) s1 =
                if b :: s1 = key.drop keyStart then none
                else find (ch.getD b .nilNode) s1 := by
            intro hb17
            rw [hsget b hb17]
            by_cases h : b = key.getD keyStart 0
            · rw [if_pos h]
              have hf := hfindnn s1 hs1
              by_cases heq : s1 = key.drop (keyStart + 1)
              · rw [if_pos (hiff.mpr ⟨h, heq⟩)]
                rw [if_pos heq] at hf
                exact hf
              · rw [if_neg (fun hc => heq (hiff.mp hc).2)]
                rw [if_neg heq] at hf
                rw [h]
                exact hf
            · rw [if_neg h]
              rw [if_neg (fun hc => h (hiff.mp hc).1)]
          by_cases hb1 : b = (nonNullIndices (ch.set (key.getD keyStart 0) nn)).getD 0 0
          · rw [if_pos hb1]
            subst hb1
            exact hslot hP1lt
          · rw [if_neg hb1]
            by_cases hb2 : b = (nonNullIndices (ch.set (key.getD keyStart 0) nn)).getD 1 0
            · rw [if_pos hb2]
              subst hb2
              exact hslot hP2lt
            · rw [if_neg hb2]
              -- the slot b is empty in the new array
              by_cases hb17 : b < 17
              · have hbnull : ((ch.set (key.getD keyStart 0) nn).getD b .nilNode).isNull
                    = true := by
                  by_contra hc
                  have hmem : b ∈ nonNullIndices (ch.set (key.getD keyStart 0) nn) :=
                    mem_nonNullIndices.mpr ⟨hb17, Bool.eq_false_iff.mpr hc⟩
                  rw [hl2] at hmem
                  simp only [List.mem_cons, List.mem_singleton] at hmem
                  rcases hmem with h | h
                  · exact hb1 h
                  · exact hb2 (by simpa using h)
                have hres := hslot hb17
                rw [isNull_eq_nil hbnull, find_nilNode] at hres
                exact hres
              · have hbninullx : ch.getD b .nilNode = .nilNode :=
                  List.getD_eq_default _ _ (by omega)
                rw [hbninullx, find_nilNode]
                by_cases heq : b :: s1 = key.drop keyStart
                · rw [if_pos heq]
                · rw [if_neg heq]
      · intro h
        simp at h
    · -- at least three children remain: keep the full node
      refine ⟨if (!(ch.getD (key.getD keyStart 0) .nilNode).isNull &&
            decide (fl.tod = (ch.getD (key.getD keyStart 0) .nilNode).todv bn)) = true then
          adjustTod (.fullNode (ch.set (key.getD keyStart 0) nn)
            { dirty := fl.dirty || u, t := bn, tod := fl.tod, hash := fl.hash }) bn
        else .fullNode (ch.set (key.getD keyStart 0) nn)
          { dirty := fl.dirty || u, t := bn, tod := fl.tod, hash := fl.hash },
        u, ?_, ?_, ?_, ?_, ?_⟩
      · simp only [delete]
        rw [hdel]
        exact deleteFullStep_rebuild ch fl key keyStart bn nn u h0 h1 h2
      · rw [hufind]
        exact huc
      · left
        rw [wf_condAdjust, wf_fullNode_iff]
        refine ⟨hr1, by rw [List.length_set]; exact hch17, by omega, ?_, ?_⟩
        · intro i hi
          rw [hsget i hi]
          by_cases h : i = key.getD keyStart 0
          · rw [if_pos h]
            rcases hwfnn with hw | rfl
            · right
              exact hw
            · left
              rfl
          · rw [if_neg h]
            exact hchwf i hi
        · rw [hsget 16 (by omega)]
          by_cases h : (16 : Nat) = key.getD keyStart 0
          · rw [if_pos h]
            rcases hwfnn with hw | rfl
            · rcases h16f with hn | hv
              · rw [h] at hn
                have hceq := isNull_eq_nil hn
                rw [hceq] at huc
                rw [find_nilNode] at huc
                simp at huc
                subst huc
                have hst := hstripnn rfl
                rw [hceq] at hst
                have hx := isNull_of_stripFlags_eq hst
                rw [wf_ne_nil hw] at hx
                simp [node.isNull] at hx
              · rw [h] at hv
                right
                have hr0 : r - 1 = 0 := by
                  rcases hchwf (key.getD keyStart 0) (by omega) with hnx | hwx
                  · rw [isNull_eq_nil hnx] at hv
                    simp [isValue] at hv
                  · exact wf_isValue_zero hv hwx
                rw [hr0] at hw
                obtain ⟨w, rfl⟩ := wf_value_of_zero hw
                rfl
            · left
              rfl
          · rw [if_neg h]
            exact h16f
      · intro s hs
        rw [find_condAdjust]
        cases s with
        | nil =>
          exfalso
          simp only [List.length_nil] at hs
          omega
        | cons b s1 =>
          have hs1 : s1.length = r - 1 := by
            simp only [List.length_cons] at hs
            omega
          rw [find_fullNode_cons, find_fullNode_cons]
          have hiff : (b :: s1 = key.drop keyStart) ↔
              (b = key.getD keyStart 0 ∧ s1 = key.drop (keyStart + 1)) := by
            rw [hkdrop, List.cons_eq_cons]
          by_cases hb17 : b < 17
          · rw [hsget b hb17]
            by_cases h : b = key.getD keyStart 0
            · rw [if_pos h]
              have hf := hfindnn s1 hs1
              by_cases heq : s1 = key.drop (keyStart + 1)
              · rw [if_pos (hiff.mpr ⟨h, heq⟩)]
                rw [if_pos heq] at hf
                exact hf
              · rw [if_neg (fun hc => heq (hiff.mp hc).2)]
                rw [if_neg heq] at hf
                rw [h]
                exact hf
            · rw [if_neg h]
              rw [if_neg (fun hc => h (hiff.mp hc).1)]
          · have hx1 : (ch.set (key.getD keyStart 0) nn).getD b .nilNode = .nilNode :=
              List.getD_eq_default _ _ (by rw [List.length_set, hch17]; omega)
            have hx2 : ch.getD b .nilNode = .nilNode :=
              List.getD_eq_default _ _ (by omega)
            rw [hx1, hx2, find_nilNode]
            by_cases heq : b :: s1 = key.drop keyStart
            · rw [if_pos heq]
            · rw [if_neg heq]
      · intro hu
        have hst := hstripnn hu
        rw [stripFlags_condAdjust]
        simp only [stripFlags_fullNode]
        rw [map_strip_set nn hst (by rw [hch17]; omega)]

/-! ## Canonical form: equal maps give equal structure -/

/-- Every well-formed subtrie binds at least one key of its level. -/
theorem find_nonempty (r : Nat) : ∀ n : node, wf n r = true →
    ∃ s : List Nat, s.length = r ∧ (find n s).isSome = true := by
  induction r using Nat.strong_induction_on with
  | _ r IH =>
  intro n hwf
  match n with
  | .nilNode => simp at hwf
  | .hashNode h => simp at hwf
  | .valueNode v =>
    have hr0 : r = 0 := by simpa using hwf
    subst hr0
    exact ⟨[], rfl, by simp⟩
  | .shortNode k val fl =>
    rw [wf_shortNode_iff] at hwf
    obtain ⟨hk_ne, _, _, hk_le, hwf_val, _, _, _, _⟩ := hwf
    have hklen1 : 1 ≤ (compactToHex k).length := List.length_pos.mpr hk_ne
    obtain ⟨t, ht, hsome⟩ := IH (r - (compactToHex k).length) (by omega) val hwf_val
    refine ⟨compactToHex k ++ t, ?_, ?_⟩
    · simp only [List.length_append]
      omega
    · rw [find_shortNode,
        if_pos (List.isPrefixOf_iff_prefix.mpr ⟨t, rfl⟩), List.drop_left]
      exact hsome
  | .duoNode i1 i2 c1 c2 fl =>
    rw [wf_duoNode_iff] at hwf
    obtain ⟨hr1, _, _, hwc1, _, _⟩ := hwf
    obtain ⟨t, ht, hsome⟩ := IH (r - 1) (by omega) c1 hwc1
    refine ⟨i1 :: t, ?_, ?_⟩
    · simp only [List.length_cons]
      omega
    · rw [find_duoNode_cons, if_pos rfl]
      exact hsome
  | .fullNode ch fl =>
    rw [wf_fullNode_iff] at hwf
    obtain ⟨hr1, hch17, hnn3, hchwf, _⟩ := hwf
    obtain ⟨j, hj⟩ := List.exists_mem_of_length_pos (by omega :
      0 < (nonNullIndices ch).length)
    obtain ⟨hj17, hjnn⟩ := mem_nonNullIndices.mp hj
    have hwfc : wf (ch.getD j .nilNode) (r - 1) = true := by
      rcases hchwf j hj17 with hx | hx
      · rw [hx] at hjnn
        simp at hjnn
      · exact hx
    obtain ⟨t, ht, hsome⟩ := IH (r - 1) (by omega) (ch.getD j .nilNode) hwfc
    refine ⟨j :: t, ?_, ?_⟩
    · simp only [List.length_cons]
      omega
    · rw [find_fullNode_cons]
      exact hsome

theorem find_short_append (k : List Nat) (val : node) (fl : Flags) (t : List Nat) :
    find (.shortNode k val fl) (compactToHex k ++ t) = find val t := by
  rw [find_shortNode, if_pos (List.isPrefixOf_iff_prefix.mpr ⟨t, rfl⟩), List.drop_left]

theorem two_distinct_mem {l : List Nat} (hnd : l.Nodup) (hlen : 2 ≤ l.length) :
    ∃ a b, a ∈ l ∧ b ∈ l ∧ a ≠ b := by
  match l, hlen with
  | a :: b :: t, _ =>
    have hab : a ≠ b := by
      have := (List.nodup_cons.mp hnd).1
      intro hc
      exact this (hc ▸ List.mem_cons_self b t)
    exact ⟨a, b, by simp, by simp, hab⟩

theorem three_distinct_mem {l : List Nat} (hnd : l.Nodup) (hlen : 3 ≤ l.length) :
    ∃ a b c, a ∈ l ∧ b ∈ l ∧ c ∈ l ∧ a ≠ b ∧ a ≠ c ∧ b ≠ c := by
  match l, hlen with
  | a :: b :: c :: t, _ =>
    have h1 := (List.nodup_cons.mp hnd).1
    have h2 := (List.nodup_cons.mp (List.nodup_cons.mp hnd).2).1
    refine ⟨a, b, c, by simp, by simp, by simp, ?_, ?_, ?_⟩
    · intro hc
      subst hc
      exact h1 (by simp)
    · intro hc
      subst hc
      exact h1 (by simp)
    · intro hc
      subst hc
      exact h2 (by simp)

theorem list_eq_of_getD {l1 l2 : List node} (n : Nat)
    (h1 : l1.length = n) (h2 : l2.length = n)
    (h : ∀ j < n, l1.getD j .nilNode = l2.getD j .nilNode) : l1 = l2 := by
  apply List.ext_getElem?
  intro j
  by_cases hj : j < n
  · have e1 : l1[j]? = some (l1.getD j .nilNode) := by
      simp [List.getD, List.getElem?_eq_getElem (by omega : j < l1.length)]
    have e2 : l2[j]? = some (l2.getD j .nilNode) := by
      simp [List.getD, List.getElem?_eq_getElem (by omega : j < l2.length)]
    rw [e1, e2, h j hj]
  · rw [List.getElem?_eq_none (by omega), List.getElem?_eq_none (by omega)]

theorem getD_append_lt {p q : List Nat} {j : Nat} (hj : j < p.length) (d : Nat) :
    (p ++ q).getD j d = p.getD j d := by
  simp [List.getD, List.getElem?_append_left hj]

theorem getD_append_length {p t : List Nat} {a : Nat} (d : Nat) :
    (p ++ a :: t).getD p.length d = a := by
  simp [List.getD, List.getElem?_append_right (Nat.le_refl p.length)]

theorem getD_map_strip {l : List node} {j : Nat} (hj : j < l.length) :
    (l.map stripFlags).getD j .nilNode = stripFlags (l.getD j .nilNode) := by
  simp [List.getD, List.getElem?_map, List.getElem?_eq_getElem hj]

theorem short_head {k : List Nat} {val : node} {fl : Flags} {a : Nat} {s1 : List Nat}
    (hne : compactToHex k ≠ [])
    (h : (find (.shortNode k val fl) (a :: s1)).isSome = true) :
    (compactToHex k).getD 0 0 = a := by
  rw [find_shortNode] at h
  have hpre : (compactToHex k).isPrefixOf (a :: s1) = true := by
    by_contra hc
    rw [if_neg hc] at h
    simp at h
  obtain ⟨h0, tl, heq⟩ := List.exists_cons_of_ne_nil hne
  rw [heq] at hpre ⊢
  simp only [List.isPrefixOf, Bool.and_eq_true, beq_iff_eq] at hpre
  simp [List.getD, hpre.1]

theorem duo_head {i1 i2 : Nat} {c1 c2 : node} {fl : Flags} {a : Nat} {s1 : List Nat}
    (h : (find (.duoNode i1 i2 c1 c2 fl) (a :: s1)).isSome = true) :
    a = i1 ∨ a = i2 := by
  rw [find_duoNode_cons] at h
  by_cases h1 : a = i1
  · exact Or.inl h1
  · rw [if_neg h1] at h
    by_cases h2 : a = i2
    · exact Or.inr h2
    · rw [if_neg h2] at h
      simp at h

theorem full_head {ch : List node} {fl : Flags} {a : Nat} {s1 : List Nat}
    (h : (find (.fullNode ch fl) (a :: s1)).isSome = true) :
    (ch.getD a .nilNode).isNull = false := by
  rw [find_fullNode_cons] at h
  by_contra hc
  have hn : (ch.getD a .nilNode).isNull = true := by
    cases hx : (ch.getD a .nilNode).isNull
    · exact absurd hx hc
    · rfl
  rw [isNull_eq_nil hn, find_nilNode] at h
  simp at h

theorem short_present {k : List Nat} {val : node} {fl : Flags} {r : Nat}
    (hwf : wf (.shortNode k val fl) r = true) :
    ∃ s1 : List Nat, s1.length = r - 1 ∧
      (find (.shortNode k val fl) ((compactToHex k).getD 0 0 :: s1)).isSome = true := by
  have hne : compactToHex k ≠ [] := ((wf_shortNode_iff ..).mp hwf).1
  have hr1 : 1 ≤ r := by
    have h := (wf_shortNode_iff ..).mp hwf
    have := List.length_pos.mpr hne
    omega
  obtain ⟨s, hslen, hsome⟩ := find_nonempty r _ hwf
  cases s with
  | nil =>
    simp only [List.length_nil] at hslen
    omega
  | cons a s1 =>
    have hhead := short_head hne hsome
    refine ⟨s1, ?_, ?_⟩
    · simp only [List.length_cons] at hslen
      omega
    · rw [hhead]
      exact hsome

theorem duo_present1 {i1 i2 : Nat} {c1 c2 : node} {fl : Flags} {r : Nat}
    (hwf : wf (.duoNode i1 i2 c1 c2 fl) r = true) :
    ∃ s1 : List Nat, s1.length = r - 1 ∧
      (find (.duoNode i1 i2 c1 c2 fl) (i1 :: s1)).isSome = true := by
  obtain ⟨hr1, _, _, hwc1, _, _⟩ := (wf_duoNode_iff ..).mp hwf
  obtain ⟨t, ht, hsome⟩ := find_nonempty (r - 1) c1 hwc1
  refine ⟨t, ht, ?_⟩
  rw [find_duoNode_cons, if_pos rfl]
  exact hsome

theorem duo_present2 {i1 i2 : Nat} {c1 c2 : node} {fl : Flags} {r : Nat}
    (hwf : wf (.duoNode i1 i2 c1 c2 fl) r = true) :
    ∃ s1 : List Nat, s1.length = r - 1 ∧
      (find (.duoNode i1 i2 c1 c2 fl) (i2 :: s1)).isSome = true := by
  obtain ⟨hr1, hi12, _, _, hwc2, _⟩ := (wf_duoNode_iff ..).mp hwf
  obtain ⟨t, ht, hsome⟩ := find_nonempty (r - 1) c2 hwc2
  refine ⟨t, ht, ?_⟩
  rw [find_duoNode_cons, if_neg (by omega), if_pos rfl]
  exact hsome

theorem full_present {ch : List node} {fl : Flags} {r : Nat} {j : Nat}
    (hwf : wf (.fullNode ch fl) r = true) (hj : j ∈ nonNullIndices ch) :
    ∃ s1 : List Nat, s1.length = r - 1 ∧
      (find (.fullNode ch fl) (j :: s1)).isSome = true := by
  obtain ⟨hr1, _, _, hchwf, _⟩ := (wf_fullNode_iff ..).mp hwf
  obtain ⟨hj17, hjnn⟩ := mem_nonNullIndices.mp hj
  have hwfc : wf (ch.getD j .nilNode) (r - 1) = true := by
    rcases hchwf j hj17 with hx | hx
    · rw [hx] at hjnn
      simp at hjnn
    · exact hx
  obtain ⟨t, ht, hsome⟩ := find_nonempty (r - 1) _ hwfc
  refine ⟨t, ht, ?_⟩
  rw [find_fullNode_cons]
  exact hsome

/-- A well-formed branch binds keys through at least two distinct first
nibbles. -/
theorem branch_two_heads {n : node} {r : Nat} (hwf : wf n r = true)
    (hb : isBranch n = true) :
    ∃ a b s1 s2, a ≠ b ∧ s1.length = r - 1 ∧ s2.length = r - 1 ∧
      (find n (a :: s1)).isSome = true ∧ (find n (b :: s2)).isSome = true := by
  cases n with
  | duoNode i1 i2 c1 c2 fl =>
    obtain ⟨hr1, hi12, _, _, _, _⟩ := (wf_duoNode_iff ..).mp hwf
    obtain ⟨s1, hl1, hp1⟩ := duo_present1 hwf
    obtain ⟨s2, hl2, hp2⟩ := duo_present2 hwf
    exact ⟨i1, i2, s1, s2, by omega, hl1, hl2, hp1, hp2⟩
  | fullNode ch fl =>
    obtain ⟨hr1, _, hnn3, _, _⟩ := (wf_fullNode_iff ..).mp hwf
    obtain ⟨a, b, ha, hb2, hab⟩ := two_distinct_mem (nodup_nonNullIndices ch) (by omega)
    obtain ⟨s1, hl1, hp1⟩ := full_present hwf ha
    obtain ⟨s2, hl2, hp2⟩ := full_present hwf hb2
    exact ⟨a, b, s1, s2, hab, hl1, hl2, hp1, hp2⟩
  | _ => simp [isBranch] at hb

theorem short_find_prefix {k : List Nat} {val : node} {fl : Flags} {s : List Nat}
    (h : (find (.shortNode k val fl) s).isSome = true) :
    (compactToHex k).isPrefixOf s = true := by
  rw [find_shortNode] at h
  by_contra hc
  rw [if_neg hc] at h
  simp at h

theorem not_short_duo {k : List Nat} {val : node} {f1 : Flags}
    {i1 i2 : Nat} {c1 c2 : node} {f2 : Flags} {r : Nat}
    (hw1 : wf (.shortNode k val f1) r = true)
    (hw2 : wf (.duoNode i1 i2 c1 c2 f2) r = true)
    (hmap : ∀ s : List Nat, s.length = r →
      find (.shortNode k val f1) s = find (.duoNode i1 i2 c1 c2 f2) s) : False := by
  obtain ⟨hr1, hi12, _, _, _, _⟩ := (wf_duoNode_iff ..).mp hw2
  have hne := ((wf_shortNode_iff ..).mp hw1).1
  obtain ⟨s1, hl1, hp1⟩ := duo_present1 hw2
  obtain ⟨s2, hl2, hp2⟩ := duo_present2 hw2
  rw [← hmap (i1 :: s1) (by simp only [List.length_cons]; omega)] at hp1
  rw [← hmap (i2 :: s2) (by simp only [List.length_cons]; omega)] at hp2
  have h1 := short_head hne hp1
  have h2 := short_head hne hp2
  omega

theorem not_short_full {k : List Nat} {val : node} {f1 : Flags}
    {ch : List node} {f2 : Flags} {r : Nat}
    (hw1 : wf (.shortNode k val f1) r = true)
    (hw2 : wf (.fullNode ch f2) r = true)
    (hmap : ∀ s : List Nat, s.length = r →
      find (.shortNode k val f1) s = find (.fullNode ch f2) s) : False := by
  obtain ⟨hr1, _, hnn3, _, _⟩ := (wf_fullNode_iff ..).mp hw2
  have hne := ((wf_shortNode_iff ..).mp hw1).1
  obtain ⟨a, b, ha, hb, hab⟩ := two_distinct_mem (nodup_nonNullIndices ch) (by omega)
  obtain ⟨s1, hl1, hp1⟩ := full_present hw2 ha
  obtain ⟨s2, hl2, hp2⟩ := full_present hw2 hb
  rw [← hmap (a :: s1) (by simp only [List.length_cons]; omega)] at hp1
  rw [← hmap (b :: s2) (by simp only [List.length_cons]; omega)] at hp2
  have h1 := short_head hne hp1
  have h2 := short_head hne hp2
  omega

theorem not_duo_full {i1 i2 : Nat} {c1 c2 : node} {f1 : Flags}
    {ch : List node} {f2 : Flags} {r : Nat}
    (hw1 : wf (.duoNode i1 i2 c1 c2 f1) r = true)
    (hw2 : wf (.fullNode ch f2) r = true)
    (hmap : ∀ s : List Nat, s.length = r →
      find (.duoNode i1 i2 c1 c2 f1) s = find (.fullNode ch f2) s) : False := by
  obtain ⟨hr1, _, hnn3, _, _⟩ := (wf_fullNode_iff ..).mp hw2
  obtain ⟨a, b, c, ha, hb, hc, hab, hac, hbc⟩ :=
    three_distinct_mem (nodup_nonNullIndices ch) hnn3
  obtain ⟨s1, hl1, hp1⟩ := full_present hw2 ha
  obtain ⟨s2, hl2, hp2⟩ := full_present hw2 hb
  obtain ⟨s3, hl3, hp3⟩ := full_present hw2 hc
  rw [← hmap (a :: s1) (by simp only [List.length_cons]; omega)] at hp1
  rw [← hmap (b :: s2) (by simp only [List.length_cons]; omega)] at hp2
  rw [← hmap (c :: s3) (by simp only [List.length_cons]; omega)] at hp3
  have h1 := duo_head hp1
  have h2 := duo_head hp2
  have h3 := duo_head hp3
  rcases h1 with h1 | h1 <;> rcases h2 with h2 | h2 <;> rcases h3 with h3 | h3 <;> omega

/-- Two short nodes with the same nonempty key map cannot have stored
keys of different lengths. -/
theorem not_short_short_lt {k1 : List Nat} {v1 : node} {f1 : Flags}
    {k2 : List Nat} {v2 : node} {f2 : Flags} {r : Nat}
    (hw1 : wf (.shortNode k1 v1 f1) r = true)
    (hw2 : wf (.shortNode k2 v2 f2) r = true)
    (hmap : ∀ s : List Nat, s.length = r →
      find (.shortNode k1 v1 f1) s = find (.shortNode k2 v2 f2) s)
    (hlt : (compactToHex k1).length < (compactToHex k2).length) : False := by
  obtain ⟨hne1, _, _, hle1, hwfv1, _, hns1, hnn1, hnh1⟩ := (wf_shortNode_iff ..).mp hw1
  obtain ⟨hne2, _, _, hle2, _, _, _, _, _⟩ := (wf_shortNode_iff ..).mp hw2
  have hl1pos : 1 ≤ (compactToHex k1).length := List.length_pos.mpr hne1
  have hsub1 : 1 ≤ r - (compactToHex k1).length := by omega
  have hvb : isBranch v1 = true := by
    rcases not_short_cases hns1 hnn1 hnh1 with hv | hb
    · have := wf_isValue_zero hv hwfv1
      omega
    · exact hb
  obtain ⟨a, b, ta, tb, hab, hta, htb, hpa, hpb⟩ := branch_two_heads hwfv1 hvb
  have hkey : ∀ x : Nat, ∀ tx : List Nat, tx.length = r - (compactToHex k1).length - 1 →
      (find v1 (x :: tx)).isSome = true → (compactToHex k2).getD (compactToHex k1).length 0 = x := by
    intro x tx htx hp
    have hsx : (find (.shortNode k1 v1 f1) (compactToHex k1 ++ x :: tx)).isSome = true := by
      rw [find_short_append]
      exact hp
    have hlenx : (compactToHex k1 ++ x :: tx).length = r := by
      simp only [List.length_append, List.length_cons]
      omega
    rw [hmap _ hlenx] at hsx
    have hpre2 := short_find_prefix hsx
    obtain ⟨rest, hrest⟩ := List.isPrefixOf_iff_prefix.mp hpre2
    have he1 : (compactToHex k1 ++ x :: tx).getD (compactToHex k1).length 0 = x :=
      getD_append_length 0
    rw [← hrest, getD_append_lt hlt] at he1
    exact he1
  have ha' := hkey a ta hta hpa
  have hb' := hkey b tb htb hpb
  exact hab (ha'.symm.trans hb')

/-- Canonical form: two well-formed tries with the same key map have the
same structure once the bookkeeping flags are stripped. -/
theorem canonical : ∀ r : Nat, ∀ n1 n2 : node, wf n1 r = true → wf n2 r = true →
    (∀ s : List Nat, s.length = r → find n1 s = find n2 s) →
    stripFlags n1 = stripFlags n2 := by
  intro r
  induction r using Nat.strong_induction_on with
  | _ r IH =>
  intro n1 n2 hw1 hw2 hmap
  match n1, n2 with
  | .nilNode, _ => simp at hw1
  | .hashNode _, _ => simp at hw1
  | .shortNode _ _ _, .nilNode => simp at hw2
  | .shortNode _ _ _, .hashNode _ => simp at hw2
  | .duoNode _ _ _ _ _, .nilNode => simp at hw2
  | .duoNode _ _ _ _ _, .hashNode _ => simp at hw2
  | .fullNode _ _, .nilNode => simp at hw2
  | .fullNode _ _, .hashNode _ => simp at hw2
  | .valueNode _, .nilNode => simp at hw2
  | .valueNode _, .hashNode _ => simp at hw2
  | .valueNode v1, .valueNode v2 =>
    have hr0 : r = 0 := by simpa using hw1
    have h := hmap [] (by simp [hr0])
    rw [find_valueNode, find_valueNode, if_pos rfl, if_pos rfl] at h
    rw [stripFlags_valueNode, stripFlags_valueNode, Option.some.inj h]
  | .valueNode v1, .shortNode k2 v2 f2 =>
    have hr0 : r = 0 := by simpa using hw1
    obtain ⟨hne2, _, _, hle2, _⟩ := (wf_shortNode_iff ..).mp hw2
    have := List.length_pos.mpr hne2
    omega
  | .valueNode v1, .duoNode i1 i2 c1 c2 f2 =>
    have hr0 : r = 0 := by simpa using hw1
    have hr1 := ((wf_duoNode_iff ..).mp hw2).1
    omega
  | .valueNode v1, .fullNode ch f2 =>
    have hr0 : r = 0 := by simpa using hw1
    have hr1 := ((wf_fullNode_iff ..).mp hw2).1
    omega
  | .shortNode k1 v1 f1, .valueNode v2 =>
    have hr0 : r = 0 := by simpa using hw2
    obtain ⟨hne1, _, _, hle1, _⟩ := (wf_shortNode_iff ..).mp hw1
    have := List.length_pos.mpr hne1
    omega
  | .duoNode i1 i2 c1 c2 f1, .valueNode v2 =>
    have hr0 : r = 0 := by simpa using hw2
    have hr1 := ((wf_duoNode_iff ..).mp hw1).1
    omega
  | .fullNode ch f1, .valueNode v2 =>
    have hr0 : r = 0 := by simpa using hw2
    have hr1 := ((wf_fullNode_iff ..).mp hw1).1
    omega
  | .shortNode k1 v1 f1, .duoNode i1 i2 c1 c2 f2 =>
    exact absurd (not_short_duo hw1 hw2 hmap) (fun h => h)
  | .duoNode i1 i2 c1 c2 f1, .shortNode k2 v2 f2 =>
    exact absurd (not_short_duo hw2 hw1 (fun s hs => (hmap s hs).symm)) (fun h => h)
  | .shortNode k1 v1 f1, .fullNode ch f2 =>
    exact absurd (not_short_full hw1 hw2 hmap) (fun h => h)
  | .fullNode ch f1, .shortNode k2 v2 f2 =>
    exact absurd (not_short_full hw2 hw1 (fun s hs => (hmap s hs).symm)) (fun h => h)
  | .duoNode i1 i2 c1 c2 f1, .fullNode ch f2 =>
    exact absurd (not_duo_full hw1 hw2 hmap) (fun h => h)
  | .fullNode ch f1, .duoNode i1 i2 c1 c2 f2 =>
    exact absurd (not_duo_full hw2 hw1 (fun s hs => (hmap s hs).symm)) (fun h => h)
  | .shortNode k1 v1 f1, .shortNode k2 v2 f2 =>
    obtain ⟨hne1, hvh1, hrt1, hle1, hwfv1, hbr1, hns1, hnn1, hnh1⟩ :=
      (wf_shortNode_iff ..).mp hw1
    obtain ⟨hne2, hvh2, hrt2, hle2, hwfv2, hbr2, hns2, hnn2, hnh2⟩ :=
      (wf_shortNode_iff ..).mp hw2
    have hl1pos : 1 ≤ (compactToHex k1).length := List.length_pos.mpr hne1
    have hlen12 : (compactToHex k1).length = (compactToHex k2).length := by
      by_contra hc
      rcases Nat.lt_or_ge (compactToHex k1).length (compactToHex k2).length with h | h
      · exact not_short_short_lt hw1 hw2 hmap h
      · exact not_short_short_lt hw2 hw1 (fun s hs => (hmap s hs).symm) (by omega)
    have hkeys : compactToHex k1 = compactToHex k2 := by
      obtain ⟨s, hslen, hsome⟩ := find_nonempty r _ hw1
      have hp1 := short_find_prefix hsome
      rw [hmap s hslen] at hsome
      have hp2 := short_find_prefix hsome
      have he1 := List.prefix_iff_eq_take.mp (List.isPrefixOf_iff_prefix.mp hp1)
      have he2 := List.prefix_iff_eq_take.mp (List.isPrefixOf_iff_prefix.mp hp2)
      rw [he1, he2, hlen12]
    have hk12 : k1 = k2 := by
      rw [← hrt1, ← hrt2, hkeys]
    have hmapv : ∀ t : List Nat, t.length = r - (compactToHex k1).length →
        find v1 t = find v2 t := by
      intro t ht
      have h := hmap (compactToHex k1 ++ t)
        (by simp only [List.length_append]; omega)
      rw [find_short_append, hkeys, find_short_append] at h
      exact h
    have hwfv2a : wf v2 (r - (compactToHex k1).length) = true := by
      rw [hlen12]
      exact hwfv2
    have hstrips := IH (r - (compactToHex k1).length) (by omega) v1 v2 hwfv1 hwfv2a hmapv
    rw [stripFlags_shortNode, stripFlags_shortNode, hk12, hstrips]
  | .duoNode i1 i2 c1 c2 f1, .duoNode j1 j2 d1 d2 f2 =>
    obtain ⟨hr1, hi12, hi216, hwc1, hwc2, _⟩ := (wf_duoNode_iff ..).mp hw1
    obtain ⟨_, hj12, hj216, hwd1, hwd2, _⟩ := (wf_duoNode_iff ..).mp hw2
    -- the two index pairs coincide
    have hsendi : ∀ x : Nat, (∃ s1 : List Nat, s1.length = r - 1 ∧
        (find (.duoNode i1 i2 c1 c2 f1) (x :: s1)).isSome = true) →
        x = j1 ∨ x = j2 := by
      rintro x ⟨s1, hl1, hp1⟩
      rw [hmap (x :: s1) (by simp only [List.length_cons]; omega)] at hp1
      exact duo_head hp1
    have hsendj : ∀ x : Nat, (∃ s1 : List Nat, s1.length = r - 1 ∧
        (find (.duoNode j1 j2 d1 d2 f2) (x :: s1)).isSome = true) →
        x = i1 ∨ x = i2 := by
      rintro x ⟨s1, hl1, hp1⟩
      rw [← hmap (x :: s1) (by simp only [List.length_cons]; omega)] at hp1
      exact duo_head hp1
    have hi1 := hsendi i1 (duo_present1 hw1)
    have hi2 := hsendi i2 (duo_present2 hw1)
    have hj1 := hsendj j1 (duo_present1 hw2)
    have hj2 := hsendj j2 (duo_present2 hw2)
    obtain ⟨hieq1, hieq2⟩ : i1 = j1 ∧ i2 = j2 := by
      rcases hi1 with h1 | h1 <;> rcases hi2 with h2 | h2 <;>
        rcases hj1 with h3 | h3 <;> rcases hj2 with h4 | h4 <;> omega
    subst hieq1
    subst hieq2
    have hm1 : ∀ t : List Nat, t.length = r - 1 → find c1 t = find d1 t := by
      intro t ht
      have h := hmap (i1 :: t) (by simp only [List.length_cons]; omega)
      rw [find_duoNode_cons, find_duoNode_cons, if_pos rfl, if_pos rfl] at h
      exact h
    have hm2 : ∀ t : List Nat, t.length = r - 1 → find c2 t = find d2 t := by
      intro t ht
      have h := hmap (i2 :: t) (by simp only [List.length_cons]; omega)
      rw [find_duoNode_cons, find_duoNode_cons,
        if_neg (show ¬(i2 = i1) by omega), if_neg (show ¬(i2 = i1) by omega),
        if_pos rfl, if_pos rfl] at h
      exact h
    have hs1 := IH (r - 1) (by omega) c1 d1 hwc1 hwd1 hm1
    have hs2 := IH (r - 1) (by omega) c2 d2 hwc2 hwd2 hm2
    rw [stripFlags_duoNode, stripFlags_duoNode, hs1, hs2]
  | .fullNode ch1 f1, .fullNode ch2 f2 =>
    obtain ⟨hr1, hc17a, _, hchwf1, _⟩ := (wf_fullNode_iff ..).mp hw1
    obtain ⟨_, hc17b, _, hchwf2, _⟩ := (wf_fullNode_iff ..).mp hw2
    have h12 : ∀ j, j < 17 → (ch1.getD j .nilNode).isNull = false →
        (ch2.getD j .nilNode).isNull = false := by
      intro j hj hn
      obtain ⟨s1, hl1, hp1⟩ := full_present hw1 (mem_nonNullIndices.mpr ⟨hj, hn⟩)
      rw [hmap (j :: s1) (by simp only [List.length_cons]; omega)] at hp1
      exact full_head hp1
    have h21 : ∀ j, j < 17 → (ch2.getD j .nilNode).isNull = false →
        (ch1.getD j .nilNode).isNull = false := by
      intro j hj hn
      obtain ⟨s1, hl1, hp1⟩ := full_present hw2 (mem_nonNullIndices.mpr ⟨hj, hn⟩)
      rw [← hmap (j :: s1) (by simp only [List.length_cons]; omega)] at hp1
      exact full_head hp1
    have hcj : ∀ j, j < 17 →
        stripFlags (ch1.getD j .nilNode) = stripFlags (ch2.getD j .nilNode) := by
      intro j hj
      by_cases hn1 : (ch1.getD j .nilNode).isNull = true
      · have hn2 : (ch2.getD j .nilNode).isNull = true := by
          by_contra hc
          have := h21 j hj (Bool.eq_false_iff.mpr hc)
          rw [hn1] at this
          simp at this
        rw [isNull_eq_nil hn1, isNull_eq_nil hn2]
      · have hn1f : (ch1.getD j .nilNode).isNull = false := Bool.eq_false_iff.mpr hn1
        have hn2f := h12 j hj hn1f
        have hwfc1 : wf (ch1.getD j .nilNode) (r - 1) = true := by
          rcases hchwf1 j hj with hx | hx
          · rw [hx] at hn1f
            simp at hn1f
          · exact hx
        have hwfc2 : wf (ch2.getD j .nilNode) (r - 1) = true := by
          rcases hchwf2 j hj with hx | hx
          · rw [hx] at hn2f
            simp at hn2f
          · exact hx
        have hmj : ∀ t : List Nat, t.length = r - 1 →
            find (ch1.getD j .nilNode) t = find (ch2.getD j .nilNode) t := by
          intro t ht
          have h := hmap (j :: t) (by simp only [List.length_cons]; omega)
          rw [find_fullNode_cons, find_fullNode_cons] at h
          exact h
        exact IH (r - 1) (by omega) _ _ hwfc1 hwfc2 hmj
    rw [stripFlags_fullNode, stripFlags_fullNode]
    have hlist : ch1.map stripFlags = ch2.map stripFlags := by
      refine list_eq_of_getD 17 ?_ ?_ ?_
      · rw [List.length_map]
        exact hc17a
      · rw [List.length_map]
        exact hc17b
      · intro j hj
        rw [getD_map_strip (by rw [hc17a]; exact hj),
          getD_map_strip (by rw [hc17b]; exact hj), hcj j hj]
    rw [hlist]

/-! ## tryGet1 agrees with find on resolved tries -/

@[simp] theorem tryGet1_nilNode (key : List Nat) (pos : Nat) :
    tryGet1 .nilNode key pos = (none, true) := by
  simp [tryGet1]

@[simp] theorem tryGet1_valueNode (v : List Nat) (key : List Nat) (pos : Nat) :
    tryGet1 (.valueNode v) key pos = (some v, true) := by
  simp [tryGet1]

@[simp] theorem tryGet1_hashNode (h : List Nat) (key : List Nat) (pos : Nat) :
    tryGet1 (.hashNode h) key pos = (none, false) := by
  simp [tryGet1]

theorem tryGet1_shortNode (k : List Nat) (val : node) (fl : Flags)
    (key : List Nat) (pos : Nat) :
    tryGet1 (.shortNode k val fl) key pos =
      if key.length - pos < (compactToHex k).length ∨
         ¬((key.drop pos).take (compactToHex k).length = compactToHex k) then
        (none, true)
      else tryGet1 val key (pos + (compactToHex k).length) := by
  rw [tryGet1]

theorem tryGet1_duoNode (i1 i2 : Nat) (c1 c2 : node) (fl : Flags)
    (key : List Nat) (pos : Nat) :
    tryGet1 (.duoNode i1 i2 c1 c2 fl) key pos =
      if key.getD pos 0 = i1 then tryGet1 c1 key (pos + 1)
      else if key.getD pos 0 = i2 then tryGet1 c2 key (pos + 1)
      else (none, true) := by
  rw [tryGet1]

theorem tryGet1_fullNode (ch : List node) (fl : Flags)
    (key : List Nat) (pos : Nat) :
    tryGet1 (.fullNode ch fl) key pos =
      tryGet1 (ch.getD (key.getD pos 0) .nilNode) key (pos + 1) := by
  rw [tryGet1]

/-- On a resolved (hash-free, well-formed) subtrie, tryGet1 returns the
find value together with gotValue = true: the descent never meets a hash
node, so the resolveReads escape hatch is never taken. -/
theorem tryGet1_find : ∀ r : Nat, ∀ n : node, ∀ key : List Nat, ∀ pos : Nat,
    (wf n r = true ∨ n = .nilNode) → key.length = pos + r →
    tryGet1 n key pos = (find n (key.drop pos), true) := by
  intro r
  induction r using Nat.strong_induction_on with
  | _ r IH =>
  intro n key pos hwf hlen
  rcases hwf with hwf | hnil
  · match n with
    | .nilNode => simp at hwf
    | .hashNode h => simp at hwf
    | .valueNode v =>
      have hr0 : r = 0 := by simpa using hwf
      have hdrop : key.drop pos = [] := List.drop_eq_nil_of_le (by omega)
      rw [hdrop]
      simp
    | .shortNode k val fl =>
      rw [wf_shortNode_iff] at hwf
      obtain ⟨hne, hval, hrt, hlk, hwv, hbr, hns, hnn, hnh⟩ := hwf
      have hklen : 0 < (compactToHex k).length := List.length_pos.mpr hne
      rw [tryGet1_shortNode, find_shortNode]
      by_cases hp : (compactToHex k).isPrefixOf (key.drop pos)
      · have hpre : compactToHex k <+: key.drop pos := List.isPrefixOf_iff_prefix.mp hp
        have htake : (key.drop pos).take (compactToHex k).length = compactToHex k :=
          (List.prefix_iff_eq_take.mp hpre).symm
        rw [if_neg (by push_neg; exact ⟨by omega, htake⟩), if_pos hp]
        have IH' := IH (r - (compactToHex k).length) (by omega) val key
          (pos + (compactToHex k).length) (Or.inl hwv) (by omega)
        rw [IH', List.drop_drop, Nat.add_comm]
      · rw [if_pos (Or.inr (fun htake => hp (List.isPrefixOf_iff_prefix.mpr
          (List.prefix_iff_eq_take.mpr htake.symm)))), if_neg hp]
    | .duoNode i1 i2 c1 c2 fl =>
      rw [wf_duoNode_iff] at hwf
      obtain ⟨hr1, h12, h16, hw1, hw2, hval16⟩ := hwf
      have hposlt : pos < key.length := by omega
      rw [tryGet1_duoNode, drop_eq_getD_cons hposlt, find_duoNode_cons]
      by_cases ha1 : key.getD pos 0 = i1
      · rw [if_pos ha1, if_pos ha1]
        exact IH (r - 1) (by omega) c1 key (pos + 1) (Or.inl hw1) (by omega)
      · rw [if_neg ha1, if_neg ha1]
        by_cases ha2 : key.getD pos 0 = i2
        · rw [if_pos ha2, if_pos ha2]
          exact IH (r - 1) (by omega) c2 key (pos + 1) (Or.inl hw2) (by omega)
        · rw [if_neg ha2, if_neg ha2]
    | .fullNode ch fl =>
      rw [wf_fullNode_iff] at hwf
      obtain ⟨hr1, hlen17, _, hslots, _⟩ := hwf
      have hposlt : pos < key.length := by omega
      rw [tryGet1_fullNode, drop_eq_getD_cons hposlt, find_fullNode_cons]
      have hchild : wf (ch.getD (key.getD pos 0) .nilNode) (r - 1) = true ∨
          ch.getD (key.getD pos 0) .nilNode = .nilNode := by
        by_cases ha : key.getD pos 0 < 17
        · rcases hslots (key.getD pos 0) ha with hnull | hwfc
          · exact Or.inr (isNull_eq_nil hnull)
          · exact Or.inl hwfc
        · refine Or.inr ?_
          apply List.getD_eq_default
          omega
      exact IH (r - 1) (by omega) _ key (pos + 1) hchild (by omega)
  · subst hnil
    simp

/-! ## Root-level operation semantics -/

theorem runWithDb_ins_notnil {root : node} (h : root.isNull = false)
    (k v : List Nat) (bn : Nat) :
    runWithDb root (.ins k v) bn =
      (match insert root k 0 v bn with
       | .ok n u => some (n, u)
       | _ => none) := by
  cases root
  case nilNode => simp [node.isNull] at h
  all_goals rfl

theorem validKey_ne_nil {k : List Nat} (h : validKey k = true) : k ≠ [] := by
  intro hnil
  subst hnil
  simp [validKey] at h

/-- The fresh root leaf built by RunWithDb when an insert lands on an
empty trie (trie.go lines 1977-1984). -/
theorem wf_rootLeaf {K : List Nat} (hK : validKey K = true) (V : List Nat) (bn : Nat) :
    wf (adjustTod (.shortNode (hexToCompact K) (.valueNode V)
      { dirty := true, t := bn }) bn) K.length = true := by
  rw [wf_adjustTod, wf_shortNode_iff]
  have hvh : validHex K = true := validKey_validHex hK
  have hrt : compactToHex (hexToCompact K) = K := compactToHex_hexToCompact K hvh
  rw [hrt]
  refine ⟨validKey_ne_nil hK, hvh, rfl, le_refl _, ?_, ?_, rfl, rfl, rfl⟩
  · rw [Nat.sub_self]
    simp
  · intro hb
    simp [isBranch] at hb

theorem find_rootLeaf {K : List Nat} (hK : validKey K = true) (V : List Nat) (bn : Nat) :
    ∀ s : List Nat, s.length = K.length →
      find (adjustTod (.shortNode (hexToCompact K) (.valueNode V)
        { dirty := true, t := bn }) bn) s = if s = K then some V else none := by
  intro s hs
  rw [find_adjustTod, find_shortNode]
  have hrt : compactToHex (hexToCompact K) = K :=
    compactToHex_hexToCompact K (validKey_validHex hK)
  rw [hrt]
  by_cases heq : s = K
  · subst heq
    rw [if_pos (List.isPrefixOf_iff_prefix.mpr (List.prefix_refl s)), List.drop_length]
    simp
  · rw [if_neg heq, if_neg]
    intro hpre
    exact heq ((isPrefixOf_length_eq hs.symm).mp hpre).symm

/-- One mutation's effect on the value stored at search key s. -/
def opEffect (op : TrieOp) (s : List Nat) (base : Option (List Nat)) :
    Option (List Nat) :=
  match op with
  | .ins k v => if s = k then some v else base
  | .del k => if s = k then none else base

/-- One driver round trip: applyOp keeps the root well-formed (or empty)
and performs exactly the mutation's effect on the stored map. -/
theorem applyOp_spec (bn r : Nat) (root : node) (op : TrieOp)
    (hwf : wf root r = true ∨ root = .nilNode)
    (hk : validKey op.key = true) (hlen : op.key.length = r) :
    (wf (applyOp root op bn) r = true ∨ applyOp root op bn = .nilNode) ∧
    (∀ s : List Nat, s.length = r →
      find (applyOp root op bn) s = opEffect op s (find root s)) := by
  cases op with
  | ins K V =>
    simp only [TrieOp.key] at hk hlen
    rcases hwf with hwf | hnil
    · have hnn : root.isNull = false := wf_ne_nil hwf
      obtain ⟨n1, u, hins, hwf1, hmap, hufalse, _, _⟩ :=
        insert_spec bn V r root K 0 hwf (by omega) hk
      cases u with
      | true =>
        have happ : applyOp root (.ins K V) bn = n1 := by
          rw [applyOp, runWithDb_ins_notnil hnn, hins]
          rfl
        rw [happ]
        refine ⟨Or.inl hwf1, ?_⟩
        intro s hs
        have := hmap s hs
        simpa [opEffect] using this
      | false =>
        have happ : applyOp root (.ins K V) bn = root := by
          rw [applyOp, runWithDb_ins_notnil hnn, hins]
          rfl
        rw [happ]
        refine ⟨Or.inl hwf, ?_⟩
        intro s hs
        rw [opEffect]
        by_cases hsK : s = K
        · subst hsK
          rw [if_pos rfl]
          have := hufalse rfl
          simpa using this
        · rw [if_neg hsK]
    · subst hnil
      have happ : applyOp .nilNode (.ins K V) bn =
          adjustTod (.shortNode (hexToCompact K) (.valueNode V)
            { dirty := true, t := bn }) bn := rfl
      rw [happ]
      subst hlen
      refine ⟨Or.inl (wf_rootLeaf hk V bn), ?_⟩
      intro s hs
      rw [find_rootLeaf hk V bn s hs, opEffect, find_nilNode]
  | del K =>
    simp only [TrieOp.key] at hk hlen
    rcases hwf with hwf | hnil
    · obtain ⟨n1, u, hdel, hu, hwf1, hmap, hstrip⟩ :=
        delete_spec bn r root K 0 hwf (by omega) hk
      cases u with
      | true =>
        have happ : applyOp root (.del K) bn = n1 := by
          rw [applyOp, runWithDb, hdel]
          rfl
        rw [happ]
        refine ⟨hwf1, ?_⟩
        intro s hs
        have := hmap s hs
        simpa [opEffect] using this
      | false =>
        have happ : applyOp root (.del K) bn = root := by
          rw [applyOp, runWithDb, hdel]
          rfl
        rw [happ]
        refine ⟨Or.inl hwf, ?_⟩
        intro s hs
        rw [opEffect]
        by_cases hsK : s = K
        · subst hsK
          rw [if_pos rfl]
          rcases hfind : find root s with _ | v
          · rfl
          · rw [List.drop_zero] at hu
            rw [hfind] at hu
            simp at hu
        · rw [if_neg hsK]
    · subst hnil
      have hdel : delete .nilNode K 0 bn = .ok .nilNode false := by
        simp [delete]
      have happ : applyOp .nilNode (.del K) bn = .nilNode := by
        rw [applyOp, runWithDb, hdel]
        rfl
      rw [happ]
      refine ⟨Or.inr rfl, ?_⟩
      intro s hs
      rw [opEffect, find_nilNode]
      by_cases hsK : s = K
      · rw [if_pos hsK]
      · rw [if_neg hsK]

/-- The accumulated effect of a batch of mutations on one search key. -/
def opsEffect (ops : List TrieOp) (s : List Nat) (base : Option (List Nat)) :
    Option (List Nat) :=
  ops.foldl (fun acc op => opEffect op s acc) base

theorem applyOps_spec (bn r : Nat) : ∀ (ops : List TrieOp) (root : node),
    (wf root r = true ∨ root = .nilNode) →
    (∀ op ∈ ops, validKey op.key = true ∧ op.key.length = r) →
    (wf (applyOps ops root bn) r = true ∨ applyOps ops root bn = .nilNode) ∧
    (∀ s : List Nat, s.length = r →
      find (applyOps ops root bn) s = opsEffect ops s (find root s)) := by
  intro ops
  induction ops with
  | nil =>
    intro root hwf hops
    exact ⟨hwf, fun s hs => rfl⟩
  | cons op ops IH =>
    intro root hwf hops
    have h1 := applyOp_spec bn r root op hwf (hops op (by simp)).1 (hops op (by simp)).2
    have h2 := IH (applyOp root op bn) h1.1 (fun o ho => hops o (by simp [ho]))
    refine ⟨h2.1, ?_⟩
    intro s hs
    show find (applyOps ops (applyOp root op bn) bn) s =
      opsEffect ops s (opEffect op s (find root s))
    rw [h2.2 s hs, h1.2 s hs]

/-- Mutations with other keys do not contribute to the effect at s. -/
theorem opsEffect_eq_filter (s : List Nat) : ∀ (ops : List TrieOp)
    (base : Option (List Nat)),
    opsEffect ops s base =
      opsEffect (ops.filter (fun op => decide (op.key = s))) s base := by
  intro ops
  induction ops with
  | nil => intro base; rfl
  | cons op ops IH =>
    intro base
    by_cases h : op.key = s
    · rw [List.filter_cons_of_pos (by simpa using h)]
      show opsEffect ops s (opEffect op s base) =
        opsEffect (ops.filter (fun op => decide (op.key = s))) s (opEffect op s base)
      exact IH _
    · rw [List.filter_cons_of_neg (by simpa using h)]
      have hop : opEffect op s base = base := by
        cases op with
        | ins k v =>
          simp only [TrieOp.key] at h
          simp only [opEffect]
          rw [if_neg (fun hs => h hs.symm)]
        | del k =>
          simp only [TrieOp.key] at h
          simp only [opEffect]
          rw [if_neg (fun hs => h hs.symm)]
      show opsEffect ops s (opEffect op s base) = _
      rw [hop]
      exact IH base

theorem filter_key_length_le_one : ∀ (ops : List TrieOp) (s : List Nat),
    (ops.map TrieOp.key).Nodup →
    (ops.filter (fun op => decide (op.key = s))).length ≤ 1 := by
  intro ops
  induction ops with
  | nil =>
    intro s _
    simp
  | cons op ops IH =>
    intro s hnd
    rw [List.map_cons, List.nodup_cons] at hnd
    by_cases h : op.key = s
    · rw [List.filter_cons_of_pos (by simpa using h)]
      have hnil : ops.filter (fun op => decide (op.key = s)) = [] := by
        rw [List.filter_eq_nil]
        intro a ha
        simp only [decide_eq_true_eq]
        intro hak
        exact hnd.1 (by rw [h, ← hak]; exact List.mem_map_of_mem TrieOp.key ha)
      rw [hnil]
      simp
    · rw [List.filter_cons_of_neg (by simpa using h)]
      exact IH s hnd.2

theorem perm_eq_of_length_le_one : ∀ {l1 l2 : List TrieOp}, l1.Perm l2 →
    l1.length ≤ 1 → l1 = l2 := by
  intro l1 l2 h hl
  match l1, hl with
  | [], _ => exact h.nil_eq
  | [a], _ => exact (List.perm_singleton.mp h.symm).symm
  | a :: b :: t, hl => simp at hl

theorem opsEffect_perm {ops1 ops2 : List TrieOp} (h : ops1.Perm ops2)
    (hnd : (ops1.map TrieOp.key).Nodup) (s : List Nat) (base : Option (List Nat)) :
    opsEffect ops1 s base = opsEffect ops2 s base := by
  have hfe : ops1.filter (fun op => decide (op.key = s)) =
      ops2.filter (fun op => decide (op.key = s)) :=
    perm_eq_of_length_le_one (h.filter _) (filter_key_length_le_one ops1 s hnd)
  rw [opsEffect_eq_filter s ops1 base, opsEffect_eq_filter s ops2 base, hfe]

theorem applyOps_perm_find (bn r : Nat) (ops1 ops2 : List TrieOp) (root : node)
    (hperm : ops1.Perm ops2) (hnd : (ops1.map TrieOp.key).Nodup)
    (hwf : wf root r = true ∨ root = .nilNode)
    (hops : ∀ op ∈ ops1, validKey op.key = true ∧ op.key.length = r) :
    ∀ s : List Nat, s.length = r →
      find (applyOps ops1 root bn) s = find (applyOps ops2 root bn) s := by
  have hops2 : ∀ op ∈ ops2, validKey op.key = true ∧ op.key.length = r :=
    fun o ho => hops o (hperm.mem_iff.mpr ho)
  intro s hs
  rw [(applyOps_spec bn r ops1 root hwf hops).2 s hs,
    (applyOps_spec bn r ops2 root hwf hops2).2 s hs]
  exact opsEffect_perm hperm hnd s _

/-- Applying a batch of distinct-key mutations in any order produces
structurally identical tries (up to flag metadata). -/
theorem applyOps_perm_strip (bn r : Nat) (ops1 ops2 : List TrieOp) (root : node)
    (hperm : ops1.Perm ops2) (hnd : (ops1.map TrieOp.key).Nodup)
    (hwf : wf root r = true ∨ root = .nilNode)
    (hops : ∀ op ∈ ops1, validKey op.key = true ∧ op.key.length = r) :
    stripFlags (applyOps ops1 root bn) = stripFlags (applyOps ops2 root bn) := by
  have hops2 : ∀ op ∈ ops2, validKey op.key = true ∧ op.key.length = r :=
    fun o ho => hops o (hperm.mem_iff.mpr ho)
  have h1 := (applyOps_spec bn r ops1 root hwf hops).1
  have h2 := (applyOps_spec bn r ops2 root hwf hops2).1
  have hfind := applyOps_perm_find bn r ops1 ops2 root hperm hnd hwf hops
  rcases h1 with hw1 | hn1 <;> rcases h2 with hw2 | hn2
  · exact canonical r _ _ hw1 hw2 hfind
  · obtain ⟨s, hs, hsome⟩ := find_nonempty r _ hw1
    rw [hfind s hs, hn2] at hsome
    simp at hsome
  · obtain ⟨s, hs, hsome⟩ := find_nonempty r _ hw2
    rw [← hfind s hs, hn1] at hsome
    simp at hsome
  · rw [hn1, hn2]

/-! ## Hashing

Modelled from the spec (§2.2, §4.1): each node's encoded form is the
standard recursive-length-prefix encoding of (compact key, child ref) for
a Short, of a 17-item list of child refs for a Duo/Full, and of the raw
byte string for a Value; a child ref is the child's encoding inline when
shorter than 32 bytes and the keccak256 hash of that encoding otherwise;
the root hash is keccak256 of the root's encoding, or the fixed
empty-trie constant when the trie has no data (hashRoot, trie.go second
version line 1615).  keccak256 itself is out of scope (§1) and is a
parameter. -/

def beBytesAux : Nat → Nat → List Nat
  | 0, _ => []
  | fuel + 1, n => if n = 0 then [] else beBytesAux fuel (n / 256) ++ [n % 256]

/-- Minimal big-endian byte representation of a natural number (the
recursion is bounded by a fuel argument that the value itself always
covers). -/
def beBytes (n : Nat) : List Nat := beBytesAux n n

def encodeBytes (b : List Nat) : List Nat :=
  if b.length = 1 ∧ b.getD 0 0 < 128 then b
  else if b.length ≤ 55 then (128 + b.length) :: b
  else (183 + (beBytes b.length).length) :: (beBytes b.length ++ b)

def encodeListPayload (p : List Nat) : List Nat :=
  if p.length ≤ 55 then (192 + p.length) :: p
  else (247 + (beBytes p.length).length) :: (beBytes p.length ++ p)

/-- A child's reference inside its parent's encoding: inline when
embedded (shorter than 32 bytes), else the hash as a byte string. -/
def nodeRef (keccak : List Nat → List Nat) (e : List Nat) : List Nat :=
  if e.length < 32 then e else encodeBytes (keccak e)

def encodeNode (keccak : List Nat → List Nat) : node → List Nat
  | .nilNode => encodeBytes []
  | .hashNode h => encodeBytes h
  | .valueNode v => encodeBytes v
  | .shortNode k val _ =>
    encodeListPayload (encodeBytes k ++ nodeRef keccak (encodeNode keccak val))
  | .duoNode i1 i2 c1 c2 _ =>
    encodeListPayload ((List.range 17).flatMap (fun j =>
      if j = i1 then nodeRef keccak (encodeNode keccak c1)
      else if j = i2 then nodeRef keccak (encodeNode keccak c2)
      else encodeBytes []))
  | .fullNode ch _ =>
    encodeListPayload ((List.range 17).flatMap (fun j =>
      nodeRef keccak (encodeNode keccak (ch.getD j .nilNode))))
termination_by n => sizeOf n
decreasing_by
  · simp only [node.shortNode.sizeOf_spec]
    omega
  · simp only [node.duoNode.sizeOf_spec]
    omega
  · simp only [node.duoNode.sizeOf_spec]
    omega
  · rename_i ch fl
    rcases getD_mem_or_default ch j .nilNode with h | h
    · have := List.sizeOf_lt_of_mem h
      simp only [node.fullNode.sizeOf_spec]
      omega
    · rw [h]
      have hch : 1 ≤ sizeOf ch := by cases ch <;> simp_arith
      simp only [node.fullNode.sizeOf_spec, node.nilNode.sizeOf_spec]
      omega

/-- The well-known empty-trie root constant (trie.go lines 33-39). -/
def emptyRoot : List Nat :=
  [0x56, 0xe8, 0x1f, 0x17, 0x1b, 0xcc, 0x55, 0xa6,
   0xff, 0x83, 0x45, 0xe6, 0x92, 0xc0, 0xf8, 0x6e,
   0x5b, 0x48, 0xe0, 0x1b, 0x99, 0x6c, 0xad, 0xc0,
   0x01, 0x62, 0x2f, 0xb5, 0xe3, 0x63, 0xb4, 0x21]

/-- hashRoot (trie.go second version line 1615): the empty-trie constant
for a nil root, else the root's forced hash. -/
def hashRoot (keccak : List Nat → List Nat) (root : node) : List Nat :=
  if root.isNull then emptyRoot else keccak (encodeNode keccak root)

@[simp] theorem encodeNode_nilNode (keccak : List Nat → List Nat) :
    encodeNode keccak .nilNode = encodeBytes [] := by
  simp [encodeNode]

@[simp] theorem encodeNode_hashNode (keccak : List Nat → List Nat) (h : List Nat) :
    encodeNode keccak (.hashNode h) = encodeBytes h := by
  simp [encodeNode]

@[simp] theorem encodeNode_valueNode (keccak : List Nat → List Nat) (v : List Nat) :
    encodeNode keccak (.valueNode v) = encodeBytes v := by
  simp [encodeNode]

theorem encodeNode_shortNode (keccak : List Nat → List Nat) (k : List Nat)
    (val : node) (fl : Flags) :
    encodeNode keccak (.shortNode k val fl) =
      encodeListPayload (encodeBytes k ++ nodeRef keccak (encodeNode keccak val)) := by
  rw [encodeNode]

theorem encodeNode_duoNode (keccak : List Nat → List Nat) (i1 i2 : Nat)
    (c1 c2 : node) (fl : Flags) :
    encodeNode keccak (.duoNode i1 i2 c1 c2 fl) =
      encodeListPayload ((List.range 17).flatMap (fun j =>
        if j = i1 then nodeRef keccak (encodeNode keccak c1)
        else if j = i2 then nodeRef keccak (encodeNode keccak c2)
        else encodeBytes [])) := by
  rw [encodeNode]

theorem encodeNode_fullNode (keccak : List Nat → List Nat) (ch : List node)
    (fl : Flags) :
    encodeNode keccak (.fullNode ch fl) =
      encodeListPayload ((List.range 17).flatMap (fun j =>
        nodeRef keccak (encodeNode keccak (ch.getD j .nilNode)))) := by
  rw [encodeNode]

/-- A node's encoding, hence its hash, is a function of the structural
projection only: flag metadata never enters the encoder. -/
theorem encodeNode_strip (keccak : List Nat → List Nat) :
    ∀ N : Nat, ∀ n : node, sizeOf n ≤ N →
      encodeNode keccak (stripFlags n) = encodeNode keccak n := by
  intro N
  induction N using Nat.strong_induction_on with
  | _ N IH =>
  intro n hsz
  match n with
  | .nilNode => rw [stripFlags_nilNode]
  | .hashNode h => rw [stripFlags_hashNode]
  | .valueNode v => rw [stripFlags_valueNode]
  | .shortNode k val fl =>
    have hlt : sizeOf val < N := by
      have : sizeOf val < sizeOf (node.shortNode k val fl) := by
        simp only [node.shortNode.sizeOf_spec]
        omega
      omega
    have hval := IH (sizeOf val) hlt val (le_refl _)
    rw [stripFlags_shortNode, encodeNode_shortNode, encodeNode_shortNode, hval]
  | .duoNode i1 i2 c1 c2 fl =>
    have hlt1 : sizeOf c1 < N := by
      have : sizeOf c1 < sizeOf (node.duoNode i1 i2 c1 c2 fl) := by
        simp only [node.duoNode.sizeOf_spec]
        omega
      omega
    have hlt2 : sizeOf c2 < N := by
      have : sizeOf c2 < sizeOf (node.duoNode i1 i2 c1 c2 fl) := by
        simp only [node.duoNode.sizeOf_spec]
        omega
      omega
    have h1 := IH (sizeOf c1) hlt1 c1 (le_refl _)
    have h2 := IH (sizeOf c2) hlt2 c2 (le_refl _)
    rw [stripFlags_duoNode, encodeNode_duoNode, encodeNode_duoNode, h1, h2]
  | .fullNode ch fl =>
    rw [stripFlags_fullNode, encodeNode_fullNode, encodeNode_fullNode]
    congr 1
    rw [List.flatMap_def, List.flatMap_def]
    congr 1
    apply List.map_congr_left
    intro j hj
    by_cases hjl : j < ch.length
    · rcases getD_mem_or_default ch j .nilNode with hmem | hdef
      · have hlt : sizeOf (ch.getD j .nilNode) < N := by
          have h1 := List.sizeOf_lt_of_mem hmem
          have h2 : sizeOf (ch.getD j .nilNode) < sizeOf (node.fullNode ch fl) := by
            simp only [node.fullNode.sizeOf_spec]
            omega
          omega
        rw [getD_map_strip hjl, IH (sizeOf (ch.getD j .nilNode)) hlt _ (le_refl _)]
      · rw [getD_map_strip hjl, hdef, stripFlags_nilNode]
    · have hdef1 : (List.map stripFlags ch).getD j .nilNode = .nilNode := by
        apply List.getD_eq_default
        simp
        omega
      have hdef2 : ch.getD j .nilNode = .nilNode := by
        apply List.getD_eq_default
        omega
      rw [hdef1, hdef2]

/-- Equal structural projections give equal encodings, hence equal
hashes. -/
theorem encodeNode_congr (keccak : List Nat → List Nat) {n1 n2 : node}
    (h : stripFlags n1 = stripFlags n2) :
    encodeNode keccak n1 = encodeNode keccak n2 := by
  rw [← encodeNode_strip keccak (sizeOf n1) n1 (le_refl _), h,
    encodeNode_strip keccak (sizeOf n2) n2 (le_refl _)]

theorem hashRoot_congr (keccak : List Nat → List Nat) {n1 n2 : node}
    (h : stripFlags n1 = stripFlags n2) :
    hashRoot keccak n1 = hashRoot keccak n2 := by
  have hnull : n1.isNull = n2.isNull := isNull_of_stripFlags_eq h
  rw [hashRoot, hashRoot, hnull, encodeNode_congr keccak h]

/-! ## The no-Short-child-of-Short invariant (spec §3) -/

def noShortOfShort : node → Bool
  | .shortNode _ val _ => !(isShort val) && noShortOfShort val
  | .duoNode _ _ c1 c2 _ => noShortOfShort c1 && noShortOfShort c2
  | .fullNode ch _ =>
    (List.range ch.length).all (fun j => noShortOfShort (ch.getD j .nilNode))
  | _ => true
termination_by n => sizeOf n
decreasing_by
  · simp only [node.shortNode.sizeOf_spec]
    omega
  · simp only [node.duoNode.sizeOf_spec]
    omega
  · simp only [node.duoNode.sizeOf_spec]
    omega
  · rename_i ch
    rcases getD_mem_or_default ch j .nilNode with h | h
    · have := List.sizeOf_lt_of_mem h
      simp only [node.fullNode.sizeOf_spec]
      omega
    · rw [h]
      have hch : 1 ≤ sizeOf ch := by cases ch <;> simp_arith
      simp only [node.fullNode.sizeOf_spec, node.nilNode.sizeOf_spec]
      omega

@[simp] theorem noShortOfShort_nilNode : noShortOfShort .nilNode = true := by
  simp [noShortOfShort]

@[simp] theorem noShortOfShort_hashNode (h : List Nat) :
    noShortOfShort (.hashNode h) = true := by
  simp [noShortOfShort]

@[simp] theorem noShortOfShort_valueNode (v : List Nat) :
    noShortOfShort (.valueNode v) = true := by
  simp [noShortOfShort]

theorem noShortOfShort_shortNode (k : List Nat) (val : node) (fl : Flags) :
    noShortOfShort (.shortNode k val fl) = (!(isShort val) && noShortOfShort val) := by
  rw [noShortOfShort]

theorem noShortOfShort_duoNode (i1 i2 : Nat) (c1 c2 : node) (fl : Flags) :
    noShortOfShort (.duoNode i1 i2 c1 c2 fl) =
      (noShortOfShort c1 && noShortOfShort c2) := by
  rw [noShortOfShort]

theorem noShortOfShort_fullNode (ch : List node) (fl : Flags) :
    noShortOfShort (.fullNode ch fl) =
      (List.range ch.length).all (fun j => noShortOfShort (ch.getD j .nilNode)) := by
  rw [noShortOfShort]

theorem wf_noShortOfShort : ∀ r : Nat, ∀ n : node, wf n r = true →
    noShortOfShort n = true := by
  intro r
  induction r using Nat.strong_induction_on with
  | _ r IH =>
  intro n hwf
  match n with
  | .nilNode => simp at hwf
  | .hashNode h => simp at hwf
  | .valueNode v => simp
  | .shortNode k val fl =>
    rw [wf_shortNode_iff] at hwf
    obtain ⟨hne, _, _, hlk, hwv, _, hns, _, _⟩ := hwf
    have hkpos : 0 < (compactToHex k).length := List.length_pos.mpr hne
    have hrec := IH (r - (compactToHex k).length) (by omega) val hwv
    rw [noShortOfShort_shortNode, hns, hrec]
    rfl
  | .duoNode i1 i2 c1 c2 fl =>
    rw [wf_duoNode_iff] at hwf
    obtain ⟨hr1, _, _, hw1, hw2, _⟩ := hwf
    rw [noShortOfShort_duoNode, IH (r - 1) (by omega) c1 hw1,
      IH (r - 1) (by omega) c2 hw2]
    rfl
  | .fullNode ch fl =>
    rw [wf_fullNode_iff] at hwf
    obtain ⟨hr1, hlen17, _, hslots, _⟩ := hwf
    rw [noShortOfShort_fullNode]
    simp only [List.all_eq_true, List.mem_range]
    intro j hj
    rw [hlen17] at hj
    rcases hslots j hj with hnull | hwfc
    · rw [isNull_eq_nil hnull]
      simp
    · exact IH (r - 1) (by omega) _ hwfc

/-! ## The claims -/

/-- Claim C1: for every key K and non-empty value V on a resolved trie,
the insert continuation for (K, V) runs to completion and a subsequent
get of K returns V; the delete continuation for K runs to completion and
a subsequent get of K returns no value. -/
theorem C1_get_roundtrip (bn r : Nat) (root : node) (K V : List Nat)
    (hwf : wf root r = true ∨ root = .nilNode)
    (hK : validKey K = true) (hlen : K.length = r) (hV : V ≠ []) :
    (∃ n1 u, runWithDb root (.ins K V) bn = some (n1, u) ∧
      tryGet1 n1 K 0 = (some V, true)) ∧
    (∃ n2 u, runWithDb root (.del K) bn = some (n2, u) ∧
      tryGet1 n2 K 0 = (none, true)) := by
  subst hlen
  constructor
  · rcases hwf with hwf | hnil
    · have hnn := wf_ne_nil hwf
      obtain ⟨n1, u, hins, hwf1, hmap, _, _, _⟩ :=
        insert_spec bn V K.length root K 0 hwf (by omega) hK
      refine ⟨n1, u, ?_, ?_⟩
      · rw [runWithDb_ins_notnil hnn, hins]
      · rw [tryGet1_find K.length n1 K 0 (Or.inl hwf1) (by omega), List.drop_zero]
        have hm := hmap K rfl
        simp at hm
        rw [hm]
    · subst hnil
      refine ⟨adjustTod (.shortNode (hexToCompact K) (.valueNode V)
        { dirty := true, t := bn }) bn, true, rfl, ?_⟩
      have hwl := wf_rootLeaf hK V bn
      rw [tryGet1_find K.length _ K 0 (Or.inl hwl) (by omega), List.drop_zero,
        find_rootLeaf hK V bn K rfl]
      simp
  · rcases hwf with hwf | hnil
    · obtain ⟨n2, u, hdel, hu, hwf2, hmap, _⟩ :=
        delete_spec bn K.length root K 0 hwf (by omega) hK
      refine ⟨n2, u, ?_, ?_⟩
      · rw [runWithDb, hdel]
      · rw [tryGet1_find K.length n2 K 0 hwf2 (by omega), List.drop_zero]
        have hm := hmap K rfl
        simp at hm
        rw [hm]
    · subst hnil
      have hdel : delete .nilNode K 0 bn = .ok .nilNode false := by
        simp [delete]
      refine ⟨.nilNode, false, ?_, by simp⟩
      rw [runWithDb, hdel]

theorem C1_get_roundtrip_witness :
    validKey [1, 16] = true ∧ ([7] : List Nat) ≠ [] ∧
    ((∃ n1 u, runWithDb .nilNode (.ins [1, 16] [7]) 0 = some (n1, u) ∧
        tryGet1 n1 [1, 16] 0 = (some [7], true)) ∧
     (∃ n2 u, runWithDb .nilNode (.del [1, 16]) 0 = some (n2, u) ∧
        tryGet1 n2 [1, 16] 0 = (none, true))) :=
  ⟨by decide, by decide,
    C1_get_roundtrip 0 2 .nilNode [1, 16] [7] (Or.inr rfl) (by decide) (by decide)
      (by decide)⟩

/-- Claim C2: applying a batch of updates with pairwise distinct keys in
any order yields the same root hash. -/
theorem C2_root_hash_perm_invariant (keccak : List Nat → List Nat) (bn r : Nat)
    (ops1 ops2 : List TrieOp) (root : node)
    (hperm : ops1.Perm ops2) (hnd : (ops1.map TrieOp.key).Nodup)
    (hwf : wf root r = true ∨ root = .nilNode)
    (hops : ∀ op ∈ ops1, validKey op.key = true ∧ op.key.length = r) :
    hashRoot keccak (applyOps ops1 root bn) =
      hashRoot keccak (applyOps ops2 root bn) :=
  hashRoot_congr keccak (applyOps_perm_strip bn r ops1 ops2 root hperm hnd hwf hops)

theorem C2_root_hash_perm_invariant_witness :
    ([TrieOp.ins [1, 16] [7], TrieOp.del [2, 16]]).Perm
      [TrieOp.del [2, 16], TrieOp.ins [1, 16] [7]] ∧
    (([TrieOp.ins [1, 16] [7], TrieOp.del [2, 16]]).map TrieOp.key).Nodup ∧
    hashRoot (fun _ => []) (applyOps [TrieOp.ins [1, 16] [7], TrieOp.del [2, 16]]
        .nilNode 0) =
      hashRoot (fun _ => []) (applyOps [TrieOp.del [2, 16], TrieOp.ins [1, 16] [7]]
        .nilNode 0) :=
  ⟨List.Perm.swap (TrieOp.del [2, 16]) (TrieOp.ins [1, 16] [7]) [],
    by simp [TrieOp.key],
    C2_root_hash_perm_invariant (fun _ => []) 0 2 _ _ .nilNode
      (List.Perm.swap (TrieOp.del [2, 16]) (TrieOp.ins [1, 16] [7]) [])
      (by simp [TrieOp.key])
      (Or.inr rfl)
      (by
        intro op hop
        simp only [List.mem_cons, List.not_mem_nil, or_false] at hop
        rcases hop with h | h <;> subst h <;> exact ⟨by decide, by decide⟩)⟩

/-- Claim C5: in every trie state reachable from an empty or freshly
resolved well-formed trie by insert and delete operations, no Short
node's child is itself a Short node. -/
theorem C5_no_short_child_of_short (bn r : Nat) (ops : List TrieOp) (root : node)
    (hwf : wf root r = true ∨ root = .nilNode)
    (hops : ∀ op ∈ ops, validKey op.key = true ∧ op.key.length = r) :
    noShortOfShort (applyOps ops root bn) = true := by
  rcases (applyOps_spec bn r ops root hwf hops).1 with hw | hn
  · exact wf_noShortOfShort r _ hw
  · rw [hn]
    simp

theorem C5_no_short_child_of_short_witness :
    (wf .nilNode 2 = true ∨ node.nilNode = .nilNode) ∧
    (∀ op ∈ [TrieOp.ins [1, 16] [7]], validKey op.key = true ∧ op.key.length = 2) ∧
    noShortOfShort (applyOps [TrieOp.ins [1, 16] [7]] .nilNode 0) = true :=
  ⟨Or.inr rfl,
    by
      intro op hop
      rw [List.mem_singleton] at hop
      subst hop
      exact ⟨by decide, by decide⟩,
    C5_no_short_child_of_short 0 2 [TrieOp.ins [1, 16] [7]] .nilNode (Or.inr rfl)
      (by
        intro op hop
        rw [List.mem_singleton] at hop
        subst hop
        exact ⟨by decide, by decide⟩)⟩

/-- Claim C9: the root hash of a trie containing no data is the fixed
empty-trie constant 0x56e8...b421. -/
theorem C9_empty_trie_root (keccak : List Nat → List Nat) (r : Nat) (root : node)
    (hwf : wf root r = true ∨ root = .nilNode)
    (hempty : ∀ s : List Nat, s.length = r → find root s = none) :
    hashRoot keccak root = emptyRoot := by
  rcases hwf with hwf | hnil
  · obtain ⟨s, hs, hsome⟩ := find_nonempty r root hwf
    rw [hempty s hs] at hsome
    simp at hsome
  · subst hnil
    rfl

theorem C9_empty_trie_root_witness :
    (∀ s : List Nat, s.length = 0 → find .nilNode s = none) ∧
    hashRoot (fun _ => []) .nilNode = emptyRoot :=
  ⟨fun s _ => by simp,
    C9_empty_trie_root (fun _ => []) 0 .nilNode (Or.inr rfl) (fun s _ => by simp)⟩

/-- Claim C10: deleting a key that is absent from a resolved trie
completes with the updated flag false and leaves the structure, hence
the root hash, unchanged. -/
theorem C10_delete_missing_noop (bn r : Nat) (root : node) (K : List Nat)
    (hwf : wf root r = true ∨ root = .nilNode) (hK : validKey K = true)
    (hlen : K.length = r) (habs : find root K = none) :
    ∃ n1, delete root K 0 bn = .ok n1 false ∧ stripFlags n1 = stripFlags root ∧
      ∀ keccak : List Nat → List Nat,
        hashRoot keccak n1 = hashRoot keccak root := by
  rcases hwf with hwf | hnil
  · obtain ⟨n1, u, hdel, hu, _, _, hstrip⟩ :=
      delete_spec bn r root K 0 hwf (by omega) hK
    have hu0 : u = false := by
      rw [hu, List.drop_zero, habs]
      rfl
    subst hu0
    have hs := hstrip rfl
    exact ⟨n1, hdel, hs, fun keccak => hashRoot_congr keccak hs⟩
  · subst hnil
    have hdel : delete .nilNode K 0 bn = .ok .nilNode false := by
      simp [delete]
    exact ⟨.nilNode, hdel, rfl, fun _ => rfl⟩

theorem C10_delete_missing_noop_witness :
    find .nilNode [1, 16] = none ∧
    ∃ n1, delete .nilNode [1, 16] 0 0 = .ok n1 false ∧
      stripFlags n1 = stripFlags .nilNode ∧
      ∀ keccak : List Nat → List Nat,
        hashRoot keccak n1 = hashRoot keccak .nilNode :=
  ⟨by simp,
    C10_delete_missing_noop 0 2 .nilNode [1, 16] (Or.inr rfl) (by decide) (by decide)
      (by simp)⟩

/-! ## TrieDbState commit path (database.go)

The pending per-block buffers of a TrieDbState and the TrieRoot wrapper
(database.go lines 1027-1031): TrieRoot calls trieRoot, then
clearUpdates, then returns trieRoot's result.  trieRoot's driver loop
(database.go lines 1302-1322) is modelled by its observable event
sequence: every continuation that RunWithDb completes with updated set
performs its touch-driven zero-entry PutHash side-table writes right
then (RunWithDb, trie.go lines 1985-1991; touch, trie.go line 1550;
db.PutHash in emptyShortHash / emptyFullHash, trie.go lines 1530 and
1538); a failing resolver.ResolveWithDb (database.go lines 1315-1317)
aborts the loop and surfaces the error AFTER those writes; when the
loop drains, Hash and the SaveHashes side-table export run and trieRoot
succeeds.  The PutHash rows are (prefix index, hash) pairs. -/

structure TDSBuffers where
  storageUpdates : List (List Nat × List Nat)
  accountUpdates : List (List Nat)
  deleted : List (List Nat)
deriving DecidableEq, Repr

/-- clearUpdates (database.go lines 1331-1335): all three pending
buffers are replaced by fresh empty maps. -/
def clearUpdates (_ : TDSBuffers) : TDSBuffers :=
  { storageUpdates := [], accountUpdates := [], deleted := [] }

inductive TrieRootEvent where
  | applied (writes : List (Nat × List Nat)) : TrieRootEvent
  | resolveFailed : TrieRootEvent
deriving DecidableEq, Repr

/-- The driver loop of trieRoot: accumulated side-table writes and
whether the loop drained without a resolution error.  A failure keeps
the writes of the continuations already applied and discards nothing
retroactively. -/
def trieRootRun : List TrieRootEvent → List (Nat × List Nat) × Bool
  | [] => ([], true)
  | .applied ws :: rest =>
    let r := trieRootRun rest
    (ws ++ r.1, r.2)
  | .resolveFailed :: _ => ([], false)

/-- TrieRoot (database.go lines 1027-1031): trieRoot's result (the root
hash, or none for its error), then clearUpdates unconditionally.  The
third component lists the hash side-table rows written during the call;
on success the SaveHashes export rows follow the loop's rows. -/
def TrieRoot (b : TDSBuffers) (events : List TrieRootEvent)
    (hash : List Nat) (exported : List (Nat × List Nat)) :
    Option (List Nat) × TDSBuffers × List (Nat × List Nat) :=
  match trieRootRun events with
  | (ws, true) => (some hash, clearUpdates b, ws ++ exported)
  | (ws, false) => (none, clearUpdates b, ws)

theorem trieRootRun_prefix_writes :
    ∀ (pre : List (List (Nat × List Nat))) (rest : List TrieRootEvent),
    trieRootRun (pre.map .applied ++ .resolveFailed :: rest) =
      (pre.flatten, false) := by
  intro pre
  induction pre with
  | nil =>
    intro rest
    rfl
  | cons ws pre IH =>
    intro rest
    show (ws ++ (trieRootRun (pre.map .applied ++ .resolveFailed :: rest)).1,
      (trieRootRun (pre.map .applied ++ .resolveFailed :: rest)).2) = _
    rw [IH rest]
    simp

/-- Claim C3 counterexample: a failing TrieRoot neither leaves the
pending buffers unchanged (clearUpdates runs on the error path too) nor
guarantees an untouched hash side-table: a continuation applied before
the failing resolution round has already written its zero-entry rows. -/
theorem C3_counterexample :
    ∃ (b : TDSBuffers) (events : List TrieRootEvent) (hash : List Nat)
      (exported : List (Nat × List Nat)),
      (TrieRoot b events hash exported).1 = none ∧
      (TrieRoot b events hash exported).2.1 ≠ b ∧
      (TrieRoot b events hash exported).2.2 ≠ [] :=
  ⟨{ storageUpdates := [], accountUpdates := [[1]], deleted := [] },
    [.applied [(0, List.replicate 32 0)], .resolveFailed], [], [],
    rfl, by decide, by decide⟩

/-- Claim C3 (corrected): when TrieRoot returns an error the pending
buffers do not survive — clearUpdates runs unconditionally — and the
hash side-table holds exactly the zero-entry rows of the continuations
applied before the failing resolution round (possibly none, possibly
some); only the SaveHashes export is withheld. -/
theorem C3_error_buffers_cleared_sidetable_partial (b : TDSBuffers)
    (pre : List (List (Nat × List Nat))) (rest : List TrieRootEvent)
    (hash : List Nat) (exported : List (Nat × List Nat)) :
    (TrieRoot b (pre.map .applied ++ .resolveFailed :: rest) hash exported).1 =
      none ∧
    (TrieRoot b (pre.map .applied ++ .resolveFailed :: rest) hash exported).2.1 =
      clearUpdates b ∧
    (TrieRoot b (pre.map .applied ++ .resolveFailed :: rest) hash exported).2.2 =
      pre.flatten ∧
    (∀ events : List TrieRootEvent,
      (TrieRoot b events hash exported).2.1 = clearUpdates b) := by
  have h := trieRootRun_prefix_writes pre rest
  refine ⟨?_, ?_, ?_, ?_⟩
  · rw [TrieRoot, h]
  · rw [TrieRoot, h]
  · rw [TrieRoot, h]
  · intro events
    rw [TrieRoot]
    rcases trieRootRun events with ⟨ws, ok⟩
    cases ok <;> rfl

/-! ## Big-endian byte strings: values and lengths -/

def beVal (l : List Nat) : Nat := l.foldl (fun acc b => acc * 256 + b) 0

theorem beVal_append_singleton (l : List Nat) (b : Nat) :
    beVal (l ++ [b]) = beVal l * 256 + b := by
  simp [beVal, List.foldl_append]

@[simp] theorem beBytesAux_zero (fuel : Nat) : beBytesAux fuel 0 = [] := by
  cases fuel <;> simp [beBytesAux]

theorem beBytesAux_congr : ∀ f1 : Nat, ∀ f2 n : Nat, n ≤ f1 → n ≤ f2 →
    beBytesAux f1 n = beBytesAux f2 n := by
  intro f1
  induction f1 with
  | zero =>
    intro f2 n h1 _
    have : n = 0 := by omega
    subst this
    simp
  | succ f1 IH =>
    intro f2 n h1 h2
    by_cases h0 : n = 0
    · subst h0
      simp
    · cases f2 with
      | zero => omega
      | succ f2 =>
        show (if n = 0 then [] else beBytesAux f1 (n / 256) ++ [n % 256]) =
          (if n = 0 then [] else beBytesAux f2 (n / 256) ++ [n % 256])
        rw [if_neg h0, if_neg h0]
        have hd : n / 256 < n := Nat.div_lt_self (by omega) (by omega)
        rw [IH f2 (n / 256) (by omega) (by omega)]

@[simp] theorem beBytes_zero : beBytes 0 = [] := rfl

theorem beBytes_eq (n : Nat) (hn : n ≠ 0) :
    beBytes n = beBytes (n / 256) ++ [n % 256] := by
  show beBytesAux n n = beBytesAux (n / 256) (n / 256) ++ [n % 256]
  cases n with
  | zero => omega
  | succ m =>
    show (if m + 1 = 0 then [] else beBytesAux m ((m + 1) / 256) ++ [(m + 1) % 256]) = _
    rw [if_neg hn]
    have hd : (m + 1) / 256 < m + 1 := Nat.div_lt_self (by omega) (by omega)
    rw [beBytesAux_congr m ((m + 1) / 256) ((m + 1) / 256) (by omega) (le_refl _)]

theorem beVal_beBytes : ∀ n : Nat, beVal (beBytes n) = n := by
  intro n
  induction n using Nat.strong_induction_on with
  | _ n IH =>
  by_cases h0 : n = 0
  · subst h0
    rfl
  · rw [beBytes_eq n h0, beVal_append_singleton,
      IH (n / 256) (Nat.div_lt_self (by omega) (by omega))]
    omega

theorem beBytes_ne_nil (n : Nat) (hn : n ≠ 0) : beBytes n ≠ [] := by
  rw [beBytes_eq n hn]
  simp

theorem beBytes_length_le : ∀ n k : Nat, n < 256 ^ k → (beBytes n).length ≤ k := by
  intro n
  induction n using Nat.strong_induction_on with
  | _ n IH =>
  intro k hk
  by_cases h0 : n = 0
  · subst h0
    simp
  · have hk0 : k ≠ 0 := by
      intro h
      subst h
      simp at hk
      omega
    rw [beBytes_eq n h0]
    have hdiv : n / 256 < 256 ^ (k - 1) := by
      rw [Nat.div_lt_iff_lt_mul (by omega)]
      calc n < 256 ^ k := hk
        _ = 256 ^ (k - 1) * 256 := by
          rw [← Nat.pow_succ]
          congr 1
          omega
    have := IH (n / 256) (Nat.div_lt_self (by omega) (by omega)) (k - 1) hdiv
    simp only [List.length_append, List.length_cons, List.length_nil]
    omega

theorem beBytes_length_lower : ∀ n k : Nat, 256 ^ k ≤ n → k < (beBytes n).length := by
  intro n
  induction n using Nat.strong_induction_on with
  | _ n IH =>
  intro k hk
  have h0 : n ≠ 0 := by
    have : 0 < 256 ^ k := Nat.pos_pow_of_pos k (by omega)
    omega
  rw [beBytes_eq n h0]
  simp only [List.length_append, List.length_cons, List.length_nil]
  by_cases hk0 : k = 0
  · subst hk0
    omega
  · have hdiv : 256 ^ (k - 1) ≤ n / 256 := by
      rw [Nat.le_div_iff_mul_le (by omega)]
      calc 256 ^ (k - 1) * 256 = 256 ^ k := by
            rw [← Nat.pow_succ]
            congr 1
            omega
        _ ≤ n := hk
    have := IH (n / 256) (Nat.div_lt_self (by omega) (by omega)) (k - 1) hdiv
    omega

theorem beBytes_length_eq (n k : Nat) (hlo : 256 ^ k ≤ n) (hhi : n < 256 ^ (k + 1)) :
    (beBytes n).length = k + 1 := by
  have h1 := beBytes_length_le n (k + 1) hhi
  have h2 := beBytes_length_lower n k hlo
  omega

/-! ## Account encoding (database.go lines 1443-1505)

An Account carries a uint64 nonce, a big-integer balance (a nil pointer
is possible and distinct from zero), a 32-byte storage root (a value
type: never nil, the all-zero hash plays the "unset" role) and a code
hash byte slice (nil possible).  ExtAccount is the two-field
(nonce, balance) shape.  rlp.EncodeToBytes/DecodeBytes follow the
standard recursive-length-prefix form already defined above
(encodeBytes / encodeListPayload); integers are the minimal big-endian
byte string. -/

structure Account where
  Nonce : Nat
  Balance : Option Nat
  Root : List Nat
  CodeHash : Option (List Nat)
deriving DecidableEq, Repr

/-- crypto.Keccak256(nil), the hash of empty code (database.go line 33
area). -/
def emptyCodeHash : List Nat :=
  [0xc5, 0xd2, 0x46, 0x01, 0x86, 0xf7, 0x23, 0x3c,
   0x92, 0x7e, 0x7d, 0xb2, 0xdc, 0xc7, 0x03, 0xc0,
   0xe5, 0x00, 0xb6, 0x53, 0xca, 0x82, 0x27, 0x3b,
   0x7b, 0xfa, 0xd8, 0x04, 0x5d, 0x85, 0xa4, 0x70]

/-- The zero value common.Hash{}. -/
def zeroHash : List Nat := List.replicate 32 0

/-- RLP of an unsigned integer: the minimal big-endian byte string,
string-encoded. -/
def rlpUint (n : Nat) : List Nat := encodeBytes (beBytes n)

/-- accountToEncoding (database.go lines 1443-1478). -/
def accountToEncoding (a : Account) : List Nat :=
  if (a.CodeHash = none ∨ a.CodeHash = some emptyCodeHash) ∧
     (a.Root = emptyRoot ∨ a.Root = zeroHash) then
    if (a.Balance = none ∨ a.Balance = some 0) ∧ a.Nonce = 0 then
      [192]
    else
      encodeListPayload (rlpUint a.Nonce ++ rlpUint (a.Balance.getD 0))
  else
    encodeListPayload (rlpUint a.Nonce ++ rlpUint (a.Balance.getD 0) ++
      encodeBytes (if a.Root = zeroHash then emptyRoot else a.Root) ++
      encodeBytes (a.CodeHash.getD emptyCodeHash))

/-- Splits one RLP string item off the front: (payload, rest); none on a
non-string header or truncated input. -/
def rlpParseBytes (enc : List Nat) : Option (List Nat × List Nat) :=
  match enc with
  | [] => none
  | b :: rest =>
    if b < 128 then some ([b], rest)
    else if b ≤ 183 then
      if b - 128 ≤ rest.length then
        some (rest.take (b - 128), rest.drop (b - 128))
      else none
    else if b < 192 then
      if b - 183 ≤ rest.length then
        if beVal (rest.take (b - 183)) ≤ (rest.drop (b - 183)).length then
          some ((rest.drop (b - 183)).take (beVal (rest.take (b - 183))),
                (rest.drop (b - 183)).drop (beVal (rest.take (b - 183))))
        else none
      else none
    else none

/-- The payload of a whole-input RLP list; none when the input is not a
list or the announced length disagrees with the input. -/
def rlpParseListPayload (enc : List Nat) : Option (List Nat) :=
  match enc with
  | [] => none
  | b :: rest =>
    if b < 192 then none
    else if b ≤ 247 then
      if rest.length = b - 192 then some rest else none
    else
      if b - 247 ≤ rest.length ∧
         beVal (rest.take (b - 247)) = (rest.drop (b - 247)).length then
        some (rest.drop (b - 247))
      else none

/-- rlp.DecodeBytes into ExtAccount: a two-item list (nonce, balance). -/
def decodeExtAccount (enc : List Nat) : Option (Nat × Nat) :=
  match rlpParseListPayload enc with
  | none => none
  | some p =>
    match rlpParseBytes p with
    | none => none
    | some (nb, r1) =>
      match rlpParseBytes r1 with
      | none => none
      | some (bb, r2) => if r2 = [] then some (beVal nb, beVal bb) else none

/-- rlp.DecodeBytes into a full Account: a four-item list (nonce,
balance, root, code hash); the root must be exactly 32 bytes
(common.Hash). -/
def decodeFullAccount (enc : List Nat) : Option Account :=
  match rlpParseListPayload enc with
  | none => none
  | some p =>
    match rlpParseBytes p with
    | none => none
    | some (nb, r1) =>
      match rlpParseBytes r1 with
      | none => none
      | some (bb, r2) =>
        match rlpParseBytes r2 with
        | none => none
        | some (rb, r3) =>
          match rlpParseBytes r3 with
          | none => none
          | some (cb, r4) =>
            if r4 = [] ∧ rb.length = 32 then
              some { Nonce := beVal nb, Balance := some (beVal bb),
                     Root := rb, CodeHash := some cb }
            else none

/-- encodingToAccount (database.go lines 1480-1505): the outer none is a
decode error, the inner none is the nil account returned for empty
input. -/
def encodingToAccount (enc : List Nat) : Option (Option Account) :=
  if enc = [] then some none
  else if enc.length = 1 then
    some (some { Nonce := 0, Balance := some 0, Root := emptyRoot,
                 CodeHash := some emptyCodeHash })
  else if enc.length < 60 then
    match decodeExtAccount enc with
    | none => none
    | some (n, b) =>
      some (some { Nonce := n, Balance := some b, Root := emptyRoot,
                   CodeHash := some emptyCodeHash })
  else
    match decodeFullAccount enc with
    | none => none
    | some a => some (some a)

/-- The normalization the claim allows: nil balance to zero, nil code
hash to the empty-code hash, zero storage root to the empty-trie root. -/
def normalizeAccount (a : Account) : Account :=
  { Nonce := a.Nonce,
    Balance := some (a.Balance.getD 0),
    Root := if a.Root = zeroHash then emptyRoot else a.Root,
    CodeHash := some (a.CodeHash.getD emptyCodeHash) }

/-! ## RLP length facts and parse/encode round trips -/

theorem encodeBytes_single (x : Nat) (h : x < 128) : encodeBytes [x] = [x] := by
  unfold encodeBytes
  rw [if_pos ⟨rfl, by simpa using h⟩]

theorem encodeBytes_short (b : List Nat) (h1 : ¬(b.length = 1 ∧ b.getD 0 0 < 128))
    (h2 : b.length ≤ 55) : encodeBytes b = (128 + b.length) :: b := by
  unfold encodeBytes
  rw [if_neg h1, if_pos h2]

theorem encodeBytes_long (b : List Nat) (h2 : ¬(b.length ≤ 55)) :
    encodeBytes b = (183 + (beBytes b.length).length) :: (beBytes b.length ++ b) := by
  unfold encodeBytes
  rw [if_neg (by intro hc; omega), if_neg h2]

theorem encodeBytes_ne_nil (b : List Nat) : encodeBytes b ≠ [] := by
  unfold encodeBytes
  split
  · rename_i h
    intro hnil
    subst hnil
    simp at h
  · split <;> simp

theorem encodeBytes_length_pos (b : List Nat) : 1 ≤ (encodeBytes b).length :=
  List.length_pos.mpr (encodeBytes_ne_nil b)

theorem encodeBytes_length_ge_content (b : List Nat) :
    b.length ≤ (encodeBytes b).length := by
  unfold encodeBytes
  split
  · rename_i h
    omega
  · split
    · simp only [List.length_cons]
      omega
    · simp only [List.length_cons, List.length_append]
      omega

theorem encodeBytes_length_le (b : List Nat) :
    (encodeBytes b).length ≤ 1 + (beBytes b.length).length + b.length := by
  unfold encodeBytes
  split
  · omega
  · split
    · simp only [List.length_cons]
      omega
    · simp only [List.length_cons, List.length_append]
      omega

theorem encodeBytes_length_32 (b : List Nat) (h : b.length = 32) :
    (encodeBytes b).length = 33 := by
  rw [encodeBytes_short b (by intro hc; omega) (by omega)]
  simp [h]

theorem encodeListPayload_short (p : List Nat) (h : p.length ≤ 55) :
    encodeListPayload p = (192 + p.length) :: p := by
  unfold encodeListPayload
  rw [if_pos h]

theorem encodeListPayload_long (p : List Nat) (h : ¬(p.length ≤ 55)) :
    encodeListPayload p = (247 + (beBytes p.length).length) :: (beBytes p.length ++ p) := by
  unfold encodeListPayload
  rw [if_neg h]

theorem encodeListPayload_ne_nil (p : List Nat) : encodeListPayload p ≠ [] := by
  unfold encodeListPayload
  split <;> simp

theorem encodeListPayload_length_ge (p : List Nat) :
    p.length + 1 ≤ (encodeListPayload p).length := by
  unfold encodeListPayload
  split
  · simp only [List.length_cons]
    omega
  · simp only [List.length_cons, List.length_append]
    omega

theorem encodeListPayload_length_short (p : List Nat) (h : p.length ≤ 55) :
    (encodeListPayload p).length = p.length + 1 := by
  rw [encodeListPayload_short p h]
  simp

theorem encodeListPayload_length_long (p : List Nat) (h : ¬(p.length ≤ 55)) :
    (encodeListPayload p).length = 1 + (beBytes p.length).length + p.length := by
  rw [encodeListPayload_long p h]
  simp only [List.length_cons, List.length_append]
  omega

theorem beBytes_length_ge_one {n : Nat} (h : n ≠ 0) : 1 ≤ (beBytes n).length := by
  have := beBytes_ne_nil n h
  exact List.length_pos.mpr this

theorem rlpParseBytes_encodeBytes (b rest : List Nat)
    (hlen : (beBytes b.length).length ≤ 8) :
    rlpParseBytes (encodeBytes b ++ rest) = some (b, rest) := by
  by_cases h1 : b.length = 1 ∧ b.getD 0 0 < 128
  · obtain ⟨x, hx⟩ := List.length_eq_one.mp h1.1
    subst hx
    have hx128 : x < 128 := by simpa using h1.2
    rw [encodeBytes_single x hx128]
    show rlpParseBytes (x :: rest) = some ([x], rest)
    simp [rlpParseBytes, hx128]
  · by_cases h2 : b.length ≤ 55
    · rw [encodeBytes_short b h1 h2]
      show rlpParseBytes ((128 + b.length) :: (b ++ rest)) = some (b, rest)
      simp only [rlpParseBytes]
      rw [if_neg (show ¬(128 + b.length < 128) from by omega),
        if_pos (show 128 + b.length ≤ 183 from by omega),
        show 128 + b.length - 128 = b.length from by omega,
        if_pos (show b.length ≤ (b ++ rest).length from by simp),
        List.take_left, List.drop_left]
    · have hne : b.length ≠ 0 := by omega
      have hL1 : 1 ≤ (beBytes b.length).length := beBytes_length_ge_one hne
      rw [encodeBytes_long b h2]
      show rlpParseBytes ((183 + (beBytes b.length).length) ::
        ((beBytes b.length ++ b) ++ rest)) = some (b, rest)
      rw [List.append_assoc]
      simp only [rlpParseBytes]
      rw [if_neg (show ¬(183 + (beBytes b.length).length < 128) from by omega),
        if_neg (show ¬(183 + (beBytes b.length).length ≤ 183) from by omega),
        if_pos (show 183 + (beBytes b.length).length < 192 from by omega),
        show 183 + (beBytes b.length).length - 183 = (beBytes b.length).length from by
          omega,
        if_pos (show (beBytes b.length).length ≤
          (beBytes b.length ++ (b ++ rest)).length from by simp),
        List.take_left, List.drop_left, beVal_beBytes,
        if_pos (show b.length ≤ (b ++ rest).length from by simp),
        List.take_left, List.drop_left]

theorem rlpParseListPayload_encodeListPayload (p : List Nat)
    (hlen : (beBytes p.length).length ≤ 8) :
    rlpParseListPayload (encodeListPayload p) = some p := by
  by_cases h : p.length ≤ 55
  · rw [encodeListPayload_short p h]
    simp only [rlpParseListPayload]
    rw [if_neg (show ¬(192 + p.length < 192) from by omega),
      if_pos (show 192 + p.length ≤ 247 from by omega),
      if_pos (show p.length = 192 + p.length - 192 from by omega)]
  · have hne : p.length ≠ 0 := by omega
    have hL1 : 1 ≤ (beBytes p.length).length := beBytes_length_ge_one hne
    rw [encodeListPayload_long p h]
    simp only [rlpParseListPayload]
    rw [if_neg (show ¬(247 + (beBytes p.length).length < 192) from by omega),
      if_neg (show ¬(247 + (beBytes p.length).length ≤ 247) from by omega),
      show 247 + (beBytes p.length).length - 247 = (beBytes p.length).length from by
        omega]
    have hc : (beBytes p.length).length ≤ (beBytes p.length ++ p).length ∧
        beVal ((beBytes p.length ++ p).take (beBytes p.length).length) =
          ((beBytes p.length ++ p).drop (beBytes p.length).length).length := by
      refine ⟨by simp, ?_⟩
      rw [List.take_left, List.drop_left, beVal_beBytes]
    rw [if_pos hc, List.drop_left]

theorem decodeExtAccount_encode (nonce bal : Nat)
    (hn : (beBytes (beBytes nonce).length).length ≤ 8)
    (hb : (beBytes (beBytes bal).length).length ≤ 8)
    (hp : (beBytes (rlpUint nonce ++ rlpUint bal).length).length ≤ 8) :
    decodeExtAccount (encodeListPayload (rlpUint nonce ++ rlpUint bal)) =
      some (nonce, bal) := by
  have h1 := rlpParseListPayload_encodeListPayload (rlpUint nonce ++ rlpUint bal) hp
  have h2 : rlpParseBytes (rlpUint nonce ++ rlpUint bal) =
      some (beBytes nonce, rlpUint bal) :=
    rlpParseBytes_encodeBytes (beBytes nonce) (rlpUint bal) hn
  have h3 : rlpParseBytes (rlpUint bal) = some (beBytes bal, []) := by
    have := rlpParseBytes_encodeBytes (beBytes bal) [] hb
    simpa using this
  simp [decodeExtAccount, h1, h2, h3, beVal_beBytes]

theorem decodeFullAccount_encode (nonce bal : Nat) (rt ch : List Nat)
    (hrt : rt.length = 32) (hch32 : ch.length = 32)
    (hn : (beBytes (beBytes nonce).length).length ≤ 8)
    (hb : (beBytes (beBytes bal).length).length ≤ 8)
    (hp : (beBytes (rlpUint nonce ++ rlpUint bal ++ encodeBytes rt ++
      encodeBytes ch).length).length ≤ 8) :
    decodeFullAccount (encodeListPayload (rlpUint nonce ++ rlpUint bal ++
      encodeBytes rt ++ encodeBytes ch)) =
      some { Nonce := nonce, Balance := some bal, Root := rt,
             CodeHash := some ch } := by
  have h1 := rlpParseListPayload_encodeListPayload
    (rlpUint nonce ++ rlpUint bal ++ encodeBytes rt ++ encodeBytes ch) hp
  have hassoc : rlpUint nonce ++ rlpUint bal ++ encodeBytes rt ++ encodeBytes ch =
      rlpUint nonce ++ (rlpUint bal ++ (encodeBytes rt ++ encodeBytes ch)) := by
    simp [List.append_assoc]
  have h2 : rlpParseBytes (rlpUint nonce ++
      (rlpUint bal ++ (encodeBytes rt ++ encodeBytes ch))) =
      some (beBytes nonce, rlpUint bal ++ (encodeBytes rt ++ encodeBytes ch)) :=
    rlpParseBytes_encodeBytes (beBytes nonce) _ hn
  have h3 : rlpParseBytes (rlpUint bal ++ (encodeBytes rt ++ encodeBytes ch)) =
      some (beBytes bal, encodeBytes rt ++ encodeBytes ch) :=
    rlpParseBytes_encodeBytes (beBytes bal) _ hb
  have h4 : rlpParseBytes (encodeBytes rt ++ encodeBytes ch) =
      some (rt, encodeBytes ch) := by
    apply rlpParseBytes_encodeBytes
    rw [hrt]
    decide
  have h5 : rlpParseBytes (encodeBytes ch) = some (ch, []) := by
    have := rlpParseBytes_encodeBytes ch [] (by rw [hch32]; decide)
    simpa using this
  rw [hassoc] at h1
  simp [decodeFullAccount, h1, h2, h3, h4, h5, beVal_beBytes, hrt]

/-- Claim C4 (corrected): decoding the encoding of an account is the
identity modulo the claimed normalizations, provided the account's
hashes have their Go sizes (32-byte root, nil-or-32-byte code hash, a
uint64 nonce, a balance of bounded width) and, when both hash fields sit
at their empty sentinels, the two-field encoding stays under the 60-byte
decoder dispatch threshold.  Without the last proviso the claim fails:
see the counterexample. -/
theorem C4_account_roundtrip (a : Account)
    (hroot : a.Root.length = 32)
    (hch : ∀ c : List Nat, a.CodeHash = some c → c.length = 32)
    (hnonce : a.Nonce < 256 ^ 8)
    (hbal : (beBytes (a.Balance.getD 0)).length ≤ 8192)
    (hsent : (a.CodeHash = none ∨ a.CodeHash = some emptyCodeHash) →
             (a.Root = emptyRoot ∨ a.Root = zeroHash) →
             (accountToEncoding a).length < 60) :
    encodingToAccount (accountToEncoding a) = some (some (normalizeAccount a)) := by
  have hereoot : emptyRoot ≠ zeroHash := by decide
  have hnlen : (beBytes a.Nonce).length ≤ 8 := beBytes_length_le _ 8 hnonce
  have hn1 : (beBytes (beBytes a.Nonce).length).length ≤ 1 := by
    have h256 : (beBytes a.Nonce).length < 256 ^ 1 := by
      have : (256:Nat) ^ 1 = 256 := by norm_num
      omega
    exact beBytes_length_le (beBytes a.Nonce).length 1 h256
  have hn8 : (beBytes (beBytes a.Nonce).length).length ≤ 8 := by omega
  have hb2 : (beBytes (beBytes (a.Balance.getD 0)).length).length ≤ 2 := by
    have h256 : (beBytes (a.Balance.getD 0)).length < 256 ^ 2 := by
      have : (256:Nat) ^ 2 = 65536 := by norm_num
      omega
    exact beBytes_length_le (beBytes (a.Balance.getD 0)).length 2 h256
  have hb8 : (beBytes (beBytes (a.Balance.getD 0)).length).length ≤ 8 := by omega
  by_cases hs : (a.CodeHash = none ∨ a.CodeHash = some emptyCodeHash) ∧
      (a.Root = emptyRoot ∨ a.Root = zeroHash)
  · by_cases hz : (a.Balance = none ∨ a.Balance = some 0) ∧ a.Nonce = 0
    · have henc : accountToEncoding a = [192] := by
        unfold accountToEncoding
        rw [if_pos hs, if_pos hz]
      rw [henc]
      have hnorm : normalizeAccount a =
          { Nonce := 0, Balance := some 0, Root := emptyRoot,
            CodeHash := some emptyCodeHash } := by
        unfold normalizeAccount
        rcases hz with ⟨hbz, hn0⟩
        rcases hs with ⟨hcs, hrs⟩
        rcases hbz with h | h <;> rcases hcs with h2 | h2 <;>
          rcases hrs with h3 | h3 <;> simp [h, h2, h3, hn0, hereoot]
      rw [hnorm]
      rfl
    · have henc : accountToEncoding a =
          encodeListPayload (rlpUint a.Nonce ++ rlpUint (a.Balance.getD 0)) := by
        unfold accountToEncoding
        rw [if_pos hs, if_neg hz]
      have hlt60 : (encodeListPayload (rlpUint a.Nonce ++
          rlpUint (a.Balance.getD 0))).length < 60 := by
        have := hsent hs.1 hs.2
        rw [henc] at this
        exact this
      have hplen : (rlpUint a.Nonce ++ rlpUint (a.Balance.getD 0)).length ≤ 58 := by
        have := encodeListPayload_length_ge
          (rlpUint a.Nonce ++ rlpUint (a.Balance.getD 0))
        omega
      have hp8 : (beBytes (rlpUint a.Nonce ++
          rlpUint (a.Balance.getD 0)).length).length ≤ 8 := by
        have h256 : (rlpUint a.Nonce ++ rlpUint (a.Balance.getD 0)).length <
            256 ^ 1 := by
          have : (256:Nat) ^ 1 = 256 := by norm_num
          omega
        have := beBytes_length_le
          (rlpUint a.Nonce ++ rlpUint (a.Balance.getD 0)).length 1 h256
        omega
      have hdec := decodeExtAccount_encode a.Nonce (a.Balance.getD 0) hn8 hb8 hp8
      have g1 : 1 ≤ (rlpUint a.Nonce).length := encodeBytes_length_pos (beBytes a.Nonce)
      have g2 : 1 ≤ (rlpUint (a.Balance.getD 0)).length :=
        encodeBytes_length_pos (beBytes (a.Balance.getD 0))
      have hlen2 : 2 ≤ (rlpUint a.Nonce ++ rlpUint (a.Balance.getD 0)).length := by
        simp only [List.length_append]
        omega
      have hge3 : 3 ≤ (encodeListPayload (rlpUint a.Nonce ++
          rlpUint (a.Balance.getD 0))).length := by
        have := encodeListPayload_length_ge
          (rlpUint a.Nonce ++ rlpUint (a.Balance.getD 0))
        omega
      have hnorm : normalizeAccount a =
          { Nonce := a.Nonce, Balance := some (a.Balance.getD 0),
            Root := emptyRoot, CodeHash := some emptyCodeHash } := by
        unfold normalizeAccount
        rcases hs with ⟨hcs, hrs⟩
        rcases hcs with h2 | h2 <;> rcases hrs with h3 | h3 <;>
          simp [h2, h3, hereoot]
      rw [henc, hnorm]
      unfold encodingToAccount
      rw [if_neg (encodeListPayload_ne_nil _),
        if_neg (show ¬((encodeListPayload (rlpUint a.Nonce ++
          rlpUint (a.Balance.getD 0))).length = 1) from by omega),
        if_pos hlt60, hdec]
  · have henc : accountToEncoding a =
        encodeListPayload (rlpUint a.Nonce ++ rlpUint (a.Balance.getD 0) ++
          encodeBytes (if a.Root = zeroHash then emptyRoot else a.Root) ++
          encodeBytes (a.CodeHash.getD emptyCodeHash)) := by
      unfold accountToEncoding
      rw [if_neg hs]
    have hrtlen : (if a.Root = zeroHash then emptyRoot else a.Root).length = 32 := by
      by_cases h : a.Root = zeroHash
      · rw [if_pos h]
        decide
      · rw [if_neg h]
        exact hroot
    have hchlen : (a.CodeHash.getD emptyCodeHash).length = 32 := by
      cases hc : a.CodeHash with
      | none => decide
      | some c => simpa using hch c hc
    have hrtE : (encodeBytes (if a.Root = zeroHash then emptyRoot
        else a.Root)).length = 33 := encodeBytes_length_32 _ hrtlen
    have hchE : (encodeBytes (a.CodeHash.getD emptyCodeHash)).length = 33 :=
      encodeBytes_length_32 _ hchlen
    have hnE : (rlpUint a.Nonce).length ≤ 10 := by
      show (encodeBytes (beBytes a.Nonce)).length ≤ 10
      have := encodeBytes_length_le (beBytes a.Nonce)
      omega
    have hbE : (rlpUint (a.Balance.getD 0)).length ≤ 8195 := by
      show (encodeBytes (beBytes (a.Balance.getD 0))).length ≤ 8195
      have := encodeBytes_length_le (beBytes (a.Balance.getD 0))
      omega
    have g1 : 1 ≤ (rlpUint a.Nonce).length := encodeBytes_length_pos (beBytes a.Nonce)
    have g2 : 1 ≤ (rlpUint (a.Balance.getD 0)).length :=
      encodeBytes_length_pos (beBytes (a.Balance.getD 0))
    have hplen : (rlpUint a.Nonce ++ rlpUint (a.Balance.getD 0) ++
        encodeBytes (if a.Root = zeroHash then emptyRoot else a.Root) ++
        encodeBytes (a.CodeHash.getD emptyCodeHash)).length ≤ 8271 := by
      simp only [List.length_append]
      omega
    have hpayge : 68 ≤ (rlpUint a.Nonce ++ rlpUint (a.Balance.getD 0) ++
        encodeBytes (if a.Root = zeroHash then emptyRoot else a.Root) ++
        encodeBytes (a.CodeHash.getD emptyCodeHash)).length := by
      simp only [List.length_append]
      omega
    have hp8 : (beBytes (rlpUint a.Nonce ++ rlpUint (a.Balance.getD 0) ++
        encodeBytes (if a.Root = zeroHash then emptyRoot else a.Root) ++
        encodeBytes (a.CodeHash.getD emptyCodeHash)).length).length ≤ 8 := by
      have h256 : (rlpUint a.Nonce ++ rlpUint (a.Balance.getD 0) ++
          encodeBytes (if a.Root = zeroHash then emptyRoot else a.Root) ++
          encodeBytes (a.CodeHash.getD emptyCodeHash)).length < 256 ^ 2 := by
        have : (256:Nat) ^ 2 = 65536 := by norm_num
        omega
      have := beBytes_length_le _ 2 h256
      omega
    have hdec := decodeFullAccount_encode a.Nonce (a.Balance.getD 0)
      (if a.Root = zeroHash then emptyRoot else a.Root)
      (a.CodeHash.getD emptyCodeHash) hrtlen hchlen hn8 hb8 hp8
    have hlen69 : 69 ≤ (encodeListPayload (rlpUint a.Nonce ++
        rlpUint (a.Balance.getD 0) ++
        encodeBytes (if a.Root = zeroHash then emptyRoot else a.Root) ++
        encodeBytes (a.CodeHash.getD emptyCodeHash))).length := by
      have := encodeListPayload_length_ge (rlpUint a.Nonce ++
        rlpUint (a.Balance.getD 0) ++
        encodeBytes (if a.Root = zeroHash then emptyRoot else a.Root) ++
        encodeBytes (a.CodeHash.getD emptyCodeHash))
      omega
    rw [henc]
    unfold encodingToAccount
    rw [if_neg (encodeListPayload_ne_nil _),
      if_neg (show ¬((encodeListPayload (rlpUint a.Nonce ++
        rlpUint (a.Balance.getD 0) ++
        encodeBytes (if a.Root = zeroHash then emptyRoot else a.Root) ++
        encodeBytes (a.CodeHash.getD emptyCodeHash))).length = 1) from by omega),
      if_neg (show ¬((encodeListPayload (rlpUint a.Nonce ++
        rlpUint (a.Balance.getD 0) ++
        encodeBytes (if a.Root = zeroHash then emptyRoot else a.Root) ++
        encodeBytes (a.CodeHash.getD emptyCodeHash))).length < 60) from by omega),
      hdec]
    rfl

/-- An account whose two-field sentinel encoding reaches 61 bytes: nonce
0, balance 2 raised to 440 (a 56-byte big-endian integer), empty
sentinels for root and code hash. -/
def C4badAccount : Account :=
  { Nonce := 0, Balance := some (2 ^ 440), Root := zeroHash, CodeHash := none }

/-- Claim C4 counterexample: the balance-only account with balance 2^440
encodes through the two-field ExtAccount shape into 61 bytes, so the
decoder's length-based dispatch (len < 60) sends it to the four-field
full-account decoder, which fails on the two-item list: the round trip
is a decode error, not the normalized account. -/
theorem C4_counterexample :
    encodingToAccount (accountToEncoding C4badAccount) = none ∧
    encodingToAccount (accountToEncoding C4badAccount) ≠
      some (some (normalizeAccount C4badAccount)) := by
  have hpow : (0:Nat) < 2 ^ 440 := Nat.pos_pow_of_pos _ (by omega)
  have hne0 : (2:Nat) ^ 440 ≠ 0 := hpow.ne'
  have henc : accountToEncoding C4badAccount =
      encodeListPayload (rlpUint 0 ++ rlpUint (2 ^ 440)) := by
    simp [accountToEncoding, C4badAccount, hne0]
  have h8 : (256:Nat) = 2 ^ 8 := by norm_num
  have hlo : (256:Nat) ^ 55 ≤ 2 ^ 440 := by
    rw [h8, ← pow_mul]
  have hhi : (2:Nat) ^ 440 < 256 ^ 56 := by
    rw [h8, ← pow_mul]
    exact Nat.pow_lt_pow_right (by omega) (by omega)
  have h440 : (beBytes (2 ^ 440)).length = 56 := by
    have := beBytes_length_eq (2 ^ 440) 55 hlo (by simpa using hhi)
    simpa using this
  have h56 : (beBytes 56).length = 1 := by decide
  have hlen58 : (rlpUint (2 ^ 440)).length = 58 := by
    show (encodeBytes (beBytes (2 ^ 440))).length = 58
    rw [encodeBytes_long (beBytes (2 ^ 440)) (by rw [h440]; omega)]
    simp [h440, h56]
  have hplen : (rlpUint 0 ++ rlpUint (2 ^ 440)).length = 59 := by
    have h0 : (rlpUint 0).length = 1 := by decide
    simp [h0, hlen58]
  have h59 : (beBytes 59).length = 1 := by decide
  have hlen61 : (encodeListPayload (rlpUint 0 ++ rlpUint (2 ^ 440))).length = 61 := by
    rw [encodeListPayload_length_long _ (by rw [hplen]; omega), hplen, h59]
  have h1 := rlpParseListPayload_encodeListPayload (rlpUint 0 ++ rlpUint (2 ^ 440))
    (by rw [hplen]; decide)
  have h2 : rlpParseBytes (rlpUint 0 ++ rlpUint (2 ^ 440)) =
      some ([], rlpUint (2 ^ 440)) :=
    rlpParseBytes_encodeBytes (beBytes 0) (rlpUint (2 ^ 440)) (by decide)
  have h3 : rlpParseBytes (rlpUint (2 ^ 440)) = some (beBytes (2 ^ 440), []) := by
    have := rlpParseBytes_encodeBytes (beBytes (2 ^ 440)) [] (by rw [h440]; decide)
    simpa using this
  have h4 : rlpParseBytes ([] : List Nat) = none := rfl
  have hfull : decodeFullAccount (encodeListPayload (rlpUint 0 ++
      rlpUint (2 ^ 440))) = none := by
    simp [decodeFullAccount, h1, h2, h3, h4]
  have hdecode : encodingToAccount (encodeListPayload (rlpUint 0 ++
      rlpUint (2 ^ 440))) = none := by
    unfold encodingToAccount
    rw [if_neg (encodeListPayload_ne_nil _),
      if_neg (show ¬((encodeListPayload (rlpUint 0 ++
        rlpUint (2 ^ 440))).length = 1) from by omega),
      if_neg (show ¬((encodeListPayload (rlpUint 0 ++
        rlpUint (2 ^ 440))).length < 60) from by omega),
      hfull]
  refine ⟨?_, ?_⟩
  · rw [henc]
    exact hdecode
  · rw [henc, hdecode]
    simp

/-- A well-sized account taking the four-field encoding shape. -/
def C4sampleAccount : Account :=
  { Nonce := 1, Balance := some 5, Root := List.replicate 32 1,
    CodeHash := some emptyCodeHash }

theorem C4_account_roundtrip_witness :
    C4sampleAccount.Root.length = 32 ∧
    (∀ c : List Nat, C4sampleAccount.CodeHash = some c → c.length = 32) ∧
    C4sampleAccount.Nonce < 256 ^ 8 ∧
    (beBytes (C4sampleAccount.Balance.getD 0)).length ≤ 8192 ∧
    ((C4sampleAccount.CodeHash = none ∨
        C4sampleAccount.CodeHash = some emptyCodeHash) →
      (C4sampleAccount.Root = emptyRoot ∨ C4sampleAccount.Root = zeroHash) →
      (accountToEncoding C4sampleAccount).length < 60) ∧
    encodingToAccount (accountToEncoding C4sampleAccount) =
      some (some (normalizeAccount C4sampleAccount)) :=
  ⟨by decide,
   by
     intro c hc
     have hce : some emptyCodeHash = some c := hc
     injection hce with h
     rw [← h]
     decide,
   by decide,
   by decide,
   fun _ h2 => absurd h2 (by decide),
   C4_account_roundtrip C4sampleAccount (by decide)
     (by
       intro c hc
       have hce : some emptyCodeHash = some c := hc
       injection hce with h
       rw [← h]
       decide)
     (by decide) (by decide) (fun _ h2 => absurd h2 (by decide))⟩

/-! ## The database state writer (database.go lines 1781-1937)

DbStateWriter writes current-state rows and appends pre-update values to
the historical log.  The backing store is modelled as the list of
effects a call performs; key hashing (HashAddress / HashKey) is done by
the caller's keccak and enters here only as the resulting hash bytes. -/

def AccountsBucket : List Nat := [65, 84]
def AccountsHistoryBucket : List Nat := [104, 65, 84]
def StorageBucket : List Nat := [83, 84]
def StorageHistoryBucket : List Nat := [104, 83, 84]

inductive DbEffect where
  | put (bucket : List Nat) (key : List Nat) (value : List Nat) : DbEffect
  | del (bucket : List Nat) (key : List Nat) : DbEffect
  | putS (bucket : List Nat) (key : List Nat) (value : List Nat)
      (blockNr : Nat) : DbEffect
deriving DecidableEq, Repr

/-- accountsEqual (database.go lines 1781-1807): field-wise comparison;
a nil balance or code hash equals only another nil one. -/
def accountsEqual (a1 a2 : Account) : Bool :=
  decide (a1.Nonce = a2.Nonce) &&
  (match a1.Balance, a2.Balance with
   | none, none => true
   | none, some _ => false
   | some _, none => false
   | some b1, some b2 => decide (b1 = b2)) &&
  decide (a1.Root = a2.Root) &&
  (match a1.CodeHash, a2.CodeHash with
   | none, none => true
   | none, some _ => false
   | some _, none => false
   | some c1, some c2 => decide (c1 = c2))

theorem accountsEqual_iff (a1 a2 : Account) :
    accountsEqual a1 a2 = true ↔
      (a1.Nonce = a2.Nonce ∧ a1.Balance = a2.Balance ∧ a1.Root = a2.Root ∧
       a1.CodeHash = a2.CodeHash) := by
  unfold accountsEqual
  cases hb1 : a1.Balance <;> cases hb2 : a2.Balance <;>
    cases hc1 : a1.CodeHash <;> cases hc2 : a2.CodeHash <;>
      simp [Bool.and_eq_true, decide_eq_true_eq, and_assoc]

/-- DbStateWriter.UpdateAccountData (database.go lines 1818-1847): the
current-state row is always written; the historical row is skipped in
no-history mode or when the accounts compare equal; a nil original
balance logs empty bytes. -/
def dbUpdateAccountData (noHistory : Bool) (blockNr : Nat) (addrHash : List Nat)
    (original account : Account) : List DbEffect :=
  DbEffect.put AccountsBucket addrHash (accountToEncoding account) ::
    (if noHistory then []
     else if accountsEqual original account then []
     else [DbEffect.putS AccountsHistoryBucket addrHash
       (if original.Balance = none then [] else accountToEncoding original)
       blockNr])

def trimLeftZeros : List Nat → List Nat
  | [] => []
  | a :: r => if a = 0 then trimLeftZeros r else a :: r

/-- DbStateWriter.WriteAccountStorage (database.go lines 1910-1937): an
unchanged slot returns before touching the store; otherwise the
current-state row is written (or deleted when the stripped value is
empty) and, unless no-history is on, the stripped original value is
logged. -/
def dbWriteAccountStorage (noHistory : Bool) (blockNr : Nat)
    (address seckey original value : List Nat) : List DbEffect :=
  if original = value then []
  else
    (if trimLeftZeros value = [] then
       [DbEffect.del StorageBucket (address ++ seckey)]
     else
       [DbEffect.put StorageBucket (address ++ seckey) (trimLeftZeros value)]) ++
    (if noHistory then []
     else [DbEffect.putS StorageHistoryBucket (address ++ seckey)
       (trimLeftZeros original) blockNr])

/-- Claim C8: for every account update through the database writer the
current-state row is always written, and a historical-log entry is
appended iff no-history mode is off and the original and new account
records differ in some field (nonce, balance, storage root or code
hash); a storage write appends to the historical log only when the
original value differs from the new one. -/
theorem C8_history_iff_changed (noHistory : Bool) (blockNr : Nat)
    (addrHash : List Nat) (original account : Account)
    (address seckey originalVal value : List Nat) :
    DbEffect.put AccountsBucket addrHash (accountToEncoding account) ∈
      dbUpdateAccountData noHistory blockNr addrHash original account ∧
    ((∃ d bn, DbEffect.putS AccountsHistoryBucket addrHash d bn ∈
        dbUpdateAccountData noHistory blockNr addrHash original account) ↔
      (noHistory = false ∧
        ¬(original.Nonce = account.Nonce ∧ original.Balance = account.Balance ∧
          original.Root = account.Root ∧
          original.CodeHash = account.CodeHash))) ∧
    ((∃ d bn, DbEffect.putS StorageHistoryBucket (address ++ seckey) d bn ∈
        dbWriteAccountStorage noHistory blockNr address seckey originalVal value) →
      originalVal ≠ value) := by
  refine ⟨List.mem_cons_self _ _, ?_, ?_⟩
  · unfold dbUpdateAccountData
    cases noHistory with
    | true =>
      simp
    | false =>
      by_cases heq : accountsEqual original account = true
      · rw [if_neg (by simp), if_pos heq]
        constructor
        · rintro ⟨d, bn, hmem⟩
          simp at hmem
        · rintro ⟨_, hdiff⟩
          exact absurd ((accountsEqual_iff original account).mp heq) hdiff
      · rw [if_neg (by simp), if_neg heq]
        constructor
        · intro _
          refine ⟨rfl, ?_⟩
          intro hconj
          exact heq ((accountsEqual_iff original account).mpr hconj)
        · intro _
          exact ⟨(if original.Balance = none then []
            else accountToEncoding original), blockNr, by simp⟩
  · rintro ⟨d, bn, hmem⟩ heqv
    unfold dbWriteAccountStorage at hmem
    rw [if_pos heqv] at hmem
    simp at hmem

/-! ## The stateless verifier constructor (part_000 lines 51-138)

NewStateless builds the account trie from the witness (NewFromProofs,
whose reconstruction and hashing are abstracted as the resulting root
hash), compares its hash with the claimed pre-state root, and for each
contract address reconstructs the storage trie, looks the contract's
account up in the account trie, decodes it and compares its storage
root against the storage trie's hash.  A contract is modelled by the
reconstructed storage-trie hash, the bytes TryGet returns for its
address hash, and whether tryGet1 completed (gotValue); when it did not,
the fallback t.tryGet dereferences the nil database — a panic, not an
error — and an empty encoding decodes to a nil account whose Root field
dereference also panics. -/

structure StorageCheck where
  stHash : List Nat
  acctEnc : List Nat
  resolved : Bool
deriving DecidableEq, Repr

inductive SRes where
  | ok
  | rootMismatch
  | decodeFailure
  | storageRootMismatch
  | panic
deriving DecidableEq, Repr

def SRes.isErr : SRes → Bool
  | .ok => false
  | .panic => false
  | _ => true

def newStatelessLoop : List StorageCheck → SRes
  | [] => .ok
  | c :: rest =>
    if c.resolved then
      match encodingToAccount c.acctEnc with
      | none => .decodeFailure
      | some none => .panic
      | some (some a) =>
        if a.Root = c.stHash then newStatelessLoop rest
        else .storageRootMismatch
    else .panic

/-- NewStateless (part_000 lines 51-138): the claimed pre-state root is
checked against the reconstructed account trie's hash first; then each
contract's storage trie hash is checked against its account's storage
root. -/
def newStateless (stateRoot tHash : List Nat) (contracts : List StorageCheck) :
    SRes :=
  if stateRoot = tHash then newStatelessLoop contracts else .rootMismatch

theorem encodingToAccount_some_none {enc : List Nat}
    (h : encodingToAccount enc = some none) : enc = [] := by
  by_cases hnil : enc = []
  · exact hnil
  · exfalso
    unfold encodingToAccount at h
    rw [if_neg hnil] at h
    by_cases h1 : enc.length = 1
    · rw [if_pos h1] at h
      simp at h
    · rw [if_neg h1] at h
      by_cases h60 : enc.length < 60
      · rw [if_pos h60] at h
        rcases hd : decodeExtAccount enc with _ | p
        · rw [hd] at h
          simp at h
        · rw [hd] at h
          simp at h
      · rw [if_neg h60] at h
        rcases hd : decodeFullAccount enc with _ | a
        · rw [hd] at h
          simp at h
        · rw [hd] at h
          simp at h

theorem newStatelessLoop_err_iff : ∀ contracts : List StorageCheck,
    (∀ c ∈ contracts, c.resolved = true) →
    (∀ c ∈ contracts, c.acctEnc ≠ []) →
    ((newStatelessLoop contracts).isErr = true ↔
      ∃ c ∈ contracts, encodingToAccount c.acctEnc = none ∨
        ∃ a, encodingToAccount c.acctEnc = some (some a) ∧ a.Root ≠ c.stHash) := by
  intro contracts
  induction contracts with
  | nil =>
    intro _ _
    simp [newStatelessLoop, SRes.isErr]
  | cons c rest IH =>
    intro hres hne
    have hcres : c.resolved = true := hres c (by simp)
    have hcne : c.acctEnc ≠ [] := hne c (by simp)
    have hstep : newStatelessLoop (c :: rest) =
        (match encodingToAccount c.acctEnc with
         | none => SRes.decodeFailure
         | some none => SRes.panic
         | some (some a) =>
           if a.Root = c.stHash then newStatelessLoop rest
           else SRes.storageRootMismatch) := by
      rw [newStatelessLoop, if_pos hcres]
    rcases hd : encodingToAccount c.acctEnc with _ | oa
    · rw [hstep, hd]
      constructor
      · intro _
        exact ⟨c, by simp, Or.inl hd⟩
      · intro _
        rfl
    · rcases oa with _ | a
      · exact absurd (encodingToAccount_some_none hd) hcne
      · rw [hstep, hd]
        show (if a.Root = c.stHash then newStatelessLoop rest
          else SRes.storageRootMismatch).isErr = true ↔ _
        by_cases hr : a.Root = c.stHash
        · rw [if_pos hr]
          rw [IH (fun x hx => hres x (by simp [hx]))
            (fun x hx => hne x (by simp [hx]))]
          constructor
          · rintro ⟨x, hx, hfail⟩
            exact ⟨x, by simp [hx], hfail⟩
          · rintro ⟨x, hx, hfail⟩
            rcases List.mem_cons.mp hx with hxc | hxr
            · subst hxc
              rcases hfail with hfail | ⟨a2, ha2, hne2⟩
              · rw [hd] at hfail
                simp at hfail
              · rw [hd] at ha2
                have : a = a2 := by
                  simpa using ha2
                subst this
                exact absurd hr hne2
            · exact ⟨x, hxr, hfail⟩
        · rw [if_neg hr]
          constructor
          · intro _
            exact ⟨c, by simp, Or.inr ⟨a, hd, hr⟩⟩
          · intro _
            rfl

/-- Claim C7: NewStateless fails exactly when the reconstructed account
trie's hash differs from the claimed pre-state root, or some contract's
reconstructed storage-trie hash differs from the storage root of that
contract's decoded account, or an account record fails to decode — under
the no-panic side conditions that every contract's account lookup
completed on the resolved witness and returned a non-empty encoding. -/
theorem C7_stateless_error_iff (stateRoot tHash : List Nat)
    (contracts : List StorageCheck)
    (hres : ∀ c ∈ contracts, c.resolved = true)
    (hne : ∀ c ∈ contracts, c.acctEnc ≠ []) :
    (newStateless stateRoot tHash contracts).isErr = true ↔
      (stateRoot ≠ tHash ∨
       ∃ c ∈ contracts, encodingToAccount c.acctEnc = none ∨
         ∃ a, encodingToAccount c.acctEnc = some (some a) ∧ a.Root ≠ c.stHash) := by
  unfold newStateless
  by_cases hroot : stateRoot = tHash
  · rw [if_pos hroot]
    rw [newStatelessLoop_err_iff contracts hres hne]
    constructor
    · intro h
      exact Or.inr h
    · intro h
      rcases h with h | h
      · exact absurd hroot h
      · exact h
  · rw [if_neg hroot]
    constructor
    · intro _
      exact Or.inl hroot
    · intro _
      rfl

theorem C7_stateless_error_iff_witness :
    (∀ c ∈ ([] : List StorageCheck), c.resolved = true) ∧
    (∀ c ∈ ([] : List StorageCheck), c.acctEnc ≠ []) ∧
    ((newStateless [1] [2] []).isErr = true ↔
      (([1] : List Nat) ≠ [2] ∨
       ∃ c ∈ ([] : List StorageCheck), encodingToAccount c.acctEnc = none ∨
         ∃ a, encodingToAccount c.acctEnc = some (some a) ∧ a.Root ≠ c.stHash)) :=
  ⟨by simp, by simp,
    C7_stateless_error_iff [1] [2] [] (by simp) (by simp)⟩

/-! ## Generational unloading (trie.go lines 2752-2828)

unloadOlderThan replaces a node whose generation t is older than the
cutoff with a Hash placeholder.  A dirty node is first hashed; the
hasher writes 32 bytes when the node is the root (forced) or its
encoding reaches 32 bytes, and fewer otherwise (an embedded node).  In
the Short and Duo arms the embedded case returns (nil, false) — the node
stays resolved.  In the Full arm the corresponding return sits right
after an unconditional return inside the same block (trie.go lines
2813-2815), so it is unreachable: control falls through to the
unconditional replacement by hashNode(n.hash()), unloading the embedded
node.  The model translates that fall-through as written.  The cached
hash n.hash() is the flags' hash field; the encoder is the hasher's
encode function, a parameter. -/

def unloadOlderThan (enc : node → List Nat) (keccak : List Nat → List Nat)
    (gen : Nat) : node → Bool → node × Bool
  | .nilNode, _ => (.nilNode, false)
  | .shortNode k val fl, isRoot =>
    if fl.t < gen then
      if fl.dirty then
        if isRoot = true ∨ 32 ≤ (enc (.shortNode k val fl)).length then
          (.hashNode (keccak (enc (.shortNode k val fl))), true)
        else (.shortNode k val fl, false)
      else (.hashNode fl.hash, true)
    else
      if fl.tod < gen then
        (.shortNode k (unloadOlderThan enc keccak gen val false).1 fl, false)
      else (.shortNode k val fl, false)
  | .duoNode i1 i2 c1 c2 fl, isRoot =>
    if fl.t < gen then
      if fl.dirty then
        if isRoot = true ∨ 32 ≤ (enc (.duoNode i1 i2 c1 c2 fl)).length then
          (.hashNode (keccak (enc (.duoNode i1 i2 c1 c2 fl))), true)
        else (.duoNode i1 i2 c1 c2 fl, false)
      else (.hashNode fl.hash, true)
    else
      if fl.tod < gen then
        (.duoNode i1 i2 (unloadOlderThan enc keccak gen c1 false).1
          (unloadOlderThan enc keccak gen c2 false).1 fl, false)
      else (.duoNode i1 i2 c1 c2 fl, false)
  | .fullNode ch fl, isRoot =>
    if fl.t < gen then
      if fl.dirty then
        if isRoot = true ∨ 32 ≤ (enc (.fullNode ch fl)).length then
          (.hashNode (keccak (enc (.fullNode ch fl))), true)
        else
          (.hashNode fl.hash, true)
      else (.hashNode fl.hash, true)
    else
      (.fullNode (ch.attach.map (fun c =>
        if c.1.isNull then c.1
        else (unloadOlderThan enc keccak gen c.1 false).1)) fl, false)
  | .valueNode v, _ => (.valueNode v, false)
  | .hashNode h, _ => (.hashNode h, false)
termination_by n _ => sizeOf n
decreasing_by
  · simp only [node.shortNode.sizeOf_spec]
    omega
  · simp only [node.duoNode.sizeOf_spec]
    omega
  · simp only [node.duoNode.sizeOf_spec]
    omega
  · have := List.sizeOf_lt_of_mem c.2
    simp only [node.fullNode.sizeOf_spec]
    omega

/-- UnloadOlderThan (trie.go lines 2752-2761): the walk mutates children
in place, so the root object after the call is the walked node in both
cases; when the walk reports unloaded, the root is additionally replaced
by the returned hash node.  Both are the pair's first component. -/
def UnloadOlderThan (enc : node → List Nat) (keccak : List Nat → List Nat)
    (gen : Nat) (root : node) : node × Bool :=
  unloadOlderThan enc keccak gen root true

theorem unload_fullNode (enc : node → List Nat) (keccak : List Nat → List Nat)
    (gen : Nat) (ch : List node) (fl : Flags) (isRoot : Bool) :
    unloadOlderThan enc keccak gen (.fullNode ch fl) isRoot =
      (if fl.t < gen then
        if fl.dirty then
          if isRoot = true ∨ 32 ≤ (enc (.fullNode ch fl)).length then
            (.hashNode (keccak (enc (.fullNode ch fl))), true)
          else
            (.hashNode fl.hash, true)
        else (.hashNode fl.hash, true)
      else
        (.fullNode (ch.attach.map (fun c =>
          if c.1.isNull then c.1
          else (unloadOlderThan enc keccak gen c.1 false).1)) fl, false)) := by
  rw [unloadOlderThan]

def keccak0 : List Nat → List Nat := fun _ => []

/-- A three-byte leaf: one hex nibble of key plus terminator, one byte of
value. -/
def C6leaf (j : Nat) : node :=
  .shortNode (hexToCompact [j, 16]) (.valueNode [7]) {}

def C6children : List node :=
  [C6leaf 0, C6leaf 1, C6leaf 2] ++ List.replicate 14 .nilNode

def C6flags : Flags := { dirty := true, t := 0, tod := 0, hash := [170] }

/-- A dirty Full node with three tiny leaves: its encoding is 24 bytes,
well under the 32-byte embedding threshold. -/
def C6node : node := .fullNode C6children C6flags

/-- Claim C6 counterexample: pruning with cutoff generation 1 replaces
the embedded (24-byte-encoding) dirty Full node of generation 0 by a
Hash placeholder carrying its cached short hash — the Full arm of
unloadOlderThan unloads embedded nodes, unlike the Short and Duo arms. -/
theorem C6_embedded_full_unloaded :
    (encodeNode keccak0 C6node).length < 32 ∧
    unloadOlderThan (encodeNode keccak0) keccak0 1 C6node false =
      (.hashNode [170], true) := by
  have hleaf0 : encodeNode keccak0 (C6leaf 0) = [194, 48, 7] := by
    rw [C6leaf, encodeNode_shortNode, encodeNode_valueNode]
    decide
  have hleaf1 : encodeNode keccak0 (C6leaf 1) = [194, 49, 7] := by
    rw [C6leaf, encodeNode_shortNode, encodeNode_valueNode]
    decide
  have hleaf2 : encodeNode keccak0 (C6leaf 2) = [194, 50, 7] := by
    rw [C6leaf, encodeNode_shortNode, encodeNode_valueNode]
    decide
  have hpay : (List.range 17).flatMap (fun j =>
      nodeRef keccak0 (encodeNode keccak0 (C6children.getD j .nilNode))) =
      [194, 48, 7, 194, 49, 7, 194, 50, 7,
       128, 128, 128, 128, 128, 128, 128, 128, 128, 128, 128, 128, 128, 128] := by
    rw [show List.range 17 =
      [0, 1, 2, 3, 4, 5, 6, 7, 8, 9, 10, 11, 12, 13, 14, 15, 16] from by decide]
    simp only [List.flatMap_cons, List.flatMap_nil, List.append_nil]
    rw [show C6children.getD 0 .nilNode = C6leaf 0 from rfl,
      show C6children.getD 1 .nilNode = C6leaf 1 from rfl,
      show C6children.getD 2 .nilNode = C6leaf 2 from rfl,
      show C6children.getD 3 .nilNode = .nilNode from rfl,
      show C6children.getD 4 .nilNode = .nilNode from rfl,
      show C6children.getD 5 .nilNode = .nilNode from rfl,
      show C6children.getD 6 .nilNode = .nilNode from rfl,
      show C6children.getD 7 .nilNode = .nilNode from rfl,
      show C6children.getD 8 .nilNode = .nilNode from rfl,
      show C6children.getD 9 .nilNode = .nilNode from rfl,
      show C6children.getD 10 .nilNode = .nilNode from rfl,
      show C6children.getD 11 .nilNode = .nilNode from rfl,
      show C6children.getD 12 .nilNode = .nilNode from rfl,
      show C6children.getD 13 .nilNode = .nilNode from rfl,
      show C6children.getD 14 .nilNode = .nilNode from rfl,
      show C6children.getD 15 .nilNode = .nilNode from rfl,
      show C6children.getD 16 .nilNode = .nilNode from rfl,
      hleaf0, hleaf1, hleaf2]
    simp only [encodeNode_nilNode]
    decide
  have hlen : (encodeNode keccak0 C6node).length < 32 := by
    rw [show C6node = .fullNode C6children C6flags from rfl, encodeNode_fullNode,
      hpay]
    decide
  refine ⟨hlen, ?_⟩
  rw [show C6node = .fullNode C6children C6flags from rfl, unload_fullNode,
    if_pos (show C6flags.t < 1 from by decide),
    if_pos (show C6flags.dirty = true from rfl),
    if_neg ?_]
  · rfl
  · rintro (h | h)
    · simp at h
    · rw [show node.fullNode C6children C6flags = C6node from rfl] at h
      omega

end GoEth
